import Mathlib

/-!
# TransposeLargeFile: a shallow embedding of `TransposeLargeFile.cpp`

The development follows the source file top-down:

* `FileAsArray` (lines 70-125): the windowed reader, `Get` and `WriteTo`;
* `Rewrite` (lines 129-194): the splitter;
* `MakeMatrix` (lines 223-253) with `NukeNl`, `ReadToEndl` and the
  `fscanf (..., "%d %d ", ...)` call it is built on: the reassembler.

Modelling conventions.

* A `char` is a natural number (`Byte`); a file is a `List Byte`.
* An `int` has 32 bits.  The counters `row`, `col` and `correct_row_count` of
  `Rewrite` are kept as their two's-complement bit pattern, a natural number
  below `2^32`: `++` adds one modulo `2^32` (signed overflow is undefined in
  C++; this is the wrap-around of the machine addition) and `printf("%d")`
  writes a pattern from `2^31` on as the negative value it stands for.  The
  `%d` conversions of `fscanf` store their result reduced to the range of
  `int` (`storeInt`).  The theorems about whole tables carry the bounds under
  which no counter and no index leaves the range `[0, 2^31)`.
* `int64_t` offsets are unbounded integers (a file has fewer than `2^63`
  bytes).
* Members and locals that the source reads before it writes them
  (`read_buf_start_`, `read_buf_end_`, the two `LineBuf` locals of
  `MakeMatrix`) hold indeterminate values; these are explicit parameters.
* `exit(-1)` is an outcome of the function that calls it, together with the
  bytes written to the output stream up to there.
* `Get` is defined for offsets in `[0, file_length_]`; a call outside that
  range is an outcome of its own (`Exit.outside`).
* The `printf` calls that only report progress on standard output are left
  out, together with the variables that feed nothing else
  (`processed_rows`, `one_percent`, `cur_percent`).
* `fopen`, `fread` and the output calls are assumed to succeed.
* `LineBuf::line` is a list of bytes without a bound: a line of 1024 bytes or
  more, which `ReadToEndl` writes past the end of the array (there is no
  check), is kept as it was stored, and what the bytes past the array
  overwrite is not modelled.  The theorems about values that are read back
  carry the bound of 1024 bytes.

The file has three parts: the embedding of the source, the definitions the
statements are written with (tables, triplets, the list scan that `Rewrite`
refines, the sort that runs between the two commands), and the theorems.
-/

namespace TransposeLargeFile

/-- A C `char`, by its numeric value. -/
abbrev Byte := Nat

/-- Line 31: `const char FILE_DELIMITER = '\t';` -/
def FILE_DELIMITER : Byte := 9

/-- Line 32: `const int FILE_BUF_READ_SIZE_BYTES = 1024 * 512;` -/
def FILE_BUF_READ_SIZE_BYTES : Nat := 1024 * 512

/-- The character `'\n'`. -/
def NL : Byte := 10

/-- The character `'\r'`. -/
def CR : Byte := 13

/-- The character `' '`. -/
def SP : Byte := 32

/-! ## `FileAsArray` -/

/-- Lines 119-124: the private members of `FileAsArray`.  `read_file_` is the
content of the file behind the `FILE*`; `file_length_` is `Length` below;
`read_buf_` is the array of `FILE_BUF_READ_SIZE_BYTES` chars, indexed from 0. -/
structure FileAsArray where
  read_file_ : List Byte
  read_buf_start_ : Int
  read_buf_end_ : Int
  read_buf_ : Nat → Byte

namespace FileAsArray

/-- Line 117: `Length()` returns `file_length_`, which the constructor sets to
the size of the file (lines 75-78) and nothing changes afterwards. -/
def Length (f : FileAsArray) : Int := (f.read_file_.length : Int)

/-- Lines 73-80: the constructor.  It sets `file_length_` and allocates a
value-initialised (all zero) buffer; it assigns neither `read_buf_start_` nor
`read_buf_end_`, whose indeterminate values are `start0` and `end0`. -/
def new (input_file : List Byte) (start0 end0 : Int) : FileAsArray :=
  { read_file_ := input_file
    read_buf_start_ := start0
    read_buf_end_ := end0
    read_buf_ := fun _ => 0 }

/-- Lines 89-96: the miss branch of `Get`: the stream is positioned at `at_`,
`to_read = min(FILE_BUF_READ_SIZE_BYTES, file_length_ - at)` bytes are read to
the front of the buffer, and the rest of the buffer keeps its old content. -/
def fill (f : FileAsArray) (at_ : Int) : FileAsArray :=
  let to_read : Int := min (FILE_BUF_READ_SIZE_BYTES : Int) (f.Length - at_)
  { read_file_ := f.read_file_
    read_buf_start_ := at_
    read_buf_end_ := at_ + to_read
    read_buf_ := fun i =>
      if (i : Int) < to_read then f.read_file_.getD (at_.toNat + i) 0 else f.read_buf_ i }

/-- Lines 84-99: `Get(at)`: the byte returned and the reader after the call.
The result is `none` for an offset outside `[0, file_length_]`, where the
source seeks outside the file and what it reads is not determined by the
file content. -/
def Get (f : FileAsArray) (at_ : Int) : Option (Byte × FileAsArray) :=
  if at_ < 0 ∨ f.Length < at_ then none
  else if f.read_buf_start_ ≤ at_ ∧ at_ < f.read_buf_end_ then
    some (f.read_buf_ (at_ - f.read_buf_start_).toNat, f)
  else
    some ((f.fill at_).read_buf_ (at_ - (f.fill at_).read_buf_start_).toNat, f.fill at_)

/-- Outcome of `WriteTo`. -/
inductive WriteResult where
  /-- Line 107: `exit(-1)` after "Not designed to write more than ...". -/
  | notDesigned
  /-- One of the two `Get` calls was given an offset outside the file, or
  `length` is negative (`(size_t)length` is then larger than the buffer). -/
  | outside (at_ : Int)
  /-- The call returned: the sink after `fwrite` and the reader. -/
  | wrote (write_file : List Byte) (f : FileAsArray)

/-- The sink after a `WriteTo` that returned. -/
def WriteResult.sink : WriteResult → Option (List Byte)
  | .wrote write_file _ => some write_file
  | _ => none

/-- Lines 103-114: `WriteTo(start, length, write_file)`.  The sink is the list
of bytes written to it so far. -/
def WriteTo (f : FileAsArray) (start length : Int) (write_file : List Byte) : WriteResult :=
  if (FILE_BUF_READ_SIZE_BYTES : Int) ≤ length then .notDesigned
  else if length < 0 then .outside (start + length)
  else
    match f.Get (start + length) with
    | none => .outside (start + length)
    | some (_, f1) =>
      match f1.Get start with
      | none => .outside start
      | some (_, f2) =>
        let buf_idx : Int := start - f2.read_buf_start_
        .wrote (write_file ++
          (List.range length.toNat).map (fun i => f2.read_buf_ (buf_idx.toNat + i))) f2

end FileAsArray

/-! ## `Rewrite` -/

/-- Digits of `printf("%d", n)` for `n ≥ 0`, most significant first, in front
of `acc`; `fuel` bounds the number of digits. -/
def printfDigits : Nat → Nat → List Byte → List Byte
  | 0, _, acc => acc
  | fuel + 1, n, acc =>
    if n < 10 then (48 + n) :: acc
    else printfDigits fuel (n / 10) ((48 + n % 10) :: acc)

/-- The decimal digits of `n`: the text `printf("%d", n)` writes for a
non-negative `int`. -/
def printf_d (n : Nat) : List Byte := printfDigits (n + 1) n []

/-- The number of bit patterns of an `int`. -/
def INT_SIZE : Nat := 2 ^ 32

/-- `INT_MAX + 1`: the bit patterns from here on stand for negative values. -/
def INT_NEG : Nat := 2 ^ 31

/-- `n++` on an `int` given by its bit pattern (lines 171 and 179). -/
def intInc (n : Nat) : Nat := (n + 1) % INT_SIZE

/-- The text `printf("%d", n)` writes for the `int` with bit pattern `n`
(line 160): the digits of a value below `2^31`, and a minus sign and the
digits of `2^32 - n` otherwise. -/
def printf_int (n : Nat) : List Byte :=
  if n < INT_NEG then printf_d n else 45 :: printf_d (INT_SIZE - n)

/-- The ways `Rewrite` calls `exit(-1)` inside its loop. -/
inductive Exit where
  /-- Lines 152-155: "Lines end in delimiter, not supported". -/
  | linesEndInDelimiter
  /-- Lines 156-159: "\r endlines not supported." -/
  | crEndlines
  /-- Line 164 through lines 104-108: "Not designed to write more than ...". -/
  | notDesigned
  /-- Lines 184-189: "Row %d has wrong col count %d". -/
  | wrongColCount
  /-- A `Get` was given this offset outside `[0, file_length_]`. -/
  | outside (at_ : Int)
  deriving DecidableEq, Repr

/-- The local variables of `Rewrite` that live across loop iterations
(lines 131-141).  `output_file` is the list of bytes written to the output
stream so far; the `int` variables `row`, `col` and `correct_row_count` are
bit patterns. -/
structure RewriteState where
  input_file : FileAsArray
  output_file : List Byte
  row : Nat
  col : Nat
  cur_pos : Int
  last_start : Int
  correct_row_count : Nat

/-- Result of one iteration of the loop of `Rewrite`. -/
inductive Step where
  /-- The iteration reached `cur_pos++` on line 192. -/
  | next (s : RewriteState)
  /-- The iteration called `exit(-1)`; `output_file` is what had been written
  to the output stream. -/
  | exit (reason : Exit) (output_file : List Byte)

/-- Lines 152-159: the two end-of-line checks, each reading `Get(cur_pos - 1)`
only when `is_newline` holds (`&&` evaluates its right operand lazily). -/
def checkLineEnd (f : FileAsArray) (cur_pos : Int) (is_newline : Bool) :
    Except Exit FileAsArray :=
  if is_newline then
    match f.Get (cur_pos - 1) with
    | none => .error (.outside (cur_pos - 1))
    | some (c1, f1) =>
      if c1 = FILE_DELIMITER then .error .linesEndInDelimiter
      else
        match f1.Get (cur_pos - 1) with
        | none => .error (.outside (cur_pos - 1))
        | some (c2, f2) =>
          if c2 = CR then .error .crEndlines else .ok f2
  else .ok f

/-- Lines 169-191: the counters `row`, `col` and `correct_row_count` after the
byte has been classified; `none` is the `exit(-1)` of line 188. -/
def countLine (row col correct_row_count : Nat) (is_delimiter is_newline : Bool) :
    Option (Nat × Nat × Nat) :=
  let row := if is_delimiter then intInc row else row
  if is_newline then
    if correct_row_count = 0 then some (0, intInc col, row)
    else if correct_row_count ≠ row then none
    else some (0, intInc col, correct_row_count)
  else some (row, col, correct_row_count)

/-- Lines 169-192: the end of an iteration.  `f`, `output_file`, `cur_pos` and
`last_start` are the values after lines 151-167. -/
def endOfIteration (s : RewriteState) (f : FileAsArray) (output_file : List Byte)
    (cur_pos last_start : Int) (is_delimiter is_newline : Bool) : Step :=
  match countLine s.row s.col s.correct_row_count is_delimiter is_newline with
  | none => .exit .wrongColCount output_file
  | some (row, col, correct_row_count) =>
    .next { input_file := f, output_file := output_file, row := row, col := col,
            cur_pos := cur_pos + 1, last_start := last_start,
            correct_row_count := correct_row_count }

/-- Lines 147-192: one iteration of the `while` loop. -/
def RewriteBody (s : RewriteState) : Step :=
  let file_length := s.input_file.Length
  match s.input_file.Get s.cur_pos with
  | none => .exit (.outside s.cur_pos) s.output_file
  | some (cur_char, f0) =>
    let is_delimiter : Bool := cur_char = FILE_DELIMITER
    let is_newline : Bool := cur_char = NL
    let last_char_in_file : Bool := s.cur_pos = file_length - 1
    if is_delimiter || is_newline || last_char_in_file then
      match checkLineEnd f0 s.cur_pos is_newline with
      | .error e => .exit e s.output_file
      | .ok f1 =>
        let out1 := s.output_file ++ printf_int s.row ++ [SP] ++ printf_int s.col ++ [SP]
        let cur_pos := if last_char_in_file then s.cur_pos + 1 else s.cur_pos
        match f1.WriteTo s.last_start (cur_pos - s.last_start) out1 with
        | .notDesigned => .exit .notDesigned out1
        | .outside a => .exit (.outside a) out1
        | .wrote out2 f2 =>
          endOfIteration s f2 (out2 ++ [NL]) cur_pos (cur_pos + 1) is_delimiter is_newline
    else
      endOfIteration s f0 s.output_file s.cur_pos s.last_start is_delimiter is_newline

/-- How a run of `Rewrite` ends. -/
inductive Outcome where
  /-- The loop ended and `Rewrite` returned. -/
  | returned
  /-- The run called `exit(-1)`. -/
  | exited (reason : Exit)
  /-- The iteration bound of the model was used up (never the case for
  `Rewrite`, see `Rewrite_fuel`). -/
  | outOfFuel
  deriving DecidableEq, Repr

/-- Outcome of `Rewrite` and the bytes it had written to the output stream. -/
structure RewriteResult where
  outcome : Outcome
  written : List Byte
  deriving DecidableEq, Repr

/-- Lines 146-193: the `while (cur_pos < file_length)` loop, at most `fuel`
iterations. -/
def RewriteLoop : Nat → RewriteState → RewriteResult
  | 0, s =>
    if s.cur_pos < s.input_file.Length then ⟨.outOfFuel, s.output_file⟩
    else ⟨.returned, s.output_file⟩
  | fuel + 1, s =>
    if s.cur_pos < s.input_file.Length then
      match RewriteBody s with
      | .next s1 => RewriteLoop fuel s1
      | .exit e out => ⟨.exited e, out⟩
    else ⟨.returned, s.output_file⟩

/-- Lines 129-194: `Rewrite` on a file with content `input`.  `start0` and
`end0` are the indeterminate initial values of the reader's window bounds.
Every iteration increases `cur_pos`, so `input.length` iterations are enough. -/
def Rewrite (input : List Byte) (start0 end0 : Int) : RewriteResult :=
  RewriteLoop input.length
    { input_file := FileAsArray.new input start0 end0
      output_file := []
      row := 0
      col := 0
      cur_pos := 0
      last_start := 0
      correct_row_count := 0 }

/-- Lines 187-188: what the output file holds after
`output_file = OpenWriteFile(output_file_name); exit(-1);`.  The right-hand
side runs first and `fopen(..., "wb")` truncates the file; the assignment then
destroys the old `FILE*` through `fclose` (lines 41-43), which writes the bytes
still buffered in the old stream at that stream's own file position.  Here
`flushed` is the number of bytes the old stream had already passed to the file
and `written` is everything that was written to it; the gap left by the
truncation reads as zero bytes. -/
def fileAfterReopen (flushed : Nat) (written : List Byte) : List Byte :=
  if written.length ≤ flushed then []
  else List.replicate flushed 0 ++ written.drop flushed

/-! ## `MakeMatrix` -/

/-- A `FILE*` opened for reading: the bytes not read yet and the end-of-file
indicator tested by `feof`. -/
structure InFile where
  rest : List Byte
  eof : Bool
  deriving DecidableEq, Repr

/-- The C `isspace` in the "C" locale. -/
def isspace (c : Byte) : Bool := c = 32 || (9 ≤ c && c ≤ 13)

/-- The C `isdigit`. -/
def isdigit (c : Byte) : Bool := 48 ≤ c && c ≤ 57

/-- White space in a `scanf` format, and the white space skipped before `%d`:
input is read up to the first byte that is not white space, which is pushed
back; reading at the end of the file sets the end-of-file indicator. -/
def skipSpace (f : InFile) : InFile :=
  let rest := f.rest.dropWhile isspace
  { rest := rest, eof := f.eof || rest.isEmpty }

/-- The digits of a `%d` conversion: `acc` is the value read so far. -/
def scanDigits : List Byte → Nat → Nat × List Byte
  | [], acc => (acc, [])
  | c :: cs, acc => if isdigit c then scanDigits cs (10 * acc + (c - 48)) else (acc, c :: cs)

/-- The value a `%d` conversion stores into its `int` for the number `v` that
the digits and the sign spell.  The C library converts as `strtol`, which
keeps the number inside the range of `long` (64 bits), and the assignment to
the `int` keeps the low 32 bits: `2147483648` is stored as `-2147483648` and
`4294967296` as `0`. -/
def storeInt (v : Int) : Int :=
  (max (-(2 ^ 63 : Int)) (min v (2 ^ 63 - 1)) + 2 ^ 31) % 2 ^ 32 - 2 ^ 31

/-- One `%d` conversion of `fscanf`: skip white space, accept a sign, read
digits.  `none` is an input failure (end of file) or a matching failure (no
digit); the bytes consumed up to there stay consumed. -/
def scanInt (f : InFile) : InFile × Option Int :=
  let f1 := skipSpace f
  match f1.rest with
  | [] => (f1, none)
  | c :: cs =>
    let neg : Bool := c = 45
    let body := if c = 45 ∨ c = 43 then cs else c :: cs
    match body with
    | [] => ({ rest := [], eof := true }, none)
    | d :: ds =>
      if isdigit d then
        let r := scanDigits (d :: ds) 0
        ({ rest := r.2, eof := f1.eof || r.2.isEmpty },
          some (storeInt (if neg then - (r.1 : Int) else (r.1 : Int))))
      else ({ rest := d :: ds, eof := f1.eof }, none)

/-- Lines 230 and 235: `fscanf(input, "%d %d ", &row, &col)`.  A conversion
that fails ends the call and leaves its variable, and the following ones,
unchanged. -/
def fscanf_d_d (f : InFile) (row col : Int) : InFile × Int × Int :=
  match scanInt f with
  | (f1, none) => (f1, row, col)
  | (f1, some r) =>
    match scanInt (skipSpace f1) with
    | (f2, none) => (f2, r, col)
    | (f2, some c) => (skipSpace f2, r, c)

/-- Lines 212-219: `ReadToEndl`: the bytes stored in `into` in front of the
terminating `'\0'`, and the stream after the call.  The `'\n'` is consumed;
`fgetc` at the end of the file sets the end-of-file indicator. -/
def ReadToEndl : List Byte → List Byte × InFile
  | [] => ([], { rest := [], eof := true })
  | c :: cs =>
    if c = NL then ([], { rest := cs, eof := false })
    else
      match ReadToEndl cs with
      | (into, f) => (c :: into, f)

/-- The C string held by a `char` array whose leading bytes are `line` and
which has a `'\0'` after them. -/
def cstr (line : List Byte) : List Byte := line.takeWhile (fun c => c ≠ 0)

/-- Lines 203-210: `NukeNl`: the string is cut at its first `'\n'`. -/
def NukeNl (line : List Byte) : List Byte := (cstr line).takeWhile (fun c => c ≠ NL)

/-- Lines 197-201: `LineBuf`; `line` is the C string that starts at the `line`
array. -/
structure LineBuf where
  row : Int
  col : Int
  line : List Byte
  deriving DecidableEq, Repr

/-- How a run of `MakeMatrix` ends. -/
inductive MatrixOutcome where
  /-- The function returned. -/
  | returned
  /-- The iteration bound of the model was used up. -/
  | outOfFuel
  deriving DecidableEq, Repr

/-- Outcome of `MakeMatrix` and the bytes written to the output file. -/
structure MatrixResult where
  outcome : MatrixOutcome
  written : List Byte
  deriving DecidableEq, Repr

/-- Lines 230-232 and 235-237: read one record into a `LineBuf` whose `row`
and `col` are `row` and `col` before the call.  There is no check against the
1024 bytes of `line`: the bytes of a longer line are stored all the same. -/
def readRecord (f : InFile) (row col : Int) : LineBuf × InFile :=
  let s := fscanf_d_d f row col
  let r := ReadToEndl s.1.rest
  ({ row := s.2.1, col := s.2.2, line := NukeNl r.1 },
    { rest := r.2.rest, eof := s.1.eof || r.2.eof })

/-- Lines 234-249: the `while (!feof(input_file))` loop, at most `fuel`
iterations.  `cur_line` keeps its value from one iteration to the next. -/
def MakeMatrixLoop : Nat → InFile → LineBuf → LineBuf → List Byte → MatrixResult
  | 0, f, _, _, out =>
    if f.eof then ⟨.returned, out ++ [NL]⟩ else ⟨.outOfFuel, out⟩
  | fuel + 1, f, last_line, cur_line, out =>
    if f.eof then ⟨.returned, out ++ [NL]⟩
    else
      match readRecord f cur_line.row cur_line.col with
      | (cur, f1) =>
        let out1 := if last_line.col ≠ 0 then out ++ [FILE_DELIMITER] else out
        let out2 := out1 ++ cstr last_line.line
        let out3 := if cur.row ≠ last_line.row then out2 ++ [NL] else out2
        MakeMatrixLoop fuel f1 cur cur out3

/-- Lines 223-253: `MakeMatrix` on a file with content `input`.  `last0` and
`cur0` are the indeterminate initial values of the locals `last_line` and
`cur_line`.  Every iteration consumes a byte or sets the end-of-file
indicator (`readRecord_progress`), so `input.length + 1` iterations are
enough. -/
def MakeMatrix (input : List Byte) (last0 cur0 : LineBuf) : MatrixResult :=
  match readRecord { rest := input, eof := false } last0.row last0.col with
  | (last_line, f) => MakeMatrixLoop (input.length + 1) f last_line cur0 []

/-- Bytes of an ASCII string, for examples. -/
def bytes (s : String) : List Byte := s.toList.map Char.toNat

/-! ## Specification-side definitions -/

open FileAsArray

/-- The window invariant: the window `[read_buf_start_, read_buf_end_)` lies
inside the file, is at most `FILE_BUF_READ_SIZE_BYTES` long and the buffer holds
the bytes of the file for it. -/
def Valid (f : FileAsArray) : Prop :=
  0 ≤ f.read_buf_start_ ∧ f.read_buf_start_ ≤ f.read_buf_end_ ∧ f.read_buf_end_ ≤ f.Length ∧
  f.read_buf_end_ - f.read_buf_start_ ≤ (FILE_BUF_READ_SIZE_BYTES : Int) ∧
  ∀ i : Nat, f.read_buf_start_ + i < f.read_buf_end_ →
    f.read_buf_ i = f.read_file_.getD (f.read_buf_start_.toNat + i) 0

/-- The reader is ready for an access at `a`: the window is valid, or `a` is
outside it and the access fills it. -/
def Ready (f : FileAsArray) (a : Int) : Prop :=
  Valid f ∨ ¬ (f.read_buf_start_ ≤ a ∧ a < f.read_buf_end_)

/-- The variables of the scan of `Rewrite` when the file is read as a list:
`value` holds the bytes from `last_start` up to the current offset and `prev`
the byte in front of the current offset (`none` at offset 0). -/
structure ScanState where
  out : List Byte
  row : Nat
  col : Nat
  crc : Nat
  value : List Byte
  prev : Option Byte

/-- Result of one step of the list scan. -/
inductive ScanStep where
  | exit (reason : Exit) (out : List Byte)
  | next (st : ScanState)

/-- One iteration of the loop of `Rewrite` on the byte `c`, with the window
replaced by direct access to the file; `last` says that `c` is the last byte of
the file. -/
def scanStep (c : Byte) (last : Bool) (st : ScanState) : ScanStep :=
  let is_delimiter : Bool := c = FILE_DELIMITER
  let is_newline : Bool := c = NL
  if is_delimiter || is_newline || last then
    if c = NL ∧ st.prev = none then .exit (.outside (-1)) st.out
    else if c = NL ∧ st.prev = some FILE_DELIMITER then .exit .linesEndInDelimiter st.out
    else if c = NL ∧ st.prev = some CR then .exit .crEndlines st.out
    else
      let out1 := st.out ++ printf_int st.row ++ [SP] ++ printf_int st.col ++ [SP]
      let value := if last then st.value ++ [c] else st.value
      if FILE_BUF_READ_SIZE_BYTES ≤ value.length then .exit .notDesigned out1
      else
        match countLine st.row st.col st.crc is_delimiter is_newline with
        | none => .exit .wrongColCount (out1 ++ value ++ [NL])
        | some (row, col, crc) =>
          .next { out := out1 ++ value ++ [NL], row := row, col := col, crc := crc,
                  value := [], prev := some c }
  else
    match countLine st.row st.col st.crc is_delimiter is_newline with
    | none => .exit .wrongColCount st.out
    | some (row, col, crc) =>
      .next { out := st.out, row := row, col := col, crc := crc,
              value := st.value ++ [c], prev := some c }

/-- The loop of `Rewrite` as a scan of the list of bytes of the file. -/
def scanList : List Byte → ScanState → RewriteResult
  | [], st => ⟨.returned, st.out⟩
  | c :: rest, st =>
    match scanStep c rest.isEmpty st with
    | .exit e out => ⟨.exited e, out⟩
    | .next st1 => scanList rest st1

/-- The state of the list scan at the start of the file. -/
def scanInit : ScanState :=
  { out := [], row := 0, col := 0, crc := 0, value := [], prev := none }

/-- A triplet record. -/
structure Triplet where
  FieldIndex : Nat
  LineIndex : Nat
  value : List Byte
  deriving DecidableEq, Repr

/-- The record `"<FieldIndex> <LineIndex> <value>\n"` of a triplet. -/
def Triplet.render (t : Triplet) : List Byte :=
  printf_d t.FieldIndex ++ [SP] ++ printf_d t.LineIndex ++ [SP] ++ t.value ++ [NL]

/-- The records of a list of triplets, one after the other. -/
def renderAll (ts : List Triplet) : List Byte := (ts.map Triplet.render).flatten

/-- The triplets of the fields of line `i`, the first of which is field `j`. -/
def lineTriplets (i : Nat) : Nat → List (List Byte) → List Triplet
  | _, [] => []
  | j, v :: vs => ⟨j, i, v⟩ :: lineTriplets i (j + 1) vs

/-- The triplets of a table in source order, line by line and field by field;
the first line has number `i`. -/
def tableTriplets : Nat → List (List (List Byte)) → List Triplet
  | _, [] => []
  | i, line :: lines => lineTriplets i 0 line ++ tableTriplets (i + 1) lines

/-- A line of a delimited file: its fields separated by the delimiter. -/
def joinLine (line : List (List Byte)) : List Byte := [FILE_DELIMITER].intercalate line

/-- A delimited file without a final newline: its lines separated by `'\n'`. -/
def serialize (table : List (List (List Byte))) : List Byte :=
  [NL].intercalate (table.map joinLine)

/-- A field of a delimited file holds no delimiter, `'\n'` or `'\r'`. -/
def PlainField (v : List Byte) : Prop :=
  ∀ b ∈ v, b ≠ FILE_DELIMITER ∧ b ≠ NL ∧ b ≠ CR

/-- A table of `M ≥ 1` columns and at least one line, with plain fields, whose
serialisation has no delimiter in front of a newline (`ends`) and does not
start with an empty line (`first`). -/
structure Rectangular (table : List (List (List Byte))) (M : Nat) : Prop where
  lines : table ≠ []
  columns : 1 ≤ M
  width : ∀ line ∈ table, line.length = M
  plain : ∀ line ∈ table, ∀ v ∈ line, PlainField v
  ends : 2 ≤ M → ∀ line ∈ table, line.getLast? ≠ some []
  first : table.head?.bind List.getLast? ≠ some []

/-- The last field of the last line of the table is not empty: the
serialisation without a final newline ends in a byte of a field. -/
def EndsInField (table : List (List (List Byte))) : Prop :=
  table.getLast?.bind List.getLast? ≠ some []

/-- The triplets `ts` with `'\n'` appended to the value of the last one: what
`Rewrite` emits when the file ends in a newline (line 162 moves `cur_pos` past
the last byte of the file before the value is copied). -/
def finalNewline : List Triplet → List Triplet
  | [] => []
  | [t] => [⟨t.FieldIndex, t.LineIndex, t.value ++ [NL]⟩]
  | t :: u :: ts => t :: finalNewline (u :: ts)

/-- A value that `MakeMatrix` reads back and writes unchanged: not empty, free
of `'\n'` and `'\0'`, not beginning with white space, shorter than the 1024
bytes of `LineBuf::line` (so that it is stored inside the array). -/
structure GoodValue (v : List Byte) : Prop where
  nonempty : v ≠ []
  no_nl : ∀ b ∈ v, b ≠ NL
  no_nul : ∀ b ∈ v, b ≠ 0
  no_space : ∀ b, v.head? = some b → isspace b = false
  short : v.length < 1024

/-- Both indices of the triplet are values of a non-negative `int`. -/
def Triplet.FitsInt (t : Triplet) : Prop :=
  t.FieldIndex < INT_NEG ∧ t.LineIndex < INT_NEG

/-- The `LineBuf` that holds a triplet. -/
def Triplet.toLineBuf (t : Triplet) : LineBuf :=
  { row := t.FieldIndex, col := t.LineIndex, line := t.value }

/-- What one iteration of the loop of `MakeMatrix` writes for `last_line`
when the record read in that iteration has row `curRow`. -/
def emitRecord (last_line : LineBuf) (curRow : Int) : List Byte :=
  (if last_line.col ≠ 0 then [FILE_DELIMITER] else []) ++ last_line.line ++
    (if curRow ≠ last_line.row then [NL] else [])

/-- What the loop of `MakeMatrix` writes when `last_line` is followed by the
records `ts` and `cur_line.row` is `curRow` on entry. -/
def loopOutput (last_line : LineBuf) : List Triplet → Int → List Byte
  | [], curRow => emitRecord last_line curRow
  | t :: ts, _ => emitRecord last_line t.FieldIndex ++ loopOutput t.toLineBuf ts t.FieldIndex

/-- The triplets of group `r` (one output line): the values `vs` with
`FieldIndex = r` and `LineIndex = c, c + 1, ...`. -/
def groupTriplets (r : Nat) : Nat → List (List Byte) → List Triplet
  | _, [] => []
  | c, v :: vs => ⟨r, c, v⟩ :: groupTriplets r (c + 1) vs

/-- The triplets of the groups `rows` in ascending `(FieldIndex, LineIndex)`
order; the first group has `FieldIndex = r` and every group starts at
`LineIndex = c`. -/
def gridTriplets (c : Nat) : Nat → List (List (List Byte)) → List Triplet
  | _, [] => []
  | r, g :: gs => groupTriplets r c g ++ gridTriplets c (r + 1) gs

/-- A delimited file in which every line ends in `'\n'`. -/
def delimitedLines (rows : List (List (List Byte))) : List Byte :=
  (rows.map (fun g => joinLine g ++ [NL])).flatten

/-- The transposed table: line `j` holds field `j` of every line of `table`. -/
def transposeTable (M : Nat) (table : List (List (List Byte))) : List (List (List Byte)) :=
  (List.range M).map (fun j => table.map (fun line => line.getD j []))

/-- The lines of a stream: the pieces between newlines; an empty piece after
the last newline is not a line. -/
def splitLines : List Byte → List (List Byte)
  | [] => []
  | c :: cs =>
    if c = NL then [] :: splitLines cs
    else
      match splitLines cs with
      | [] => [[c]]
      | l :: ls => (c :: l) :: ls

/-- A stream of lines, each ended by `'\n'`. -/
def unlines (ls : List (List Byte)) : List Byte := (ls.map (fun l => l ++ [NL])).flatten

/-- The lines of a stream that are not empty. -/
def nonEmptyLines (ls : List (List Byte)) : List (List Byte) :=
  ls.filter (fun l => !l.isEmpty)

/-- The numeric sort key of a triplet line: its first two integers. -/
def lineKey (line : List Byte) : Nat × Nat :=
  let a := scanDigits line 0
  let b := scanDigits (a.2.dropWhile (fun c => c = SP)) 0
  (a.1, b.1)

/-- The order of the sort: by the first key, then by the second. -/
def keyLE (a b : List Byte) : Prop :=
  (lineKey a).1 < (lineKey b).1 ∨ ((lineKey a).1 = (lineKey b).1 ∧ (lineKey a).2 ≤ (lineKey b).2)

instance : DecidableRel keyLE := fun a b => by unfold keyLE; exact inferInstance

/-- Modelled from the spec: the external sort that runs between the two
commands (section 6: "an external total-order sort keyed first by FieldIndex
then by LineIndex (both as integers, not strings)"; the help text of the
program names `sort -n -k1,1 -k2,2`).  It is not part of the repository. -/
def SortTriplets (stream : List Byte) : List Byte :=
  (((splitLines stream).insertionSort keyLE).map (fun l => l ++ [NL])).flatten

/-- A triplet record without its final newline. -/
def Triplet.line (t : Triplet) : List Byte :=
  printf_d t.FieldIndex ++ [SP] ++ printf_d t.LineIndex ++ [SP] ++ t.value

/-- Strict `(FieldIndex, LineIndex)` order on triplets. -/
def Triplet.lt (a b : Triplet) : Prop :=
  a.FieldIndex < b.FieldIndex ∨ (a.FieldIndex = b.FieldIndex ∧ a.LineIndex < b.LineIndex)

/-- Strict order of the sort keys of two lines. -/
def keyLT (a b : List Byte) : Prop :=
  (lineKey a).1 < (lineKey b).1 ∨ ((lineKey a).1 = (lineKey b).1 ∧ (lineKey a).2 < (lineKey b).2)

/-- The table of the end-to-end example of the spec: two lines of two fields,
`a`, `b` and `c`, `d`. -/
def exampleTable : List (List (List Byte)) := [[[97], [98]], [[99], [100]]]

/-- The transposed example table: `a`, `c` and `b`, `d`. -/
def exampleTransposed : List (List (List Byte)) := [[[97], [99]], [[98], [100]]]

/-- A sequence of `Get` calls: the bytes returned, `none` when an offset is
outside the file. -/
def GetAll (f : FileAsArray) : List Int → Option (List Byte)
  | [] => some []
  | a :: as =>
    match f.Get a with
    | none => none
    | some (b, f1) => (GetAll f1 as).map (fun bs => b :: bs)

/-- The whole pipeline on a table, with an empty initial window of the reader
and zeroed `LineBuf` locals: `Rewrite`, the external sort, `MakeMatrix`. -/
def roundTrip (table : List (List (List Byte))) : MatrixResult :=
  MakeMatrix (SortTriplets (Rewrite (serialize table) 0 0).written) ⟨0, 0, []⟩ ⟨0, 0, []⟩

/-- A value of `FILE_BUF_READ_SIZE_BYTES - 1` bytes `a`: the longest value that
`WriteTo` copies. -/
def fullField : List Byte := List.replicate (FILE_BUF_READ_SIZE_BYTES - 1) 97

/-- The offset `a` lies in the window `[read_buf_start_, read_buf_end_)` of the
reader. -/
def InWindow (f : FileAsArray) (a : Int) : Prop :=
  f.read_buf_start_ ≤ a ∧ a < f.read_buf_end_

/-- The reader after the two probes of lines 110-111 taken in the other order,
`Get(start)` first and `Get(start + length)` second; `none` when an offset is
outside the file.  The source has the opposite order, see `WriteTo`. -/
def probeStartFirst (f : FileAsArray) (start length : Int) : Option FileAsArray :=
  match f.Get start with
  | none => none
  | some (_, f1) =>
    match f1.Get (start + length) with
    | none => none
    | some (_, f2) => some f2

/-- The state `st` of the list scan stands for the state `s` of the loop of
`Rewrite` at offset `pre.length` of the file `pre ++ rest`. -/
structure Sim (s : RewriteState) (st : ScanState) (pre rest : List Byte) : Prop where
  file : s.input_file.read_file_ = pre ++ rest
  pos : s.cur_pos = pre.length
  ready : Ready s.input_file s.cur_pos
  value : ∃ pre0 : List Byte, pre = pre0 ++ st.value ∧ s.last_start = pre0.length
  prev : st.prev = pre.getLast?
  out : st.out = s.output_file
  row : st.row = s.row
  col : st.col = s.col
  crc : st.crc = s.correct_row_count

instance keyLE_total : IsTotal (List Byte) keyLE :=
  ⟨fun a b => by unfold keyLE; omega⟩

instance keyLE_trans : IsTrans (List Byte) keyLE :=
  ⟨fun a b c => by unfold keyLE; omega⟩

instance keyLT_antisymm : IsAntisymm (List Byte) keyLT :=
  ⟨fun a b => by unfold keyLT; omega⟩

/-! ## The windowed reader -/

theorem cap_pos : (0 : Int) < (FILE_BUF_READ_SIZE_BYTES : Int) := by
  simp [FILE_BUF_READ_SIZE_BYTES]

theorem fill_file (f : FileAsArray) (a : Int) : (f.fill a).read_file_ = f.read_file_ := rfl

theorem fill_Length (f : FileAsArray) (a : Int) : (f.fill a).Length = f.Length := rfl

theorem fill_start (f : FileAsArray) (a : Int) : (f.fill a).read_buf_start_ = a := rfl

theorem fill_end (f : FileAsArray) (a : Int) :
    (f.fill a).read_buf_end_ = a + min (FILE_BUF_READ_SIZE_BYTES : Int) (f.Length - a) := rfl

theorem fill_valid (f : FileAsArray) (a : Int) (h0 : 0 ≤ a) (h1 : a ≤ f.Length) :
    Valid (f.fill a) := by
  have hc := cap_pos
  refine ⟨h0, ?_, ?_, ?_, ?_⟩
  · rw [fill_start, fill_end]; omega
  · rw [fill_end, fill_Length]; omega
  · rw [fill_start, fill_end]; omega
  · intro i hi
    rw [fill_start, fill_end] at hi
    simp only [fill, fill_file]
    rw [if_pos (by omega)]

/-- Shape of a `Get` inside the file. -/
theorem Get_cases (f : FileAsArray) (a : Int) (h0 : 0 ≤ a) (h1 : a ≤ f.Length) :
    (f.read_buf_start_ ≤ a ∧ a < f.read_buf_end_ ∧
      f.Get a = some (f.read_buf_ (a - f.read_buf_start_).toNat, f)) ∨
    (¬ (f.read_buf_start_ ≤ a ∧ a < f.read_buf_end_) ∧
      f.Get a = some ((f.fill a).read_buf_ 0, f.fill a)) := by
  unfold Get
  rw [if_neg (by omega)]
  by_cases h : f.read_buf_start_ ≤ a ∧ a < f.read_buf_end_
  · left; exact ⟨h.1, h.2, by rw [if_pos h]⟩
  · right; refine ⟨h, ?_⟩
    rw [if_neg h, fill_start]; simp

theorem Get_spec (f : FileAsArray) (a : Int) (hr : Ready f a) (h0 : 0 ≤ a) (h1 : a ≤ f.Length) :
    ∃ b f1, f.Get a = some (b, f1) ∧ Valid f1 ∧ f1.read_file_ = f.read_file_ ∧
      f1.read_buf_start_ ≤ a ∧ (a < f.Length → a < f1.read_buf_end_) ∧
      (f1 = f ∨ f1.read_buf_start_ = a) ∧
      (a < f.Length → b = f.read_file_.getD a.toNat 0) := by
  have hc := cap_pos
  rcases Get_cases f a h0 h1 with ⟨hs, he, hg⟩ | ⟨hm, hg⟩
  · have hv : Valid f := by
      rcases hr with hv | hn
      · exact hv
      · exact absurd ⟨hs, he⟩ hn
    refine ⟨_, f, hg, hv, rfl, hs, fun _ => he, Or.inl rfl, fun _ => ?_⟩
    obtain ⟨v0, v1, v2, v3, v4⟩ := hv
    have := v4 (a - f.read_buf_start_).toNat (by omega)
    rw [this]; congr 1; omega
  · refine ⟨_, f.fill a, hg, fill_valid f a h0 h1, rfl, le_of_eq (fill_start f a), ?_, Or.inr rfl, ?_⟩
    · intro hl; rw [fill_end]; omega
    · intro hl
      simp only [fill]
      rw [if_pos (by simp; omega)]; simp

/-- From a valid window, or from an empty one, every sequence of `Get` calls at
offsets in `[0, file_length_]` returns, and every call at an offset inside the
file returns the byte of the file at that offset. -/
theorem GetAll_spec (offsets : List Int) :
    ∀ f : FileAsArray, (Valid f ∨ f.read_buf_end_ ≤ f.read_buf_start_) →
      (∀ a ∈ offsets, 0 ≤ a ∧ a ≤ f.Length) →
      ∃ bs, GetAll f offsets = some bs ∧
        List.Forall₂ (fun a b => a < f.Length → b = f.read_file_.getD a.toNat 0) offsets bs := by
  induction offsets with
  | nil => intro f _ _; exact ⟨[], rfl, List.Forall₂.nil⟩
  | cons a as ih =>
    intro f hf h
    have ha := h a (by simp)
    have hr : Ready f a := by
      rcases hf with hv | he
      · exact Or.inl hv
      · exact Or.inr (by omega)
    obtain ⟨b, f1, hg, hv1, hf1, -, -, -, hb⟩ := Get_spec f a hr ha.1 ha.2
    have hL : f1.Length = f.Length := by simp [Length, hf1]
    obtain ⟨bs, h1, h2⟩ := ih f1 (Or.inl hv1) (fun x hx => by rw [hL]; exact h x (by simp [hx]))
    refine ⟨b :: bs, by simp [GetAll, hg, h1], List.Forall₂.cons hb ?_⟩
    rw [hL, hf1] at h2
    exact h2

theorem range_map_getD (l : List Byte) (s n : Nat) (h : s + n ≤ l.length) :
    (List.range n).map (fun i => l.getD (s + i) 0) = (l.drop s).take n := by
  apply List.ext_getElem
  · simp; omega
  · intro i h1 h2
    simp at h1 h2
    simp [List.getD_eq_getElem?_getD, List.getElem?_eq_getElem (show s + i < l.length by omega)]

/-- From a valid window, or from one that does not cover `start + length`,
`WriteTo` appends exactly the bytes `[start, start + length)` of the file,
also when `start + length` is the length of the file. -/
theorem WriteTo_spec (f : FileAsArray) (start length : Int) (out : List Byte)
    (hr : Ready f (start + length)) (h0 : 0 ≤ start) (hl0 : 0 ≤ length)
    (hlc : length < (FILE_BUF_READ_SIZE_BYTES : Int)) (hend : start + length ≤ f.Length) :
    ∃ f2, f.WriteTo start length out =
        .wrote (out ++ (f.read_file_.drop start.toNat).take length.toNat) f2 ∧
      Valid f2 ∧ f2.read_file_ = f.read_file_ := by
  obtain ⟨b1, f1, hg1, hv1, hf1, hs1, he1, hc1, -⟩ :=
    Get_spec f (start + length) hr (by omega) hend
  have hL1 : f1.Length = f.Length := by simp [Length, hf1]
  obtain ⟨b2, f2, hg2, hv2, hf2, hs2, he2, hc2, -⟩ :=
    Get_spec f1 start (Or.inl hv1) h0 (by omega)
  refine ⟨f2, ?_, hv2, by rw [hf2, hf1]⟩
  unfold WriteTo
  rw [if_neg (by omega), if_neg (by omega), hg1]
  simp only [hg2]
  congr 2
  have hfile : f2.read_file_ = f.read_file_ := by rw [hf2, hf1]
  have hL2 : f2.Length = f.Length := by simp [Length, hfile]
  by_cases hz : length = 0
  · subst hz; simp
  -- the window of `f2` covers `[start, start + length)`
  have hcover : start + length ≤ f2.read_buf_end_ := by
    rcases hc2 with h | h
    · -- second probe was a hit: the window is the one after the first probe
      subst h
      rcases hc1 with h' | h'
      · subst h'
        have := he2 (by omega)
        obtain ⟨v0, v1, v2, v3, v4⟩ := hv2
        rcases Get_cases f2 (start + length) (by omega) hend with ⟨_, e, _⟩ | ⟨hm, hg⟩
        · omega
        · rw [hg] at hg1
          have hh := (Prod.mk.inj (Option.some.inj hg1)).2
          have : (f2.fill (start + length)).read_buf_start_ = f2.read_buf_start_ := by rw [hh]
          rw [fill_start] at this
          omega
      · omega
    · rcases Get_cases f1 start h0 (by omega) with ⟨a1, a2, a3⟩ | ⟨hm, hg⟩
      · have := hv2.2.2.2.1
        have h3 := he2 (by omega)
        -- hit: f2 = f1
        rw [a3] at hg2
        have hh := (Prod.mk.inj (Option.some.inj hg2)).2
        subst hh
        rcases hc1 with h' | h'
        · subst h'
          rcases Get_cases f1 (start + length) (by omega) hend with ⟨_, e, _⟩ | ⟨hm, hg⟩
          · omega
          · rw [hg] at hg1
            have hh := (Prod.mk.inj (Option.some.inj hg1)).2
            have : (f1.fill (start + length)).read_buf_start_ = f1.read_buf_start_ := by rw [hh]
            rw [fill_start] at this
            omega
        · omega
      · rw [hg] at hg2
        have hh := (Prod.mk.inj (Option.some.inj hg2)).2
        rw [← hh, fill_end, hL1]
        omega
  obtain ⟨v0, v1, v2, v3, v4⟩ := hv2
  rw [← range_map_getD _ _ _ (by
    have : (f.read_file_.length : Int) = f.Length := rfl
    omega)]
  apply List.map_congr_left
  intro i hi
  simp at hi
  rw [v4 _ (by omega), hfile]
  congr 1
  omega

/-! ## `Rewrite` is the list scan of its input -/

theorem getD_append_cons (pre rest : List Byte) (c : Byte) :
    (pre ++ c :: rest).getD pre.length 0 = c := by
  induction pre with
  | nil => rfl
  | cons a l ih => simpa using ih

theorem getD_append_last (pre rest : List Byte) (d : Byte) :
    ((pre ++ [d]) ++ rest).getD pre.length 0 = d := by
  rw [List.append_assoc]
  exact getD_append_cons pre _ d

theorem checkLineEnd_spec (f : FileAsArray) (pre rest : List Byte) (c : Byte) (nl : Bool)
    (hv : Valid f) (hfile : f.read_file_ = pre ++ c :: rest) :
    (nl = true ∧ pre = [] ∧ checkLineEnd f pre.length nl = .error (.outside (-1))) ∨
    (nl = true ∧ pre.getLast? = some FILE_DELIMITER ∧
      checkLineEnd f pre.length nl = .error .linesEndInDelimiter) ∨
    (nl = true ∧ pre.getLast? = some CR ∧
      checkLineEnd f pre.length nl = .error .crEndlines) ∨
    ((nl = true → ∃ d, pre.getLast? = some d ∧ d ≠ FILE_DELIMITER ∧ d ≠ CR) ∧
      ∃ f1, checkLineEnd f pre.length nl = .ok f1 ∧ Valid f1 ∧ f1.read_file_ = f.read_file_) := by
  cases nl with
  | false =>
    right; right; right
    exact ⟨by simp, f, by simp [checkLineEnd], hv, rfl⟩
  | true =>
    rcases List.eq_nil_or_concat pre with hp | ⟨pre1, d, hp⟩
    · left
      subst hp
      refine ⟨rfl, rfl, ?_⟩
      simp [checkLineEnd, Get]
    · rw [List.concat_eq_append] at hp
      subst hp
      have hL : f.Length = (pre1.length : Int) + 1 + 1 + rest.length := by
        simp [Length, hfile]; omega
      have hpos : (((pre1 ++ [d]).length : Nat) : Int) - 1 = pre1.length := by simp
      obtain ⟨b1, f1, hg1, hv1, hf1, -, -, -, hb1⟩ :=
        Get_spec f (pre1.length : Int) (Or.inl hv) (by omega) (by omega)
      have hL1 : f1.Length = f.Length := by simp [Length, hf1]
      obtain ⟨b2, f2, hg2, hv2, hf2, -, -, -, hb2⟩ :=
        Get_spec f1 (pre1.length : Int) (Or.inl hv1) (by omega) (by omega)
      have e1 : b1 = d := by
        rw [hb1 (by omega), hfile, Int.toNat_ofNat]
        exact getD_append_last pre1 (c :: rest) d
      have e2 : b2 = d := by
        rw [hb2 (by omega), hf1, hfile, Int.toNat_ofNat]
        exact getD_append_last pre1 (c :: rest) d
      rw [e1] at hg1
      rw [e2] at hg2
      have hlast : (pre1 ++ [d]).getLast? = some d := by simp
      simp only [checkLineEnd, hpos, hg1, hg2, if_true]
      by_cases hd : d = FILE_DELIMITER
      · right; left
        exact ⟨trivial, by rw [hlast, hd], by simp [hd]⟩
      · by_cases hr : d = CR
        · right; right; left
          refine ⟨trivial, by rw [hlast, hr], ?_⟩
          simp [hr, CR, FILE_DELIMITER]
        · right; right; right
          refine ⟨fun _ => ⟨d, hlast, hd, hr⟩, f2, by simp [hd, hr], hv2, by rw [hf2, hf1]⟩

theorem WriteTo_slice (f : FileAsArray) (pre0 v rest2 out : List Byte) (hv : Valid f)
    (hfile : f.read_file_ = pre0 ++ v ++ rest2)
    (hlen : v.length < FILE_BUF_READ_SIZE_BYTES) :
    ∃ f2, f.WriteTo pre0.length v.length out = .wrote (out ++ v) f2 ∧ Valid f2 ∧
      f2.read_file_ = f.read_file_ := by
  have hL : f.Length = (pre0.length : Int) + v.length + rest2.length := by
    simp [Length, hfile]; omega
  obtain ⟨f2, h1, h2, h3⟩ := WriteTo_spec f pre0.length v.length out (Or.inl hv) (by omega) (by omega)
    (by exact_mod_cast hlen) (by omega)
  refine ⟨f2, ?_, h2, h3⟩
  rw [h1, hfile]
  simp

theorem RewriteBody_spec (s : RewriteState) (st : ScanState) (pre rest : List Byte) (c : Byte)
    (h : Sim s st pre (c :: rest)) :
    match scanStep c rest.isEmpty st with
    | .exit e out => RewriteBody s = .exit e out
    | .next st1 => ∃ s1, RewriteBody s = .next s1 ∧
        s1.input_file.read_file_ = s.input_file.read_file_ ∧ st1.out = s1.output_file ∧
        (rest ≠ [] → Sim s1 st1 (pre ++ [c]) rest) ∧
        (rest = [] → s1.input_file.Length < s1.cur_pos) := by
  obtain ⟨hfile, hpos, hready, ⟨pre0, hpre, hls⟩, hprev, hout, hrow, hcol, hcrc⟩ := h
  have hL : s.input_file.Length = (pre.length : Int) + 1 + rest.length := by
    simp [Length, hfile]; omega
  obtain ⟨b, f0, hg0, hv0, hf0, -, -, -, hb⟩ :=
    Get_spec s.input_file s.cur_pos hready (by omega) (by omega)
  have hbc : b = c := by
    rw [hb (by omega), hfile, hpos, Int.toNat_ofNat]
    exact getD_append_cons pre rest c
  rw [hbc] at hg0
  have hfile0 : f0.read_file_ = pre ++ c :: rest := by rw [hf0, hfile]
  have hlastc : (s.cur_pos = s.input_file.Length - 1) ↔ rest = [] := by
    rw [hL, hpos]
    constructor
    · intro h; apply List.eq_nil_of_length_eq_zero; omega
    · intro h; subst h; simp
  have hval : (s.cur_pos - s.last_start : Int) = (st.value.length : Int) := by
    rw [hpos, hls, hpre]; simp
  have hval1 : (s.cur_pos + 1 - s.last_start : Int) = ((st.value ++ [c]).length : Nat) := by
    rw [hpos, hls, hpre]; simp; omega
  have hposL : (decide (s.cur_pos = s.input_file.Length - 1)) = rest.isEmpty := by
    rw [Bool.eq_iff_iff]; simp [hlastc]
  unfold RewriteBody scanStep
  rw [hg0]
  simp only [hposL]
  by_cases htrig : (decide (c = FILE_DELIMITER) || decide (c = NL) || rest.isEmpty) = true
  · rw [if_pos htrig, if_pos htrig]
    rcases checkLineEnd_spec f0 pre rest c (decide (c = NL)) hv0 hfile0 with
      ⟨hn, hp, hce⟩ | ⟨hn, hp, hce⟩ | ⟨hn, hp, hce⟩ | ⟨hp, f1, hce, hv1, hf1⟩
    · have hnl : c = NL := by simpa using hn
      have hpn : st.prev = none := by rw [hprev, hp]; rfl
      rw [if_pos ⟨hnl, hpn⟩, hpos, hce]
      simp [hout]
    · have hnl : c = NL := by simpa using hn
      have hpn : st.prev = some FILE_DELIMITER := by rw [hprev, hp]
      rw [if_neg (by rw [hpn]; simp), if_pos ⟨hnl, hpn⟩, hpos, hce]
      simp [hout]
    · have hnl : c = NL := by simpa using hn
      have hpn : st.prev = some CR := by rw [hprev, hp]
      rw [if_neg (by rw [hpn]; simp), if_neg (by rw [hpn]; simp [CR, FILE_DELIMITER]), if_pos ⟨hnl, hpn⟩, hpos, hce]
      simp [hout]
    · have hA : ¬ (c = NL ∧ st.prev = none) := by
        rintro ⟨h1, h2⟩
        obtain ⟨d, hd, -, -⟩ := hp (by simpa using h1)
        rw [hprev, hd] at h2; cases h2
      have hB : ¬ (c = NL ∧ st.prev = some FILE_DELIMITER) := by
        rintro ⟨h1, h2⟩
        obtain ⟨d, hd, hd2, -⟩ := hp (by simpa using h1)
        rw [hprev, hd] at h2; exact hd2 (Option.some.inj h2)
      have hC : ¬ (c = NL ∧ st.prev = some CR) := by
        rintro ⟨h1, h2⟩
        obtain ⟨d, hd, -, hd3⟩ := hp (by simpa using h1)
        rw [hprev, hd] at h2; exact hd3 (Option.some.inj h2)
      rw [if_neg hA, if_neg hB, if_neg hC, hpos, hce, ← hpos]
      simp only []
      have hfile1 : f1.read_file_ = pre0 ++ st.value ++ c :: rest := by
        rw [hf1, hfile0, hpre]
      rcases rest with _ | ⟨c2, rest2⟩
      · simp only [List.isEmpty_nil, if_true]
        rw [hval1, hls, hout, hrow, hcol, hcrc]
        by_cases hsz : FILE_BUF_READ_SIZE_BYTES ≤ (st.value ++ [c]).length
        · rw [if_pos hsz]
          simp only [WriteTo]
          rw [if_pos (by exact_mod_cast hsz)]
        · rw [if_neg hsz]
          obtain ⟨f2, hw, hv2, hf2⟩ := WriteTo_slice f1 pre0 (st.value ++ [c]) []
            (s.output_file ++ printf_int s.row ++ [SP] ++ printf_int s.col ++ [SP]) hv1
            (by simpa using hfile1) (by omega)
          rw [hw]
          simp only [endOfIteration]
          cases countLine s.row s.col s.correct_row_count (decide (c = FILE_DELIMITER))
            (decide (c = NL)) with
          | none => simp
          | some t =>
            simp only []
            refine ⟨_, rfl, by rw [hf2, hf1, hf0], by simp, by simp, fun _ => ?_⟩
            simp only [Length, hf2, hf1, hf0, hfile, hpos]
            simp
      · simp only [List.isEmpty_cons, if_false, Bool.false_eq_true]
        rw [hval, hls, hout, hrow, hcol, hcrc]
        by_cases hsz : FILE_BUF_READ_SIZE_BYTES ≤ st.value.length
        · rw [if_pos hsz]
          simp only [WriteTo]
          rw [if_pos (by exact_mod_cast hsz)]
        · rw [if_neg hsz]
          obtain ⟨f2, hw, hv2, hf2⟩ := WriteTo_slice f1 pre0 st.value (c :: c2 :: rest2)
            (s.output_file ++ printf_int s.row ++ [SP] ++ printf_int s.col ++ [SP]) hv1
            hfile1 (by omega)
          rw [hw]
          simp only [endOfIteration]
          cases countLine s.row s.col s.correct_row_count (decide (c = FILE_DELIMITER))
            (decide (c = NL)) with
          | none => simp
          | some t =>
            simp only []
            refine ⟨_, rfl, by rw [hf2, hf1, hf0], by simp, fun _ => ?_, by simp⟩
            refine ⟨?_, ?_, Or.inl hv2, ⟨pre ++ [c], ?_, ?_⟩, ?_, rfl, rfl, rfl, rfl⟩
            · simp [hf2, hf1, hf0, hfile]
            · simp [hpos]
            · simp
            · simp [hpos]
            · simp
  · rw [if_neg htrig, if_neg htrig]
    have hre : rest ≠ [] := by
      intro h; subst h; simp at htrig
    simp only [endOfIteration]
    rw [hout, hrow, hcol, hcrc]
    cases countLine s.row s.col s.correct_row_count (decide (c = FILE_DELIMITER))
      (decide (c = NL)) with
    | none => simp
    | some t =>
      simp only []
      refine ⟨_, rfl, hf0, by simp, fun _ => ?_, fun h => absurd h hre⟩
      refine ⟨?_, ?_, Or.inl hv0, ⟨pre0, ?_, ?_⟩, ?_, rfl, rfl, rfl, rfl⟩
      · simp [hf0, hfile]
      · simp [hpos]
      · simp [hpre]
      · simp [hls]
      · simp

theorem RewriteLoop_spec (rest : List Byte) :
    ∀ (fuel : Nat) (s : RewriteState) (st : ScanState) (pre : List Byte),
      Sim s st pre rest → rest.length ≤ fuel → RewriteLoop fuel s = scanList rest st := by
  induction rest with
  | nil =>
    intro fuel s st pre h _
    have hL : ¬ (s.cur_pos < s.input_file.Length) := by
      simp [Length, h.file, h.pos]
    cases fuel <;> simp [RewriteLoop, hL, scanList, h.out]
  | cons c rest ih =>
    intro fuel s st pre h hfuel
    cases fuel with
    | zero => simp at hfuel
    | succ n =>
      have hL : s.cur_pos < s.input_file.Length := by
        simp [Length, h.file, h.pos]
      have hb := RewriteBody_spec s st pre rest c h
      simp only [RewriteLoop, if_pos hL, scanList]
      cases hs : scanStep c rest.isEmpty st with
      | exit e out =>
        rw [hs] at hb
        simp only [] at hb
        rw [hb]
      | next st1 =>
        rw [hs] at hb
        obtain ⟨s1, h1, h2, h3, h4, h5⟩ := hb
        rw [h1]
        simp only []
        rcases rest with _ | ⟨c2, rest2⟩
        · have hlt : ¬ (s1.cur_pos < s1.input_file.Length) := by
            have := h5 rfl; omega
          cases n <;> simp [RewriteLoop, hlt, scanList, h3]
        · exact ih n s1 st1 (pre ++ [c]) (h4 (by simp)) (by simpa using hfuel)

/-- When the indeterminate window bounds do not cover offset 0, `Rewrite` is the
list scan of its input. -/
theorem Rewrite_eq_scanList (input : List Byte) (start0 end0 : Int)
    (h0 : ¬ (start0 ≤ 0 ∧ 0 < end0)) :
    Rewrite input start0 end0 = scanList input scanInit := by
  unfold Rewrite
  apply RewriteLoop_spec input _ _ _ [] _ (le_refl _)
  exact ⟨rfl, rfl, Or.inr h0, ⟨[], rfl, rfl⟩, rfl, rfl, rfl, rfl, rfl⟩

theorem Get_file (f f1 : FileAsArray) (a : Int) (b : Byte) (h : f.Get a = some (b, f1)) :
    f1.read_file_ = f.read_file_ := by
  unfold Get at h
  split_ifs at h
  · simp only [Option.some.injEq, Prod.mk.injEq] at h
    rw [← h.2]
  · simp only [Option.some.injEq, Prod.mk.injEq] at h
    rw [← h.2]; rfl

theorem Get_some (f : FileAsArray) (a : Int) (h0 : 0 ≤ a) (h1 : a ≤ f.Length) :
    ∃ b f1, f.Get a = some (b, f1) ∧ f1.read_file_ = f.read_file_ := by
  unfold Get
  rw [if_neg (by omega)]
  split_ifs
  · exact ⟨_, _, rfl, rfl⟩
  · exact ⟨_, _, rfl, rfl⟩

/-- A `WriteTo` of fewer than `FILE_BUF_READ_SIZE_BYTES` bytes inside the file
returns, whatever the window, and appends `length` bytes to the sink. -/
theorem WriteTo_returns (f : FileAsArray) (start length : Int) (sink : List Byte)
    (h0 : 0 ≤ start) (hl0 : 0 ≤ length) (hlc : length < (FILE_BUF_READ_SIZE_BYTES : Int))
    (hend : start + length ≤ f.Length) :
    ∃ sink2 f2, f.WriteTo start length sink = .wrote sink2 f2 ∧
      sink2.length = sink.length + length.toNat := by
  obtain ⟨b1, f1, hg1, hf1⟩ := Get_some f (start + length) (by omega) hend
  have hL1 : f1.Length = f.Length := by simp [Length, hf1]
  obtain ⟨b2, f2, hg2, -⟩ := Get_some f1 start h0 (by omega)
  refine ⟨sink ++ (List.range length.toNat).map
    (fun i => f2.read_buf_ ((start - f2.read_buf_start_).toNat + i)), f2, ?_, ?_⟩
  · unfold WriteTo
    rw [if_neg (by omega), if_neg (by omega), hg1]
    simp only [hg2]
  · simp

theorem checkLineEnd_file (f f1 : FileAsArray) (p : Int) (nl : Bool)
    (h : checkLineEnd f p nl = .ok f1) : f1.read_file_ = f.read_file_ := by
  unfold checkLineEnd at h
  split at h
  · split at h
    · cases h
    · rename_i c1 g1 hg1
      split at h
      · cases h
      · split at h
        · cases h
        · rename_i c2 g2 hg2
          split at h
          · cases h
          · cases h
            rw [Get_file _ _ _ _ hg2, Get_file _ _ _ _ hg1]
  · cases h; rfl

theorem WriteTo_file (f f2 : FileAsArray) (start length : Int) (out out2 : List Byte)
    (h : f.WriteTo start length out = .wrote out2 f2) : f2.read_file_ = f.read_file_ := by
  unfold WriteTo at h
  split_ifs at h
  split at h
  · cases h
  · rename_i c1 g1 hg1
    split at h
    · cases h
    · rename_i c2 g2 hg2
      simp only [WriteResult.wrote.injEq] at h
      rw [← h.2, Get_file _ _ _ _ hg2, Get_file _ _ _ _ hg1]

theorem endOfIteration_next (s s1 : RewriteState) (f : FileAsArray) (out : List Byte)
    (p ls : Int) (d n : Bool) (h : endOfIteration s f out p ls d n = .next s1) :
    s1.cur_pos = p + 1 ∧ s1.input_file = f := by
  unfold endOfIteration at h
  split at h
  · cases h
  · cases h; exact ⟨rfl, rfl⟩

/-- An iteration that does not exit advances `cur_pos` and keeps the file. -/
theorem RewriteBody_next (s s1 : RewriteState) (h : RewriteBody s = .next s1) :
    s.cur_pos + 1 ≤ s1.cur_pos ∧ s1.input_file.read_file_ = s.input_file.read_file_ := by
  unfold RewriteBody at h
  split at h
  · cases h
  · rename_i c f0 hg0
    have e0 := Get_file _ _ _ _ hg0
    simp only [] at h
    split_ifs at h with h1 h2
    · split at h
      · cases h
      · rename_i f1 hc
        have e1 := checkLineEnd_file _ _ _ _ hc
        split at h
        · cases h
        · cases h
        · rename_i out2 f2 hw
          have e2 := WriteTo_file _ _ _ _ _ _ hw
          obtain ⟨h3, h4⟩ := endOfIteration_next _ _ _ _ _ _ _ _ h
          exact ⟨by omega, by rw [h4, e2, e1, e0]⟩
    · split at h
      · cases h
      · rename_i f1 hc
        have e1 := checkLineEnd_file _ _ _ _ hc
        split at h
        · cases h
        · cases h
        · rename_i out2 f2 hw
          have e2 := WriteTo_file _ _ _ _ _ _ hw
          obtain ⟨h3, h4⟩ := endOfIteration_next _ _ _ _ _ _ _ _ h
          exact ⟨by omega, by rw [h4, e2, e1, e0]⟩
    · obtain ⟨h3, h4⟩ := endOfIteration_next _ _ _ _ _ _ _ _ h
      exact ⟨by omega, by rw [h4, e0]⟩

theorem RewriteLoop_fuel : ∀ (fuel : Nat) (s : RewriteState),
    s.input_file.Length ≤ s.cur_pos + fuel → (RewriteLoop fuel s).outcome ≠ .outOfFuel := by
  intro fuel
  induction fuel with
  | zero =>
    intro s h
    simp only [RewriteLoop]
    rw [if_neg (by omega)]
    simp
  | succ n ih =>
    intro s h
    simp only [RewriteLoop]
    split_ifs with hlt
    · split
      · rename_i s1 hb
        obtain ⟨h1, h2⟩ := RewriteBody_next s s1 hb
        apply ih
        have : s1.input_file.Length = s.input_file.Length := by simp [Length, h2]
        omega
      · simp
    · simp

/-- The iteration bound of `Rewrite` is never used up. -/
theorem Rewrite_fuel (input : List Byte) (start0 end0 : Int) :
    (Rewrite input start0 end0).outcome ≠ .outOfFuel := by
  apply RewriteLoop_fuel
  simp [FileAsArray.new, Length]

/-! ## The list scan on a rectangular table -/

theorem joinLine_single (v : List Byte) : joinLine [v] = v := by
  simp [joinLine, List.intercalate]

theorem joinLine_cons_cons (v w : List Byte) (vs : List (List Byte)) :
    joinLine (v :: w :: vs) = v ++ FILE_DELIMITER :: joinLine (w :: vs) := by
  simp [joinLine, List.intercalate]

theorem serialize_single (l : List (List Byte)) : serialize [l] = joinLine l := by
  simp [serialize, List.intercalate]

theorem serialize_cons_cons (l m : List (List Byte)) (ls : List (List (List Byte))) :
    serialize (l :: m :: ls) = joinLine l ++ NL :: serialize (m :: ls) := by
  simp [serialize, List.intercalate]

theorem renderAll_nil : renderAll [] = [] := rfl

theorem renderAll_cons (t : Triplet) (ts : List Triplet) :
    renderAll (t :: ts) = t.render ++ renderAll ts := by
  simp [renderAll]

theorem renderAll_append (ts us : List Triplet) :
    renderAll (ts ++ us) = renderAll ts ++ renderAll us := by
  simp [renderAll]

theorem INT_NEG_eq : INT_NEG = 2147483648 := by norm_num [INT_NEG]

theorem INT_SIZE_eq : INT_SIZE = 4294967296 := by norm_num [INT_SIZE]

/-- A counter below `2^31` is printed as its digits. -/
theorem printf_int_of_lt (n : Nat) (h : n < INT_NEG) : printf_int n = printf_d n := by
  simp [printf_int, h]

/-- A counter below `2^31` does not wrap when it is incremented. -/
theorem intInc_of_lt (n : Nat) (h : n < INT_NEG) : intInc n = n + 1 := by
  unfold intInc
  rw [INT_NEG_eq] at h
  rw [INT_SIZE_eq]
  exact Nat.mod_eq_of_lt (by omega)

theorem countLine_plain (row col crc : Nat) :
    countLine row col crc false false = some (row, col, crc) := by
  simp [countLine]

theorem scanList_cons (c : Byte) (rest : List Byte) (st : ScanState) :
    scanList (c :: rest) st =
      match scanStep c rest.isEmpty st with
      | .exit e out => ⟨.exited e, out⟩
      | .next st1 => scanList rest st1 := rfl

theorem scanStep_plain (a : Byte) (st : ScanState) (h1 : a ≠ FILE_DELIMITER) (h2 : a ≠ NL) :
    scanStep a false st =
      .next { out := st.out, row := st.row, col := st.col, crc := st.crc,
              value := st.value ++ [a], prev := some a } := by
  simp [scanStep, h1, h2, countLine_plain]

/-- Scanning the bytes of a field that is followed by more input. -/
theorem scan_field (v : List Byte) :
    ∀ (rest : List Byte) (st : ScanState), rest ≠ [] →
      (∀ b ∈ v, b ≠ FILE_DELIMITER ∧ b ≠ NL) →
      scanList (v ++ rest) st =
        scanList rest { out := st.out, row := st.row, col := st.col, crc := st.crc,
                        value := st.value ++ v,
                        prev := v.foldl (fun _ b => some b) st.prev } := by
  induction v with
  | nil => intro rest st _ _; simp
  | cons a v ih =>
    intro rest st hrest hv
    have ha := hv a (by simp)
    have hne : (v ++ rest).isEmpty = false := by
      cases v <;> cases rest <;> simp_all
    rw [List.cons_append, scanList_cons, hne, scanStep_plain a st ha.1 ha.2]
    simp only []
    rw [ih rest _ hrest (fun b hb => hv b (by simp [hb]))]
    simp

theorem foldl_prev (v : List Byte) (p : Option Byte) (hv : v ≠ []) :
    ∃ b, b ∈ v ∧ v.foldl (fun _ b => some b) p = some b := by
  induction v generalizing p with
  | nil => exact absurd rfl hv
  | cons a v ih =>
    by_cases h : v = []
    · subst h; exact ⟨a, by simp, rfl⟩
    · obtain ⟨b, hb, hf⟩ := ih (some a) h
      exact ⟨b, by simp [hb], by simpa using hf⟩

/-- The step at a delimiter that is not the last byte of the file. -/
theorem scanStep_delimiter (st : ScanState)
    (hlen : st.value.length < FILE_BUF_READ_SIZE_BYTES)
    (hr : st.row < INT_NEG) (hc : st.col < INT_NEG) :
    scanStep FILE_DELIMITER false st =
      .next { out := st.out ++ (Triplet.mk st.row st.col st.value).render,
              row := st.row + 1, col := st.col, crc := st.crc, value := [],
              prev := some FILE_DELIMITER } := by
  have h : ¬ (FILE_DELIMITER = NL) := by decide
  simp [scanStep, h, countLine, Triplet.render, Nat.not_le.2 hlen, printf_int_of_lt _ hr,
    printf_int_of_lt _ hc, intInc_of_lt _ hr]

/-- The step at a newline that is not the last byte of the file and follows a
plain byte, when the field count agrees with the reference. -/
theorem scanStep_newline (st : ScanState) (b : Byte) (hp : st.prev = some b)
    (hb1 : b ≠ FILE_DELIMITER) (hb2 : b ≠ CR)
    (hlen : st.value.length < FILE_BUF_READ_SIZE_BYTES)
    (hcrc : st.crc = 0 ∨ st.crc = st.row)
    (hr : st.row < INT_NEG) (hc : st.col < INT_NEG) :
    scanStep NL false st =
      .next { out := st.out ++ (Triplet.mk st.row st.col st.value).render,
              row := 0, col := st.col + 1, crc := st.row, value := [],
              prev := some NL } := by
  have h : ¬ (NL = FILE_DELIMITER) := by decide
  rcases hcrc with h0 | h0
  · simp [scanStep, h, hp, hb1, hb2, countLine, Triplet.render, Nat.not_le.2 hlen, h0,
      printf_int_of_lt _ hr, printf_int_of_lt _ hc, intInc_of_lt _ hc]
  · by_cases hz : st.crc = 0
    · simp [scanStep, h, hp, hb1, hb2, countLine, Triplet.render, Nat.not_le.2 hlen, hz,
        printf_int_of_lt _ hr, printf_int_of_lt _ hc, intInc_of_lt _ hc]
    · simp [scanStep, h, hp, hb1, hb2, countLine, Triplet.render, Nat.not_le.2 hlen, hz, h0,
        printf_int_of_lt _ hr, printf_int_of_lt _ hc, intInc_of_lt _ hc]

/-- The step at a plain byte that is the last byte of the file. -/
theorem scanStep_last (a : Byte) (st : ScanState) (h1 : a ≠ FILE_DELIMITER) (h2 : a ≠ NL)
    (hlen : (st.value ++ [a]).length < FILE_BUF_READ_SIZE_BYTES)
    (hr : st.row < INT_NEG) (hc : st.col < INT_NEG) :
    scanStep a true st =
      .next { out := st.out ++ (Triplet.mk st.row st.col (st.value ++ [a])).render,
              row := st.row, col := st.col, crc := st.crc, value := [],
              prev := some a } := by
  have hlen1 : st.value.length + 1 < FILE_BUF_READ_SIZE_BYTES := by simpa using hlen
  simp [scanStep, h1, h2, countLine, Triplet.render, hlen1, printf_int_of_lt _ hr,
    printf_int_of_lt _ hc]

/-- Scanning a line that is followed by a newline and more input.  The line
does not end in an empty field, or it is an empty line that follows a
newline. -/
theorem scan_line (line : List (List Byte)) :
    ∀ (rest : List Byte) (st : ScanState), rest ≠ [] → line ≠ [] →
      (∀ v ∈ line, PlainField v) → (∀ v ∈ line, v.length < FILE_BUF_READ_SIZE_BYTES) →
      (line.getLast? ≠ some [] ∨ (line = [[]] ∧ st.prev = some NL)) → st.value = [] →
      (st.crc = 0 ∨ st.crc + 1 = st.row + line.length) →
      st.row + line.length ≤ INT_NEG → st.col < INT_NEG →
      scanList (joinLine line ++ NL :: rest) st =
        scanList rest { out := st.out ++ renderAll (lineTriplets st.col st.row line),
                        row := 0, col := st.col + 1, crc := st.row + line.length - 1,
                        value := [], prev := some NL } := by
  induction line with
  | nil => intro rest st _ h; exact absurd rfl h
  | cons v vs ih =>
    intro rest st hrest _ hplain hlen hend hval hcrc hrow hcol
    have hpv := hplain v (by simp)
    have hr : st.row < INT_NEG := by simp only [List.length_cons] at hrow; omega
    have hlv := hlen v (by simp)
    have hre : rest.isEmpty = false := by cases rest <;> simp_all
    cases vs with
    | nil =>
      by_cases hvne : v = []
      · subst hvne
        have hp : st.prev = some NL := by
          rcases hend with h | h
          · exact absurd (by simp) h
          · exact h.2
        rw [joinLine_single, List.nil_append, scanList_cons, hre,
          scanStep_newline _ NL hp (by decide) (by decide) (by simp [hval, FILE_BUF_READ_SIZE_BYTES])
            (by simp at hcrc ⊢; omega) (by exact hr) (by exact hcol)]
        simp [lineTriplets, renderAll, hval]
      · obtain ⟨b, hb, hf⟩ := foldl_prev v st.prev hvne
        rw [joinLine_single,
          scan_field v _ st (by simp) (fun b hb => ⟨(hpv b hb).1, (hpv b hb).2.1⟩),
          scanList_cons]
        rw [hre, scanStep_newline _ b hf (hpv b hb).1 (hpv b hb).2.2
          (by simpa [hval] using hlv) (by simp at hcrc ⊢; omega) (by exact hr) (by exact hcol)]
        simp [lineTriplets, renderAll, hval]
    | cons w ws =>
      rw [joinLine_cons_cons, List.append_assoc, List.cons_append,
        scan_field v _ st (by simp) (fun b hb => ⟨(hpv b hb).1, (hpv b hb).2.1⟩),
        scanList_cons]
      have hre2 : (joinLine (w :: ws) ++ NL :: rest).isEmpty = false := by
        cases h : joinLine (w :: ws) <;> simp
      have hend2 : (w :: ws).getLast? ≠ some [] := by
        rcases hend with h | h
        · simpa using h
        · exact absurd h.1 (by simp)
      rw [hre2, scanStep_delimiter _ (by simpa [hval] using hlv) (by exact hr) (by exact hcol)]
      simp only []
      rw [ih rest _ hrest (by simp) (fun u hu => hplain u (by simp [hu]))
        (fun u hu => hlen u (by simp [hu])) (Or.inl hend2) rfl
        (by simp at hcrc ⊢; omega) (by simp only [List.length_cons] at hrow ⊢; omega) (by exact hcol)]
      congr 1
      simp [lineTriplets, renderAll, hval]
      omega

/-- Scanning the last line of a file without a final newline. -/
theorem scan_last_line (line : List (List Byte)) :
    ∀ (st : ScanState), line ≠ [] →
      (∀ v ∈ line, PlainField v) → (∀ v ∈ line, v.length < FILE_BUF_READ_SIZE_BYTES) →
      line.getLast? ≠ some [] → st.value = [] →
      st.row + line.length ≤ INT_NEG → st.col < INT_NEG →
      scanList (joinLine line) st =
        ⟨.returned, st.out ++ renderAll (lineTriplets st.col st.row line)⟩ := by
  induction line with
  | nil => intro st h; exact absurd rfl h
  | cons v vs ih =>
    intro st _ hplain hlen hend hval hrow hcol
    have hpv := hplain v (by simp)
    have hlv := hlen v (by simp)
    have hr : st.row < INT_NEG := by simp only [List.length_cons] at hrow; omega
    cases vs with
    | nil =>
      rcases List.eq_nil_or_concat v with hv | ⟨v1, a, hv⟩
      · exact absurd (by simp [hv]) hend
      · rw [List.concat_eq_append] at hv
        subst hv
        have ha := hpv a (by simp)
        rw [joinLine_single, scan_field v1 [a] st (by simp)
          (fun b hb => ⟨(hpv b (by simp [hb])).1, (hpv b (by simp [hb])).2.1⟩), scanList_cons]
        simp only [List.isEmpty_nil]
        rw [scanStep_last a _ ha.1 ha.2.1 (by simpa [hval] using hlv) (by exact hr) (by exact hcol)]
        simp [scanList, lineTriplets, renderAll, hval]
    | cons w ws =>
      rw [joinLine_cons_cons,
        scan_field v _ st (by simp) (fun b hb => ⟨(hpv b hb).1, (hpv b hb).2.1⟩),
        scanList_cons]
      have hre : (joinLine (w :: ws)).isEmpty = false := by
        have : joinLine (w :: ws) ≠ [] := by
          intro h
          apply hend
          clear ih hplain hlen hpv hlv
          induction ws generalizing w with
          | nil => rw [joinLine_single] at h; simp [h]
          | cons u us ih2 => rw [joinLine_cons_cons] at h; simp at h
        cases h : joinLine (w :: ws) <;> simp_all
      rw [hre, scanStep_delimiter _ (by simpa [hval] using hlv) (by exact hr) (by exact hcol)]
      simp only []
      rw [ih _ (by simp) (fun u hu => hplain u (by simp [hu]))
        (fun u hu => hlen u (by simp [hu])) (by simpa using hend) rfl
        (by simp only [List.length_cons] at hrow ⊢; omega) (by exact hcol)]
      simp [lineTriplets, renderAll, hval]

theorem joinLine_ne_nil (line : List (List Byte)) (h1 : line ≠ [])
    (h2 : line.getLast? ≠ some []) : joinLine line ≠ [] := by
  induction line with
  | nil => exact absurd rfl h1
  | cons v vs ih =>
    cases vs with
    | nil =>
      rw [joinLine_single]
      intro h; apply h2; simp [h]
    | cons w ws => rw [joinLine_cons_cons]; simp

theorem serialize_ne_nil (l : List (List Byte)) (ls : List (List (List Byte)))
    (h1 : l ≠ []) (h2 : ls = [] → l.getLast? ≠ some []) : serialize (l :: ls) ≠ [] := by
  cases ls with
  | nil => rw [serialize_single]; exact joinLine_ne_nil l h1 (h2 rfl)
  | cons m ms => rw [serialize_cons_cons]; simp

/-- Scanning a rectangular table.  The first line does not end in an empty
field, or the scan stands right after a newline. -/
theorem scan_table (table : List (List (List Byte))) (M : Nat) (hM : 1 ≤ M) :
    ∀ (st : ScanState), table ≠ [] →
      (∀ line ∈ table, line.length = M) →
      (∀ line ∈ table, ∀ v ∈ line, PlainField v) →
      (∀ line ∈ table, ∀ v ∈ line, v.length < FILE_BUF_READ_SIZE_BYTES) →
      (2 ≤ M → ∀ line ∈ table, line.getLast? ≠ some []) →
      (table.head?.bind List.getLast? ≠ some [] ∨ st.prev = some NL) →
      table.getLast?.bind List.getLast? ≠ some [] →
      st.value = [] → st.row = 0 → (st.crc = 0 ∨ st.crc + 1 = M) →
      M ≤ INT_NEG → st.col + table.length ≤ INT_NEG →
      scanList (serialize table) st =
        ⟨.returned, st.out ++ renderAll (tableTriplets st.col table)⟩ := by
  induction table with
  | nil => intro st h; exact absurd rfl h
  | cons l ls ih =>
    intro st _ hw hplain hlen hend hfirst hlast hval hrow hcrc hMb hNb
    have hl : l.length = M := hw l (by simp)
    have hlne : l ≠ [] := by
      intro h; rw [h] at hl; simp at hl; omega
    have hcol : st.col < INT_NEG := by simp only [List.length_cons] at hNb; omega
    have hrowb : st.row + l.length ≤ INT_NEG := by rw [hrow, hl]; omega
    cases ls with
    | nil =>
      rw [serialize_single, scan_last_line l st hlne (hplain l (by simp)) (hlen l (by simp))
        (by simpa using hlast) hval (by exact hrowb) (by exact hcol)]
      simp [tableTriplets, hrow]
    | cons m ms =>
      have hm : m.length = M := hw m (by simp)
      have hmne : m ≠ [] := by
        intro h; rw [h] at hm; simp at hm; omega
      have hlast2 : (m :: ms).getLast?.bind List.getLast? ≠ some [] := by
        simpa [List.getLast?_cons_cons] using hlast
      have hline : l.getLast? ≠ some [] ∨ (l = [[]] ∧ st.prev = some NL) := by
        by_cases h2 : 2 ≤ M
        · exact Or.inl (hend h2 l (by simp))
        · have h1 : l.length = 1 := by omega
          obtain ⟨v, rfl⟩ := List.length_eq_one.1 h1
          by_cases hv : v = []
          · subst hv
            rcases hfirst with h | h
            · exact absurd (by simp) h
            · exact Or.inr ⟨rfl, h⟩
          · left; simpa using hv
      rw [serialize_cons_cons, scan_line l _ st
        (serialize_ne_nil m ms hmne (fun h => by subst h; simpa using hlast2)) hlne
        (hplain l (by simp)) (hlen l (by simp)) hline hval (by rw [hrow, hl]; omega) (by exact hrowb) (by exact hcol)]
      rw [ih _ (by simp) (fun x hx => hw x (by simp [hx]))
        (fun x hx => hplain x (by simp [hx])) (fun x hx => hlen x (by simp [hx]))
        (fun h2 x hx => hend h2 x (by simp [hx])) (Or.inr rfl) hlast2 rfl rfl
        (by simp [hrow, hl]; omega) hMb (by simp only [List.length_cons] at hNb ⊢; omega)]
      simp [tableTriplets, renderAll_append, hrow]

theorem Rewrite_table (table : List (List (List Byte))) (M : Nat) (start0 end0 : Int)
    (h : Rectangular table M) (hlast : EndsInField table)
    (hlen : ∀ line ∈ table, ∀ v ∈ line, v.length < FILE_BUF_READ_SIZE_BYTES)
    (hM : M ≤ INT_NEG) (hN : table.length ≤ INT_NEG)
    (h0 : ¬ (start0 ≤ 0 ∧ 0 < end0)) :
    Rewrite (serialize table) start0 end0 =
      ⟨.returned, renderAll (tableTriplets 0 table)⟩ := by
  rw [Rewrite_eq_scanList _ _ _ h0,
    scan_table table M h.columns scanInit h.lines h.width h.plain hlen h.ends
      (Or.inl h.first) hlast rfl rfl (Or.inl rfl) hM (by simpa [scanInit] using hN)]
  simp [scanInit]

/-- The step at a newline that is the last byte of the file. -/
theorem scanStep_newline_last (st : ScanState) (b : Byte) (hp : st.prev = some b)
    (hb1 : b ≠ FILE_DELIMITER) (hb2 : b ≠ CR)
    (hlen : st.value.length + 1 < FILE_BUF_READ_SIZE_BYTES)
    (hcrc : st.crc = 0 ∨ st.crc = st.row)
    (hr : st.row < INT_NEG) (hc : st.col < INT_NEG) :
    scanStep NL true st =
      .next { out := st.out ++ (Triplet.mk st.row st.col (st.value ++ [NL])).render,
              row := 0, col := st.col + 1, crc := st.row, value := [],
              prev := some NL } := by
  have h : ¬ (NL = FILE_DELIMITER) := by decide
  rcases hcrc with h0 | h0
  · simp [scanStep, h, hp, hb1, hb2, countLine, Triplet.render, hlen, h0,
      printf_int_of_lt _ hr, printf_int_of_lt _ hc, intInc_of_lt _ hc]
  · by_cases hz : st.crc = 0
    · simp [scanStep, h, hp, hb1, hb2, countLine, Triplet.render, hlen, hz,
        printf_int_of_lt _ hr, printf_int_of_lt _ hc, intInc_of_lt _ hc]
    · simp [scanStep, h, hp, hb1, hb2, countLine, Triplet.render, hlen, hz, h0,
        printf_int_of_lt _ hr, printf_int_of_lt _ hc, intInc_of_lt _ hc]

theorem finalNewline_cons (t : Triplet) (ts : List Triplet) (h : ts ≠ []) :
    finalNewline (t :: ts) = t :: finalNewline ts := by
  cases ts with
  | nil => exact absurd rfl h
  | cons u us => rfl

theorem finalNewline_append (ts us : List Triplet) (h : us ≠ []) :
    finalNewline (ts ++ us) = ts ++ finalNewline us := by
  induction ts with
  | nil => rfl
  | cons t ts ih =>
    rw [List.cons_append, finalNewline_cons _ _ (by simp [h]), ih, List.cons_append]

theorem length_finalNewline (ts : List Triplet) : (finalNewline ts).length = ts.length := by
  induction ts with
  | nil => rfl
  | cons t ts ih =>
    cases ts with
    | nil => rfl
    | cons u us => rw [finalNewline_cons _ _ (by simp)]; simp [ih]

theorem mem_finalNewline (ts : List Triplet) (t : Triplet) (h : t ∈ finalNewline ts) :
    ∃ u ∈ ts, t.FieldIndex = u.FieldIndex ∧ t.LineIndex = u.LineIndex := by
  induction ts with
  | nil => simp [finalNewline] at h
  | cons a ts ih =>
    cases ts with
    | nil =>
      simp only [finalNewline, List.mem_singleton] at h
      subst h
      exact ⟨a, by simp, rfl, rfl⟩
    | cons u us =>
      rw [finalNewline_cons _ _ (by simp), List.mem_cons] at h
      rcases h with h | h
      · subst h; exact ⟨t, by simp, rfl, rfl⟩
      · obtain ⟨x, hx, h1, h2⟩ := ih h
        exact ⟨x, by simp [hx], h1, h2⟩

theorem lineTriplets_ne_nil (i j : Nat) (line : List (List Byte)) (h : line ≠ []) :
    lineTriplets i j line ≠ [] := by
  cases line with
  | nil => exact absurd rfl h
  | cons v vs => simp [lineTriplets]

/-- Scanning the last line of a file that ends in a newline: the value of the
last record runs over the newline. -/
theorem scan_final_line (line : List (List Byte)) :
    ∀ (st : ScanState), line ≠ [] →
      (∀ v ∈ line, PlainField v) → (∀ v ∈ line, v.length < FILE_BUF_READ_SIZE_BYTES) →
      (∀ v, line.getLast? = some v → v.length + 1 < FILE_BUF_READ_SIZE_BYTES) →
      (line.getLast? ≠ some [] ∨ (line = [[]] ∧ st.prev = some NL)) → st.value = [] →
      (st.crc = 0 ∨ st.crc + 1 = st.row + line.length) →
      st.row + line.length ≤ INT_NEG → st.col < INT_NEG →
      scanList (joinLine line ++ [NL]) st =
        ⟨.returned, st.out ++ renderAll (finalNewline (lineTriplets st.col st.row line))⟩ := by
  induction line with
  | nil => intro st h; exact absurd rfl h
  | cons v vs ih =>
    intro st _ hplain hlen hlast hend hval hcrc hrow hcol
    have hpv := hplain v (by simp)
    have hlv := hlen v (by simp)
    have hr : st.row < INT_NEG := by simp only [List.length_cons] at hrow; omega
    cases vs with
    | nil =>
      have hl1 := hlast v (by simp)
      by_cases hvne : v = []
      · subst hvne
        have hp : st.prev = some NL := by
          rcases hend with h | h
          · exact absurd (by simp) h
          · exact h.2
        rw [joinLine_single, List.nil_append, scanList_cons]
        simp only [List.isEmpty_nil]
        rw [scanStep_newline_last _ NL hp (by decide) (by decide)
          (by simp [hval, FILE_BUF_READ_SIZE_BYTES]) (by simp at hcrc ⊢; omega) (by exact hr) (by exact hcol)]
        simp [scanList, lineTriplets, finalNewline, renderAll, hval]
      · obtain ⟨b, hb, hf⟩ := foldl_prev v st.prev hvne
        rw [joinLine_single,
          scan_field v _ st (by simp) (fun b hb => ⟨(hpv b hb).1, (hpv b hb).2.1⟩),
          scanList_cons]
        simp only [List.isEmpty_nil]
        rw [scanStep_newline_last _ b hf (hpv b hb).1 (hpv b hb).2.2
          (by simpa [hval] using hl1) (by simp at hcrc ⊢; omega) (by exact hr) (by exact hcol)]
        simp [scanList, lineTriplets, finalNewline, renderAll, hval]
    | cons w ws =>
      rw [joinLine_cons_cons, List.append_assoc, List.cons_append,
        scan_field v _ st (by simp) (fun b hb => ⟨(hpv b hb).1, (hpv b hb).2.1⟩),
        scanList_cons]
      have hre2 : (joinLine (w :: ws) ++ [NL]).isEmpty = false := by
        cases h : joinLine (w :: ws) <;> simp
      have hend2 : (w :: ws).getLast? ≠ some [] := by
        rcases hend with h | h
        · simpa using h
        · exact absurd h.1 (by simp)
      rw [hre2, scanStep_delimiter _ (by simpa [hval] using hlv) (by exact hr) (by exact hcol)]
      simp only []
      rw [ih _ (by simp) (fun u hu => hplain u (by simp [hu]))
        (fun u hu => hlen u (by simp [hu]))
        (fun u hu => hlast u (by rw [List.getLast?_cons_cons]; exact hu))
        (Or.inl hend2) rfl (by simp at hcrc ⊢; omega)
        (by simp only [List.length_cons] at hrow ⊢; omega) (by exact hcol)]
      have e : lineTriplets st.col st.row (v :: w :: ws) =
          ⟨st.row, st.col, v⟩ :: lineTriplets st.col (st.row + 1) (w :: ws) := rfl
      rw [e, finalNewline_cons _ _ (lineTriplets_ne_nil _ _ _ (by simp))]
      simp [renderAll, hval]

theorem tableTriplets_ne_nil (M : Nat) (hM : 1 ≤ M) (i : Nat) (table : List (List (List Byte)))
    (h : table ≠ []) (hw : ∀ line ∈ table, line.length = M) : tableTriplets i table ≠ [] := by
  cases table with
  | nil => exact absurd rfl h
  | cons l ls =>
    have hl : l ≠ [] := by
      intro e; have := hw l (by simp); rw [e] at this; simp at this; omega
    simp [tableTriplets, lineTriplets_ne_nil i 0 l hl]

/-- Scanning a rectangular table that is followed by a final newline. -/
theorem scan_table_final (table : List (List (List Byte))) (M : Nat) (hM : 1 ≤ M) :
    ∀ (st : ScanState), table ≠ [] →
      (∀ line ∈ table, line.length = M) →
      (∀ line ∈ table, ∀ v ∈ line, PlainField v) →
      (∀ line ∈ table, ∀ v ∈ line, v.length < FILE_BUF_READ_SIZE_BYTES) →
      (∀ v, table.getLast?.bind List.getLast? = some v →
        v.length + 1 < FILE_BUF_READ_SIZE_BYTES) →
      (2 ≤ M → ∀ line ∈ table, line.getLast? ≠ some []) →
      (table.head?.bind List.getLast? ≠ some [] ∨ st.prev = some NL) →
      st.value = [] → st.row = 0 → (st.crc = 0 ∨ st.crc + 1 = M) →
      M ≤ INT_NEG → st.col + table.length ≤ INT_NEG →
      scanList (serialize table ++ [NL]) st =
        ⟨.returned, st.out ++ renderAll (finalNewline (tableTriplets st.col table))⟩ := by
  induction table with
  | nil => intro st h; exact absurd rfl h
  | cons l ls ih =>
    intro st _ hw hplain hlen hlast hend hfirst hval hrow hcrc hMb hNb
    have hl : l.length = M := hw l (by simp)
    have hlne : l ≠ [] := by
      intro h; rw [h] at hl; simp at hl; omega
    have hcol : st.col < INT_NEG := by simp only [List.length_cons] at hNb; omega
    have hrowb : st.row + l.length ≤ INT_NEG := by rw [hrow, hl]; omega
    have hline : l.getLast? ≠ some [] ∨ (l = [[]] ∧ st.prev = some NL) := by
      by_cases h2 : 2 ≤ M
      · exact Or.inl (hend h2 l (by simp))
      · have h1 : l.length = 1 := by omega
        obtain ⟨v, rfl⟩ := List.length_eq_one.1 h1
        by_cases hv : v = []
        · subst hv
          rcases hfirst with h | h
          · exact absurd (by simp) h
          · exact Or.inr ⟨rfl, h⟩
        · left; simpa using hv
    cases ls with
    | nil =>
      rw [serialize_single, scan_final_line l st hlne (hplain l (by simp)) (hlen l (by simp))
        (fun v hv => hlast v (by simpa using hv)) hline hval (by rw [hrow, hl]; omega)
        (by exact hrowb) (by exact hcol)]
      simp [tableTriplets, hrow]
    | cons m ms =>
      have hlast2 : ∀ v, (m :: ms).getLast?.bind List.getLast? = some v →
          v.length + 1 < FILE_BUF_READ_SIZE_BYTES := by
        intro v hv; exact hlast v (by rw [List.getLast?_cons_cons]; exact hv)
      rw [serialize_cons_cons, List.append_assoc, List.cons_append, scan_line l _ st
        (by simp) hlne (hplain l (by simp)) (hlen l (by simp)) hline hval
        (by rw [hrow, hl]; omega) (by exact hrowb) (by exact hcol)]
      rw [ih _ (by simp) (fun x hx => hw x (by simp [hx]))
        (fun x hx => hplain x (by simp [hx])) (fun x hx => hlen x (by simp [hx]))
        hlast2 (fun h2 x hx => hend h2 x (by simp [hx])) (Or.inr rfl) rfl rfl
        (by simp [hrow, hl]; omega) hMb (by simp only [List.length_cons] at hNb ⊢; omega)]
      have e : tableTriplets st.col (l :: m :: ms) =
          lineTriplets st.col 0 l ++ tableTriplets (st.col + 1) (m :: ms) := rfl
      rw [e, finalNewline_append _ _ (tableTriplets_ne_nil M hM _ _ (by simp)
        (fun x hx => hw x (by simp [hx])))]
      simp [renderAll_append, hrow]

/-- `Rewrite` on a rectangular table that is followed by a final newline. -/
theorem Rewrite_table_final (table : List (List (List Byte))) (M : Nat) (start0 end0 : Int)
    (h : Rectangular table M)
    (hlen : ∀ line ∈ table, ∀ v ∈ line, v.length < FILE_BUF_READ_SIZE_BYTES)
    (hlast : ∀ v, table.getLast?.bind List.getLast? = some v →
      v.length + 1 < FILE_BUF_READ_SIZE_BYTES)
    (hM : M ≤ INT_NEG) (hN : table.length ≤ INT_NEG)
    (h0 : ¬ (start0 ≤ 0 ∧ 0 < end0)) :
    Rewrite (serialize table ++ [NL]) start0 end0 =
      ⟨.returned, renderAll (finalNewline (tableTriplets 0 table))⟩ := by
  rw [Rewrite_eq_scanList _ _ _ h0,
    scan_table_final table M h.columns scanInit h.lines h.width h.plain hlen hlast h.ends
      (Or.inl h.first) rfl rfl (Or.inl rfl) hM (by simpa [scanInit] using hN)]
  simp [scanInit]

/-! ## `MakeMatrix` on a stream of records -/

theorem isdigit_of_lt (n : Nat) (h : n < 10) : isdigit (48 + n) = true := by
  unfold isdigit Byte at *
  simp; omega

theorem printfDigits_spec : ∀ (n fuel : Nat), n < fuel → ∀ acc : List Byte,
    ∃ ds : List Byte, printfDigits fuel n acc = ds ++ acc ∧ ds ≠ [] ∧
      (∀ d ∈ ds, isdigit d = true) ∧
      ∀ (a : Nat) (tail : List Byte),
        scanDigits (ds ++ tail) a = scanDigits tail (a * 10 ^ ds.length + n) := by
  intro n
  induction n using Nat.strong_induction_on with
  | _ n ih =>
    intro fuel hfuel acc
    cases fuel with
    | zero => omega
    | succ fuel =>
      by_cases h : n < 10
      · refine ⟨[48 + n], by simp [printfDigits, h], by simp, ?_, ?_⟩
        · intro d hd
          simp at hd; subst hd
          exact isdigit_of_lt n h
        · intro a tail
          simp only [List.cons_append, List.nil_append, scanDigits, isdigit_of_lt n h, if_true,
            List.length_singleton, pow_one]
          congr 1
          unfold Byte at *
          omega
      · obtain ⟨ds, h1, h2, h3, h4⟩ := ih (n / 10) (by omega) fuel (by omega)
          ((48 + n % 10) :: acc)
        refine ⟨ds ++ [48 + n % 10], by simp [printfDigits, h, h1], by simp, ?_, ?_⟩
        · intro d hd
          simp at hd
          rcases hd with hd | hd
          · exact h3 d hd
          · subst hd; exact isdigit_of_lt _ (Nat.mod_lt n (by omega))
        · intro a tail
          have hd : isdigit (48 + n % 10) = true := isdigit_of_lt _ (Nat.mod_lt n (by omega))
          rw [List.append_assoc, h4]
          simp [scanDigits, hd, pow_succ]
          congr 1
          have := Nat.div_add_mod n 10
          ring_nf
          omega

theorem scanDigits_stop (tail : List Byte) (n : Nat)
    (h : ∀ b, tail.head? = some b → isdigit b = false) : scanDigits tail n = (n, tail) := by
  cases tail with
  | nil => rfl
  | cons b bs => simp [scanDigits, h b rfl]

theorem printf_d_spec (n : Nat) :
    ∃ (d : Byte) (ds : List Byte), printf_d n = d :: ds ∧ isdigit d = true ∧
      (∀ b ∈ d :: ds, isdigit b = true) ∧
      ∀ tail : List Byte, (∀ b, tail.head? = some b → isdigit b = false) →
        scanDigits (printf_d n ++ tail) 0 = (n, tail) := by
  obtain ⟨ds, h1, h2, h3, h4⟩ := printfDigits_spec n (n + 1) (by omega) []
  simp only [List.append_nil] at h1
  cases ds with
  | nil => exact absurd rfl h2
  | cons d ds =>
    refine ⟨d, ds, h1, h3 d (by simp), h3, fun tail ht => ?_⟩
    rw [printf_d, h1, h4, scanDigits_stop tail _ ht]
    simp

theorem isdigit_not_space (b : Byte) (h : isdigit b = true) : isspace b = false := by
  unfold isdigit isspace Byte at *
  simp at h
  simp; omega

theorem isdigit_SP : isdigit SP = false := by decide

/-- A number below `2^31` is stored as it is. -/
theorem storeInt_of_lt (n : Nat) (h : n < INT_NEG) : storeInt (n : Int) = n := by
  rw [INT_NEG_eq] at h
  unfold storeInt
  have h1 : min (n : Int) (2 ^ 63 - 1) = n := by
    apply min_eq_left; norm_num; omega
  have h2 : max (-(2 ^ 63 : Int)) (n : Int) = n := by
    apply max_eq_right; norm_num; omega
  rw [h1, h2]
  norm_num
  omega

/-- A `%d` conversion reads back a number below `2^31` written by
`printf("%d")` when a space follows. -/
theorem scanInt_printf (n : Nat) (tail : List Byte) (hn : n < INT_NEG) :
    scanInt { rest := printf_d n ++ SP :: tail, eof := false } =
      ({ rest := SP :: tail, eof := false }, some (n : Int)) := by
  obtain ⟨d, ds, h1, h2, h3, h4⟩ := printf_d_spec n
  have hsp := isdigit_not_space d h2
  have hd : d ≠ 45 ∧ d ≠ 43 := by
    unfold isdigit Byte at *
    simp at h2; omega
  have h5 := h4 (SP :: tail) (by intro b hb; simp at hb; subst hb; exact isdigit_SP)
  rw [h1] at h5
  simp only [List.cons_append] at h5
  simp only [scanInt, skipSpace, h1, List.cons_append, List.dropWhile_cons, hsp,
    Bool.false_eq_true, if_false, List.isEmpty_cons, Bool.or_false, hd.1, hd.2, or_self,
    h2, if_true, h5, decide_False, storeInt_of_lt n hn]

theorem skipSpace_SP (tail : List Byte) (h : ∀ b, tail.head? = some b → isspace b = false)
    (hne : tail ≠ []) :
    skipSpace { rest := SP :: tail, eof := false } = { rest := tail, eof := false } := by
  cases tail with
  | nil => exact absurd rfl hne
  | cons b bs =>
    have hb := h b rfl
    have hsp : isspace SP = true := by decide
    simp [skipSpace, List.dropWhile_cons, hb, hsp]

theorem ReadToEndl_line (v rest : List Byte) (h : ∀ b ∈ v, b ≠ NL) :
    ReadToEndl (v ++ NL :: rest) = (v, { rest := rest, eof := false }) := by
  induction v with
  | nil => simp [ReadToEndl]
  | cons a v ih =>
    have ha := h a (by simp)
    simp [ReadToEndl, ha, ih (fun b hb => h b (by simp [hb]))]

theorem cstr_eq (v : List Byte) (h : ∀ b ∈ v, b ≠ 0) : cstr v = v := by
  unfold cstr
  rw [List.takeWhile_eq_self_iff]
  intro b hb; simpa using h b hb

theorem NukeNl_eq (v : List Byte) (h0 : ∀ b ∈ v, b ≠ 0) (h1 : ∀ b ∈ v, b ≠ NL) :
    NukeNl v = v := by
  unfold NukeNl
  rw [cstr_eq v h0, List.takeWhile_eq_self_iff]
  intro b hb; simpa using h1 b hb

/-- Reading a record whose value is not empty, holds no newline and does not
begin with white space, and whose indices are below `2^31`. -/
theorem readRecord_value (t : Triplet) (rest : List Byte) (row col : Int)
    (hne : t.value ≠ []) (hnl : ∀ b ∈ t.value, b ≠ NL)
    (hsp : ∀ b, t.value.head? = some b → isspace b = false) (hi : t.FitsInt) :
    readRecord { rest := t.render ++ rest, eof := false } row col =
      ({ row := t.FieldIndex, col := t.LineIndex, line := NukeNl t.value },
        { rest := rest, eof := false }) := by
  obtain ⟨d, ds, h1, h2, h3, -⟩ := printf_d_spec t.LineIndex
  have hv : ∀ b, (t.value ++ NL :: rest).head? = some b → isspace b = false := by
    intro b hb
    apply hsp b
    cases hvv : t.value with
    | nil => exact absurd hvv hne
    | cons a as => rw [hvv] at hb; simpa using hb
  have e1 : t.render ++ rest =
      printf_d t.FieldIndex ++ SP :: (printf_d t.LineIndex ++ SP :: (t.value ++ NL :: rest)) := by
    simp [Triplet.render]
  have hs1 : skipSpace ⟨SP :: (printf_d t.LineIndex ++ SP :: (t.value ++ NL :: rest)), false⟩ =
      ⟨printf_d t.LineIndex ++ SP :: (t.value ++ NL :: rest), false⟩ := by
    apply skipSpace_SP
    · intro b hb
      rw [h1] at hb
      simp at hb; subst hb
      exact isdigit_not_space _ h2
    · rw [h1]; simp
  have hs2 : skipSpace { rest := SP :: (t.value ++ NL :: rest), eof := false } =
      { rest := t.value ++ NL :: rest, eof := false } :=
    skipSpace_SP _ hv (by simp)
  simp only [readRecord, fscanf_d_d, e1, scanInt_printf _ _ hi.1, scanInt_printf _ _ hi.2, hs1,
    hs2, ReadToEndl_line t.value rest hnl, Bool.or_false]

/-- Reading a well-formed record. -/
theorem readRecord_render (t : Triplet) (rest : List Byte) (row col : Int)
    (h : GoodValue t.value) (hi : t.FitsInt) :
    readRecord { rest := t.render ++ rest, eof := false } row col =
      (t.toLineBuf, { rest := rest, eof := false }) := by
  rw [readRecord_value t rest row col h.nonempty h.no_nl h.no_space hi,
    NukeNl_eq t.value h.no_nul h.no_nl]
  rfl

theorem readRecord_empty (row col : Int) :
    readRecord { rest := [], eof := false } row col =
      ({ row := row, col := col, line := [] }, { rest := [], eof := true }) := by
  simp [readRecord, fscanf_d_d, scanInt, skipSpace, ReadToEndl, NukeNl, cstr]

/-- An empty line in front of a record is skipped by the `fscanf` call: white
space in front of `%d` includes `'\n'`. -/
theorem readRecord_NL (s : List Byte) (e : Bool) (row col : Int) :
    readRecord { rest := NL :: s, eof := e } row col = readRecord { rest := s, eof := e } row col := by
  have h : skipSpace { rest := NL :: s, eof := e } = skipSpace { rest := s, eof := e } := by
    have hsp : isspace NL = true := by decide
    simp [skipSpace, List.dropWhile_cons, hsp]
  have h2 : scanInt { rest := NL :: s, eof := e } = scanInt { rest := s, eof := e } := by
    unfold scanInt
    rw [h]
  unfold readRecord fscanf_d_d
  rw [h2]

/-- The loop of `MakeMatrix` does not see an empty line at the front of the
stream. -/
theorem MakeMatrixLoop_NL (fuel : Nat) (s : List Byte) (last_line cur_line : LineBuf)
    (out : List Byte) :
    MakeMatrixLoop fuel { rest := NL :: s, eof := false } last_line cur_line out =
      MakeMatrixLoop fuel { rest := s, eof := false } last_line cur_line out := by
  cases fuel with
  | zero => rfl
  | succ n => simp only [MakeMatrixLoop, readRecord_NL]

/-- The loop of `MakeMatrix` on a stream of well-formed records. -/
theorem MakeMatrixLoop_spec (ts : List Triplet) :
    ∀ (fuel : Nat) (last_line cur_line : LineBuf) (out : List Byte),
      (∀ t ∈ ts, GoodValue t.value) → (∀ t ∈ ts, t.FitsInt) →
      (∀ b ∈ last_line.line, b ≠ 0) → ts.length + 1 ≤ fuel →
      MakeMatrixLoop fuel { rest := renderAll ts, eof := false } last_line cur_line out =
        ⟨.returned, out ++ loopOutput last_line ts cur_line.row ++ [NL]⟩ := by
  induction ts with
  | nil =>
    intro fuel last_line cur_line out _ _ hl hf
    cases fuel with
    | zero => omega
    | succ n =>
      simp only [MakeMatrixLoop, renderAll_nil, Bool.false_eq_true, if_false, readRecord_empty]
      cases n <;>
        (simp only [MakeMatrixLoop, loopOutput, emitRecord, cstr_eq _ hl, if_true]
         split_ifs <;> simp)
  | cons t ts ih =>
    intro fuel last_line cur_line out hg hi hl hf
    cases fuel with
    | zero => omega
    | succ n =>
      have hgt := hg t (by simp)
      simp only [MakeMatrixLoop, renderAll_cons, Bool.false_eq_true, if_false,
        readRecord_render t _ _ _ hgt (hi t (by simp))]
      rw [ih n _ _ _ (fun u hu => hg u (by simp [hu])) (fun u hu => hi u (by simp [hu]))
        hgt.no_nul (by simpa using hf)]
      simp only [loopOutput, emitRecord, cstr_eq _ hl, Triplet.toLineBuf]
      split_ifs <;> simp

theorem length_le_renderAll (ts : List Triplet) : ts.length ≤ (renderAll ts).length := by
  induction ts with
  | nil => simp
  | cons t ts ih =>
    rw [renderAll_cons]
    simp [Triplet.render]
    omega

/-- `MakeMatrix` on a stream of well-formed records. -/
theorem MakeMatrix_records (t : Triplet) (ts : List Triplet) (last0 cur0 : LineBuf)
    (h : ∀ u ∈ t :: ts, GoodValue u.value) (hi : ∀ u ∈ t :: ts, u.FitsInt) :
    MakeMatrix (renderAll (t :: ts)) last0 cur0 =
      ⟨.returned, loopOutput t.toLineBuf ts cur0.row ++ [NL]⟩ := by
  have ht := h t (by simp)
  unfold MakeMatrix
  rw [renderAll_cons, readRecord_render t _ _ _ ht (hi t (by simp))]
  simp only []
  rw [MakeMatrixLoop_spec ts _ _ _ _ (fun u hu => h u (by simp [hu]))
    (fun u hu => hi u (by simp [hu])) ht.no_nul]
  · simp
  · have := length_le_renderAll ts
    simp
    omega

theorem joinLine_cons (v : List Byte) (vs : List (List Byte)) :
    joinLine (v :: vs) = v ++ (vs.map (fun w => FILE_DELIMITER :: w)).flatten := by
  induction vs generalizing v with
  | nil => simp [joinLine_single]
  | cons w ws ih => rw [joinLine_cons_cons, ih w]; simp

theorem loopOutput_cons (l : LineBuf) (t : Triplet) (ts : List Triplet) (cr : Int) :
    loopOutput l (t :: ts) cr =
      emitRecord l t.FieldIndex ++ loopOutput t.toLineBuf ts t.FieldIndex := rfl

theorem mem_groupTriplets (r : Nat) (vs : List (List Byte)) :
    ∀ (c : Nat) (u : Triplet), u ∈ groupTriplets r c vs →
      u.FieldIndex = r ∧ c ≤ u.LineIndex ∧ u.value ∈ vs := by
  induction vs with
  | nil => intro c u h; simp [groupTriplets] at h
  | cons v vs ih =>
    intro c u h
    simp only [groupTriplets, List.mem_cons] at h
    rcases h with h | h
    · subst h; simp
    · obtain ⟨h1, h2, h3⟩ := ih (c + 1) u h
      exact ⟨h1, by omega, by simp [h3]⟩

theorem mem_gridTriplets (c : Nat) (rows : List (List (List Byte))) :
    ∀ (r : Nat) (u : Triplet), u ∈ gridTriplets c r rows →
      r ≤ u.FieldIndex ∧ ∃ g ∈ rows, u.value ∈ g := by
  induction rows with
  | nil => intro r u h; simp [gridTriplets] at h
  | cons g gs ih =>
    intro r u h
    simp only [gridTriplets, List.mem_append] at h
    rcases h with h | h
    · obtain ⟨h1, -, h3⟩ := mem_groupTriplets r g c u h
      exact ⟨by omega, g, by simp, h3⟩
    · obtain ⟨h1, g2, h2, h3⟩ := ih (r + 1) u h
      exact ⟨by omega, g2, by simp [h2], h3⟩

theorem groupTriplets_lt (r : Nat) (vs : List (List Byte)) :
    ∀ (c : Nat) (u : Triplet), u ∈ groupTriplets r c vs → u.LineIndex < c + vs.length := by
  induction vs with
  | nil => intro c u h; simp [groupTriplets] at h
  | cons v vs ih =>
    intro c u h
    simp only [groupTriplets, List.mem_cons] at h
    rcases h with h | h
    · subst h; simp
    · have := ih (c + 1) u h
      simp only [List.length_cons]
      omega

theorem gridTriplets_lt (c : Nat) (rows : List (List (List Byte))) :
    ∀ (r : Nat) (u : Triplet), u ∈ gridTriplets c r rows →
      u.FieldIndex < r + rows.length ∧ ∃ g ∈ rows, u.LineIndex < c + g.length := by
  induction rows with
  | nil => intro r u h; simp [gridTriplets] at h
  | cons g gs ih =>
    intro r u h
    simp only [gridTriplets, List.mem_append] at h
    rcases h with h | h
    · obtain ⟨h1, -, -⟩ := mem_groupTriplets r g c u h
      exact ⟨by simp only [List.length_cons]; omega, g, by simp, groupTriplets_lt r g c u h⟩
    · obtain ⟨h1, g2, h2, h3⟩ := ih (r + 1) u h
      exact ⟨by simp only [List.length_cons]; omega, g2, by simp [h2], h3⟩

/-- The indices of a grid with at most `2^31` groups of at most `2^31` values
are values of a non-negative `int`. -/
theorem gridTriplets_fits (rows : List (List (List Byte))) (hR : rows.length ≤ INT_NEG)
    (hC : ∀ g ∈ rows, g.length ≤ INT_NEG) : ∀ u ∈ gridTriplets 0 0 rows, u.FitsInt := by
  intro u hu
  obtain ⟨h1, g, hg, h2⟩ := gridTriplets_lt 0 rows 0 u hu
  have := hC g hg
  exact ⟨by omega, by omega⟩

/-- The output for a group that is followed by the records `rest`. -/
theorem loopOutput_group (r : Nat) (vs : List (List Byte)) :
    ∀ (c : Nat) (v : List Byte) (rest : List Triplet),
      loopOutput (Triplet.mk r c v).toLineBuf (groupTriplets r (c + 1) vs ++ rest) r =
        (if c ≠ 0 then [FILE_DELIMITER] else []) ++ v ++
          (vs.map (fun w => FILE_DELIMITER :: w)).flatten ++
          (match rest with
           | [] => []
           | u :: us => (if u.FieldIndex ≠ r then [NL] else []) ++
               loopOutput u.toLineBuf us u.FieldIndex) := by
  induction vs with
  | nil =>
    intro c v rest
    cases rest with
    | nil => simp [groupTriplets, loopOutput, emitRecord, Triplet.toLineBuf]
    | cons u us =>
      simp only [groupTriplets, List.nil_append, loopOutput, emitRecord, Triplet.toLineBuf]
      simp
  | cons w ws ih =>
    intro c v rest
    rw [groupTriplets, List.cons_append, loopOutput_cons]
    have e : ((Triplet.mk r (c + 1) w).FieldIndex : Int) = (r : Int) := rfl
    rw [e, ih (c + 1) w rest]
    simp [emitRecord, Triplet.toLineBuf]

/-- The output for the groups `rows`: the lines separated by `'\n'`. -/
theorem loopOutput_grid (rows : List (List (List Byte))) :
    ∀ r : Nat, rows ≠ [] → (∀ g ∈ rows, g ≠ []) →
      ∃ t ts, gridTriplets 0 r rows = t :: ts ∧ t.FieldIndex = r ∧
        loopOutput t.toLineBuf ts t.FieldIndex = serialize rows := by
  induction rows with
  | nil => intro r h; exact absurd rfl h
  | cons g gs ih =>
    intro r _ hne
    cases g with
    | nil => exact absurd rfl (hne [] (by simp))
    | cons v vs =>
      refine ⟨⟨r, 0, v⟩, groupTriplets r 1 vs ++ gridTriplets 0 (r + 1) gs, by
        simp [gridTriplets, groupTriplets], rfl, ?_⟩
      have := loopOutput_group r vs 0 v (gridTriplets 0 (r + 1) gs)
      simp only [zero_add] at this
      rw [this]
      cases gs with
      | nil => simp [gridTriplets, serialize_single, joinLine_cons]
      | cons g2 gs2 =>
        obtain ⟨t, ts, h1, h2, h3⟩ := ih (r + 1) (by simp) (fun g hg => hne g (by simp [hg]))
        rw [h1]
        simp only []
        rw [h3, h2, serialize_cons_cons, joinLine_cons]
        simp

theorem serialize_append_NL (rows : List (List (List Byte))) (h : rows ≠ []) :
    serialize rows ++ [NL] = delimitedLines rows := by
  induction rows with
  | nil => exact absurd rfl h
  | cons g gs ih =>
    cases gs with
    | nil => simp [serialize_single, delimitedLines]
    | cons g2 gs2 =>
      rw [serialize_cons_cons]
      have := ih (by simp)
      simp only [delimitedLines, List.map_cons, List.flatten_cons] at this ⊢
      rw [← this]
      simp

/-- `MakeMatrix` on the sorted, dense stream of at least two records. -/
theorem MakeMatrix_grid (rows : List (List (List Byte))) (last0 cur0 : LineBuf)
    (hne : ∀ g ∈ rows, g ≠ []) (hgood : ∀ g ∈ rows, ∀ v ∈ g, GoodValue v)
    (h2 : 2 ≤ (gridTriplets 0 0 rows).length)
    (hR : rows.length ≤ INT_NEG) (hC : ∀ g ∈ rows, g.length ≤ INT_NEG) :
    MakeMatrix (renderAll (gridTriplets 0 0 rows)) last0 cur0 =
      ⟨.returned, delimitedLines rows⟩ := by
  have hrows : rows ≠ [] := by
    intro h; subst h; simp [gridTriplets] at h2
  obtain ⟨t, ts, h1, -, h3⟩ := loopOutput_grid rows 0 hrows hne
  have hmem : ∀ u ∈ gridTriplets 0 0 rows, GoodValue u.value := by
    intro u hu
    obtain ⟨-, g, hg, hv⟩ := mem_gridTriplets 0 rows 0 u hu
    exact hgood g hg _ hv
  have hfit := gridTriplets_fits rows hR hC
  rw [h1] at h2 hmem hfit ⊢
  rw [MakeMatrix_records t ts last0 cur0 hmem hfit]
  cases ts with
  | nil => simp at h2
  | cons u us =>
    rw [← serialize_append_NL rows hrows, ← h3]
    simp [loopOutput]

/-! ## The sort between the two phases -/

theorem gridTriplets_empty (c : Nat) (rows : List (List (List Byte))) :
    ∀ r : Nat, (∀ g ∈ rows, g = []) → gridTriplets c r rows = [] := by
  induction rows with
  | nil => intro r _; rfl
  | cons g gs ih =>
    intro r h
    have hg := h g (by simp)
    subst hg
    simp [gridTriplets, groupTriplets, ih (r + 1) (fun g hg => h g (by simp [hg]))]

theorem gridTriplets_zipWith (c : Nat) (heads : List (List Byte)) :
    ∀ (tails : List (List (List Byte))) (r : Nat), heads.length = tails.length →
      (gridTriplets c r (List.zipWith List.cons heads tails)).Perm
        (lineTriplets c r heads ++ gridTriplets (c + 1) r tails) := by
  induction heads with
  | nil =>
    intro tails r h
    cases tails with
    | nil => simp [gridTriplets, lineTriplets]
    | cons _ _ => simp at h
  | cons v vs ih =>
    intro tails r h
    cases tails with
    | nil => simp at h
    | cons t ts =>
      simp only [List.zipWith_cons_cons, gridTriplets, groupTriplets, lineTriplets,
        List.cons_append]
      apply List.Perm.cons
      have h1 := ih ts (r + 1) (by simpa using h)
      refine (List.Perm.append_left _ h1).trans ?_
      rw [← List.append_assoc, ← List.append_assoc]
      exact List.Perm.append_right _ List.perm_append_comm

theorem transposeTable_nil (M : Nat) : ∀ g ∈ transposeTable M [], g = [] := by
  intro g hg
  simp [transposeTable] at hg
  exact hg.2

theorem transposeTable_cons (M : Nat) (l : List (List Byte)) (ls : List (List (List Byte)))
    (h : l.length = M) :
    transposeTable M (l :: ls) = List.zipWith List.cons l (transposeTable M ls) := by
  apply List.ext_getElem
  · simp [transposeTable, h]
  · intro i h1 h2
    simp [transposeTable] at h1 h2 ⊢
    rw [List.getElem?_eq_getElem (by omega)]
    simp

/-- The triplets of a rectangular table in source order are a permutation of
the triplets of the transposed table in sorted order. -/
theorem tableTriplets_perm (M : Nat) (table : List (List (List Byte))) :
    ∀ i : Nat, (∀ line ∈ table, line.length = M) →
      (tableTriplets i table).Perm (gridTriplets i 0 (transposeTable M table)) := by
  induction table with
  | nil =>
    intro i _
    rw [gridTriplets_empty i _ 0 (transposeTable_nil M)]
    simp [tableTriplets]
  | cons l ls ih =>
    intro i h
    have hl := h l (by simp)
    rw [transposeTable_cons M l ls hl]
    refine List.Perm.trans ?_ (gridTriplets_zipWith i l _ 0 (by simp [transposeTable, hl])).symm
    simp only [tableTriplets]
    exact List.Perm.append_left _ (ih (i + 1) (fun x hx => h x (by simp [hx])))

theorem pairwise_groupTriplets (r : Nat) (vs : List (List Byte)) :
    ∀ c : Nat, (groupTriplets r c vs).Pairwise Triplet.lt := by
  induction vs with
  | nil => intro c; simp [groupTriplets]
  | cons v vs ih =>
    intro c
    simp only [groupTriplets, List.pairwise_cons]
    refine ⟨fun u hu => ?_, ih (c + 1)⟩
    obtain ⟨h1, h2, -⟩ := mem_groupTriplets r vs (c + 1) u hu
    right
    exact ⟨h1.symm, by simp; omega⟩

theorem pairwise_gridTriplets (c : Nat) (rows : List (List (List Byte))) :
    ∀ r : Nat, (gridTriplets c r rows).Pairwise Triplet.lt := by
  induction rows with
  | nil => intro r; simp [gridTriplets]
  | cons g gs ih =>
    intro r
    simp only [gridTriplets, List.pairwise_append]
    refine ⟨pairwise_groupTriplets r g c, ih (r + 1), fun a ha b hb => ?_⟩
    obtain ⟨h1, -, -⟩ := mem_groupTriplets r g c a ha
    obtain ⟨h2, -⟩ := mem_gridTriplets c gs (r + 1) b hb
    left; omega

theorem printf_d_no_NL (n : Nat) : ∀ b ∈ printf_d n, b ≠ NL := by
  obtain ⟨d, ds, h1, -, h3, -⟩ := printf_d_spec n
  intro b hb
  rw [h1] at hb
  have := h3 b hb
  intro h; subst h
  exact absurd this (by decide)

theorem splitLines_line (v rest : List Byte) (h : ∀ b ∈ v, b ≠ NL) :
    splitLines (v ++ NL :: rest) = v :: splitLines rest := by
  induction v with
  | nil => simp [splitLines]
  | cons a v ih =>
    have ha := h a (by simp)
    simp [splitLines, ha, ih (fun b hb => h b (by simp [hb]))]

theorem render_eq (t : Triplet) : t.render = t.line ++ [NL] := rfl

theorem splitLines_renderAll (ts : List Triplet) (h : ∀ t ∈ ts, ∀ b ∈ t.value, b ≠ NL) :
    splitLines (renderAll ts) = ts.map Triplet.line := by
  induction ts with
  | nil => simp [renderAll, splitLines]
  | cons t ts ih =>
    rw [renderAll_cons, render_eq, List.append_assoc, List.singleton_append, splitLines_line,
      ih (fun u hu => h u (by simp [hu]))]
    · simp
    · intro b hb
      simp only [Triplet.line, List.mem_append, List.mem_singleton] at hb
      rcases hb with (((hb | hb) | hb) | hb) | hb
      · exact printf_d_no_NL _ b hb
      · subst hb; decide
      · exact printf_d_no_NL _ b hb
      · subst hb; decide
      · exact h t (by simp) b hb

theorem lineKey_line (t : Triplet) : lineKey t.line = (t.FieldIndex, t.LineIndex) := by
  obtain ⟨d, ds, h1, h2, -, h4⟩ := printf_d_spec t.LineIndex
  obtain ⟨-, -, -, -, -, h5⟩ := printf_d_spec t.FieldIndex
  have hSP : ∀ (tail : List Byte) (b : Byte), (SP :: tail).head? = some b → isdigit b = false := by
    intro tail b hb
    simp at hb; subst hb; decide
  have hd : d ≠ SP := by
    intro h; subst h; exact absurd h2 (by decide)
  have e : t.line = printf_d t.FieldIndex ++ SP :: (printf_d t.LineIndex ++ SP :: t.value) := by
    simp [Triplet.line]
  unfold lineKey
  rw [e, h5 _ (hSP _)]
  simp only [List.dropWhile_cons, decide_True, if_true]
  rw [h1]
  simp only [List.cons_append, List.dropWhile_cons, hd, decide_False, Bool.false_eq_true, if_false]
  rw [← List.cons_append, ← h1, h4 _ (hSP _)]

theorem keyLT_line (a b : Triplet) (h : a.lt b) : keyLT a.line b.line := by
  unfold keyLT
  rw [lineKey_line, lineKey_line]
  exact h

/-- The sort turns a stream of records into the stream of the same records in
`(FieldIndex, LineIndex)` order. -/
theorem SortTriplets_renderAll (ts us : List Triplet) (hperm : ts.Perm us)
    (hsorted : us.Pairwise Triplet.lt) (hnl : ∀ t ∈ ts, ∀ b ∈ t.value, b ≠ NL) :
    SortTriplets (renderAll ts) = renderAll us := by
  have hus : (us.map Triplet.line).Pairwise keyLT := by
    rw [List.pairwise_map]
    exact hsorted.imp (fun h => keyLT_line _ _ h)
  have hp : ((ts.map Triplet.line).insertionSort keyLE).Perm (us.map Triplet.line) :=
    (List.perm_insertionSort keyLE _).trans (hperm.map _)
  have hne : ((ts.map Triplet.line).insertionSort keyLE).Pairwise
      (fun a b => lineKey a ≠ lineKey b) := by
    rw [hp.pairwise_iff (fun h => Ne.symm h)]
    exact hus.imp (fun {a b} h => by
      unfold keyLT at h
      intro e; rw [e] at h; omega)
  have hs : ((ts.map Triplet.line).insertionSort keyLE).Pairwise keyLT := by
    have h1 : ((ts.map Triplet.line).insertionSort keyLE).Pairwise keyLE :=
      List.sorted_insertionSort keyLE _
    refine (h1.and hne).imp (fun {a b} h => ?_)
    obtain ⟨h2, h3⟩ := h
    unfold keyLE at h2
    unfold keyLT
    have h4 : (lineKey a).1 ≠ (lineKey b).1 ∨ (lineKey a).2 ≠ (lineKey b).2 := by
      by_contra hc
      push_neg at hc
      exact h3 (Prod.ext hc.1 hc.2)
    omega
  have key : (ts.map Triplet.line).insertionSort keyLE = us.map Triplet.line :=
    List.eq_of_perm_of_sorted hp hs hus
  unfold SortTriplets
  rw [splitLines_renderAll ts hnl, key]
  simp only [renderAll, List.map_map, Function.comp_def]
  rfl

theorem length_lineTriplets (i : Nat) (vs : List (List Byte)) :
    ∀ j : Nat, (lineTriplets i j vs).length = vs.length := by
  induction vs with
  | nil => intro j; rfl
  | cons v vs ih => intro j; simp [lineTriplets, ih (j + 1)]

theorem length_tableTriplets (M : Nat) (table : List (List (List Byte))) :
    ∀ i : Nat, (∀ line ∈ table, line.length = M) →
      (tableTriplets i table).length = table.length * M := by
  induction table with
  | nil => intro i _; simp [tableTriplets]
  | cons l ls ih =>
    intro i h
    simp only [tableTriplets, List.length_append, length_lineTriplets, List.length_cons,
      ih (i + 1) (fun x hx => h x (by simp [hx])), h l (by simp)]
    ring

theorem mem_lineTriplets (i : Nat) (vs : List (List Byte)) :
    ∀ (j : Nat) (u : Triplet), u ∈ lineTriplets i j vs →
      u.LineIndex = i ∧ j ≤ u.FieldIndex ∧ u.FieldIndex < j + vs.length ∧ u.value ∈ vs := by
  induction vs with
  | nil => intro j u h; simp [lineTriplets] at h
  | cons v vs ih =>
    intro j u h
    simp only [lineTriplets, List.mem_cons] at h
    rcases h with h | h
    · subst h; simp
    · obtain ⟨h1, h2, h3, h4⟩ := ih (j + 1) u h
      exact ⟨h1, by omega, by simp; omega, by simp [h4]⟩

theorem mem_tableTriplets (M : Nat) (table : List (List (List Byte))) :
    ∀ (i : Nat) (u : Triplet), (∀ line ∈ table, line.length = M) → u ∈ tableTriplets i table →
      u.FieldIndex < M ∧ i ≤ u.LineIndex ∧ u.LineIndex < i + table.length ∧
        ∃ line ∈ table, u.value ∈ line := by
  induction table with
  | nil => intro i u _ h; simp [tableTriplets] at h
  | cons l ls ih =>
    intro i u hw h
    simp only [tableTriplets, List.mem_append] at h
    rcases h with h | h
    · obtain ⟨h1, h2, h3, h4⟩ := mem_lineTriplets i l 0 u h
      have := hw l (by simp)
      exact ⟨by omega, by omega, by simp; omega, l, by simp, h4⟩
    · obtain ⟨h1, h2, h3, g, hg, h4⟩ := ih (i + 1) u (fun x hx => hw x (by simp [hx])) h
      exact ⟨h1, by omega, by simp; omega, g, by simp [hg], h4⟩

/-! ## Empty lines in the sorted stream -/

theorem unlines_cons (l : List Byte) (ls : List (List Byte)) :
    unlines (l :: ls) = l ++ NL :: unlines ls := by
  simp [unlines]

theorem unlines_map_line (ts : List Triplet) : unlines (ts.map Triplet.line) = renderAll ts := by
  induction ts with
  | nil => rfl
  | cons t ts ih => rw [List.map_cons, unlines_cons, ih, renderAll_cons, render_eq]; simp

theorem length_le_unlines (ls : List (List Byte)) : ls.length ≤ (unlines ls).length := by
  induction ls with
  | nil => simp
  | cons l ls ih =>
    rw [unlines_cons]
    simp only [List.length_cons, List.length_append]
    omega

theorem line_ne_nil (t : Triplet) : t.line ≠ [] := by
  obtain ⟨d, ds, h1, -⟩ := printf_d_spec t.FieldIndex
  simp [Triplet.line, h1]

theorem nonEmptyLines_nil_cons (ls : List (List Byte)) :
    nonEmptyLines ([] :: ls) = nonEmptyLines ls := by
  simp [nonEmptyLines]

theorem nonEmptyLines_cons (l : List Byte) (ls : List (List Byte)) (h : l ≠ []) :
    nonEmptyLines (l :: ls) = l :: nonEmptyLines ls := by
  cases l with
  | nil => exact absurd rfl h
  | cons a as => simp [nonEmptyLines]

theorem nonEmptyLines_map_line (ts : List Triplet) :
    nonEmptyLines (ts.map Triplet.line) = ts.map Triplet.line := by
  induction ts with
  | nil => rfl
  | cons t ts ih => rw [List.map_cons, nonEmptyLines_cons _ _ (line_ne_nil t), ih]

/-- The loop of `MakeMatrix` on a stream of lines that are empty or well-formed
records: the empty lines leave no trace. -/
theorem MakeMatrixLoop_lines (ls : List (List Byte)) :
    ∀ (ts : List Triplet) (fuel : Nat) (last_line cur_line : LineBuf) (out : List Byte),
      nonEmptyLines ls = ts.map Triplet.line →
      (∀ t ∈ ts, GoodValue t.value) → (∀ t ∈ ts, t.FitsInt) →
      (∀ b ∈ last_line.line, b ≠ 0) → ts.length + 1 ≤ fuel →
      MakeMatrixLoop fuel { rest := unlines ls, eof := false } last_line cur_line out =
        ⟨.returned, out ++ loopOutput last_line ts cur_line.row ++ [NL]⟩ := by
  induction ls with
  | nil =>
    intro ts fuel last_line cur_line out hf hg hi hl hfuel
    have hts : ts = [] := by
      cases ts with
      | nil => rfl
      | cons t ts => simp [nonEmptyLines] at hf
    subst hts
    exact MakeMatrixLoop_spec [] fuel last_line cur_line out hg hi hl hfuel
  | cons l ls ih =>
    intro ts fuel last_line cur_line out hf hg hi hl hfuel
    by_cases hle : l = []
    · subst hle
      rw [nonEmptyLines_nil_cons] at hf
      rw [unlines_cons, List.nil_append, MakeMatrixLoop_NL]
      exact ih ts fuel last_line cur_line out hf hg hi hl hfuel
    · rw [nonEmptyLines_cons l ls hle] at hf
      cases ts with
      | nil => simp at hf
      | cons t ts =>
        simp only [List.map_cons, List.cons.injEq] at hf
        obtain ⟨h1, h2⟩ := hf
        cases fuel with
        | zero => simp at hfuel
        | succ n =>
          have hgt := hg t (by simp)
          have e : unlines (l :: ls) = t.render ++ unlines ls := by
            rw [unlines_cons, h1, render_eq]; simp
          simp only [MakeMatrixLoop, e, Bool.false_eq_true, if_false,
            readRecord_render t _ _ _ hgt (hi t (by simp))]
          rw [ih ts n _ _ _ h2 (fun u hu => hg u (by simp [hu]))
            (fun u hu => hi u (by simp [hu])) hgt.no_nul (by simpa using hfuel)]
          simp only [loopOutput, emitRecord, cstr_eq _ hl, Triplet.toLineBuf]
          split_ifs <;> simp

/-- The first record of a stream of lines that are empty or well-formed
records. -/
theorem readRecord_lines (ls : List (List Byte)) :
    ∀ (t : Triplet) (ts : List Triplet) (row col : Int),
      nonEmptyLines ls = (t :: ts).map Triplet.line → GoodValue t.value → t.FitsInt →
      ∃ ls2, readRecord { rest := unlines ls, eof := false } row col =
          (t.toLineBuf, { rest := unlines ls2, eof := false }) ∧
        nonEmptyLines ls2 = ts.map Triplet.line ∧ ls2.length ≤ ls.length := by
  induction ls with
  | nil => intro t ts row col hf; simp [nonEmptyLines] at hf
  | cons l ls ih =>
    intro t ts row col hf hg hi
    by_cases hle : l = []
    · subst hle
      rw [nonEmptyLines_nil_cons] at hf
      obtain ⟨ls2, h1, h2, h3⟩ := ih t ts row col hf hg hi
      refine ⟨ls2, ?_, h2, by simp only [List.length_cons]; omega⟩
      rw [unlines_cons, List.nil_append, readRecord_NL, h1]
    · rw [nonEmptyLines_cons l ls hle] at hf
      simp only [List.map_cons, List.cons.injEq] at hf
      obtain ⟨h1, h2⟩ := hf
      refine ⟨ls, ?_, h2, by simp⟩
      have e : unlines (l :: ls) = t.render ++ unlines ls := by
        rw [unlines_cons, h1, render_eq]; simp
      rw [e, readRecord_render t _ _ _ hg hi]

/-- `MakeMatrix` on a stream of lines that are empty or well-formed records. -/
theorem MakeMatrix_lines (ls : List (List Byte)) (t : Triplet) (ts : List Triplet)
    (last0 cur0 : LineBuf) (hf : nonEmptyLines ls = (t :: ts).map Triplet.line)
    (h : ∀ u ∈ t :: ts, GoodValue u.value) (hi : ∀ u ∈ t :: ts, u.FitsInt) :
    MakeMatrix (unlines ls) last0 cur0 =
      ⟨.returned, loopOutput t.toLineBuf ts cur0.row ++ [NL]⟩ := by
  have ht := h t (by simp)
  obtain ⟨ls2, h1, h2, h3⟩ := readRecord_lines ls t ts last0.row last0.col hf ht (hi t (by simp))
  unfold MakeMatrix
  rw [h1]
  simp only []
  rw [MakeMatrixLoop_lines ls2 ts _ _ _ _ h2 (fun u hu => h u (by simp [hu]))
    (fun u hu => hi u (by simp [hu])) ht.no_nul]
  · simp
  · have h4 : ts.length ≤ ls2.length := by
      have : (nonEmptyLines ls2).length = ts.length := by rw [h2]; simp
      rw [← this]
      exact List.length_filter_le _ _
    have := length_le_unlines ls
    omega

/-- `MakeMatrix` on a stream whose lines that are not empty are the sorted,
dense records of at least two cells. -/
theorem MakeMatrix_grid_lines (rows : List (List (List Byte))) (ls : List (List Byte))
    (last0 cur0 : LineBuf) (hf : nonEmptyLines ls = (gridTriplets 0 0 rows).map Triplet.line)
    (hne : ∀ g ∈ rows, g ≠ []) (hgood : ∀ g ∈ rows, ∀ v ∈ g, GoodValue v)
    (h2 : 2 ≤ (gridTriplets 0 0 rows).length)
    (hR : rows.length ≤ INT_NEG) (hC : ∀ g ∈ rows, g.length ≤ INT_NEG) :
    MakeMatrix (unlines ls) last0 cur0 = ⟨.returned, delimitedLines rows⟩ := by
  have hrows : rows ≠ [] := by
    intro h; subst h; simp [gridTriplets] at h2
  obtain ⟨t, ts, h1, -, h3⟩ := loopOutput_grid rows 0 hrows hne
  have hmem : ∀ u ∈ gridTriplets 0 0 rows, GoodValue u.value := by
    intro u hu
    obtain ⟨-, g, hg, hv⟩ := mem_gridTriplets 0 rows 0 u hu
    exact hgood g hg _ hv
  have hfit := gridTriplets_fits rows hR hC
  rw [h1] at h2 hmem hfit hf
  rw [MakeMatrix_lines ls t ts last0 cur0 hf hmem hfit]
  cases ts with
  | nil => simp at h2
  | cons u us =>
    rw [← serialize_append_NL rows hrows, ← h3]
    simp [loopOutput]

/-- A list of lines that is sorted by the keys and is a permutation of the
lines of strictly sorted triplets is the list of those lines. -/
theorem sorted_lines_eq (L : List (List Byte)) (us : List Triplet)
    (hp : L.Perm (us.map Triplet.line)) (hL : L.Pairwise keyLE)
    (hsorted : us.Pairwise Triplet.lt) : L = us.map Triplet.line := by
  have hus : (us.map Triplet.line).Pairwise keyLT := by
    rw [List.pairwise_map]
    exact hsorted.imp (fun h => keyLT_line _ _ h)
  have hne : L.Pairwise (fun a b => lineKey a ≠ lineKey b) := by
    rw [hp.pairwise_iff (fun h => Ne.symm h)]
    exact hus.imp (fun {a b} h => by
      unfold keyLT at h
      intro e; rw [e] at h; omega)
  have hs : L.Pairwise keyLT := by
    refine (hL.and hne).imp (fun {a b} h => ?_)
    obtain ⟨h2, h3⟩ := h
    unfold keyLE at h2
    unfold keyLT
    have h4 : (lineKey a).1 ≠ (lineKey b).1 ∨ (lineKey a).2 ≠ (lineKey b).2 := by
      by_contra hc
      push_neg at hc
      exact h3 (Prod.ext hc.1 hc.2)
    omega
  exact List.eq_of_perm_of_sorted hp hs hus

theorem splitLines_final (ts : List Triplet) (h : ∀ t ∈ ts, ∀ b ∈ t.value, b ≠ NL) :
    splitLines (renderAll ts ++ [NL]) = ts.map Triplet.line ++ [[]] := by
  induction ts with
  | nil => simp [renderAll, splitLines]
  | cons t ts ih =>
    rw [renderAll_cons, render_eq, List.append_assoc, List.append_assoc, List.singleton_append,
      splitLines_line, ih (fun u hu => h u (by simp [hu]))]
    · simp
    · intro b hb
      simp only [Triplet.line, List.mem_append, List.mem_singleton] at hb
      rcases hb with (((hb | hb) | hb) | hb) | hb
      · exact printf_d_no_NL _ b hb
      · subst hb; decide
      · exact printf_d_no_NL _ b hb
      · subst hb; decide
      · exact h t (by simp) b hb

/-- The sort on the stream of records that `Rewrite` writes for a file with a
final newline (one more `'\n'` at the end): the lines of the result that are
not empty are the records in `(FieldIndex, LineIndex)` order. -/
theorem SortTriplets_final (ts us : List Triplet) (hperm : ts.Perm us)
    (hsorted : us.Pairwise Triplet.lt) (hnl : ∀ t ∈ ts, ∀ b ∈ t.value, b ≠ NL) :
    ∃ L, SortTriplets (renderAll ts ++ [NL]) = unlines L ∧
      nonEmptyLines L = us.map Triplet.line := by
  refine ⟨(ts.map Triplet.line ++ [[]]).insertionSort keyLE, ?_, ?_⟩
  · unfold SortTriplets
    rw [splitLines_final ts hnl]
    rfl
  · apply sorted_lines_eq _ us _ _ hsorted
    · have h1 : (nonEmptyLines ((ts.map Triplet.line ++ [[]]).insertionSort keyLE)).Perm
          (nonEmptyLines (ts.map Triplet.line ++ [[]])) :=
        (List.perm_insertionSort keyLE _).filter _
      have h2 : nonEmptyLines (ts.map Triplet.line ++ [[]]) = ts.map Triplet.line := by
        unfold nonEmptyLines
        rw [List.filter_append]
        have := nonEmptyLines_map_line ts
        unfold nonEmptyLines at this
        rw [this]
        simp
      rw [h2] at h1
      exact h1.trans (hperm.map _)
    · exact (List.sorted_insertionSort keyLE _).filter _

/-- The records of a file with a final newline: the records without it and
one more `'\n'`. -/
theorem renderAll_finalNewline (ts : List Triplet) (h : ts ≠ []) :
    renderAll (finalNewline ts) = renderAll ts ++ [NL] := by
  induction ts with
  | nil => exact absurd rfl h
  | cons t ts ih =>
    cases ts with
    | nil => simp [finalNewline, renderAll, Triplet.render]
    | cons u us =>
      rw [finalNewline_cons _ _ (by simp), renderAll_cons, ih (by simp),
        renderAll_cons t (u :: us)]
      simp

/-- Scanning the fields of a line that are followed by a delimiter and more
input: the field counter goes up by the number of fields. -/
theorem scan_fields (line : List (List Byte)) :
    ∀ (rest : List Byte) (st : ScanState), rest ≠ [] → line ≠ [] →
      (∀ v ∈ line, PlainField v) → (∀ v ∈ line, v.length < FILE_BUF_READ_SIZE_BYTES) →
      st.value = [] → st.row + line.length ≤ INT_NEG → st.col < INT_NEG →
      scanList (joinLine line ++ FILE_DELIMITER :: rest) st =
        scanList rest { out := st.out ++ renderAll (lineTriplets st.col st.row line),
                        row := st.row + line.length, col := st.col, crc := st.crc,
                        value := [], prev := some FILE_DELIMITER } := by
  induction line with
  | nil => intro rest st _ h; exact absurd rfl h
  | cons v vs ih =>
    intro rest st hrest _ hplain hlen hval hrow hcol
    have hpv := hplain v (by simp)
    have hr : st.row < INT_NEG := by simp only [List.length_cons] at hrow; omega
    have hlv := hlen v (by simp)
    have hre : rest.isEmpty = false := by cases rest <;> simp_all
    cases vs with
    | nil =>
      rw [joinLine_single,
        scan_field v _ st (by simp) (fun b hb => ⟨(hpv b hb).1, (hpv b hb).2.1⟩),
        scanList_cons, hre,
        scanStep_delimiter _ (by simpa [hval] using hlv) (by exact hr) (by exact hcol)]
      simp [lineTriplets, renderAll, hval]
    | cons w ws =>
      rw [joinLine_cons_cons, List.append_assoc, List.cons_append,
        scan_field v _ st (by simp) (fun b hb => ⟨(hpv b hb).1, (hpv b hb).2.1⟩),
        scanList_cons]
      have hre2 : (joinLine (w :: ws) ++ FILE_DELIMITER :: rest).isEmpty = false := by
        cases h : joinLine (w :: ws) <;> simp
      rw [hre2, scanStep_delimiter _ (by simpa [hval] using hlv) (by exact hr) (by exact hcol)]
      simp only []
      rw [ih rest _ hrest (by simp) (fun u hu => hplain u (by simp [hu]))
        (fun u hu => hlen u (by simp [hu])) rfl
        (by simp only [List.length_cons] at hrow ⊢; omega) (by exact hcol)]
      congr 1
      simp [lineTriplets, renderAll, hval]
      omega

theorem scanList_nil (st : ScanState) : scanList [] st = ⟨.returned, st.out⟩ := rfl

/-- The text `printf("%d")` writes for the bit pattern `2^31`. -/
theorem printf_int_wrapped : printf_int INT_NEG = bytes "-2147483648" := by
  rw [INT_NEG_eq]
  decide

/-- The step at a plain byte that is the last byte of the file, whatever the
counters hold. -/
theorem scanStep_last_int (a : Byte) (st : ScanState) (h1 : a ≠ FILE_DELIMITER) (h2 : a ≠ NL)
    (hlen : (st.value ++ [a]).length < FILE_BUF_READ_SIZE_BYTES) :
    scanStep a true st =
      .next { out := st.out ++ printf_int st.row ++ [SP] ++ printf_int st.col ++ [SP] ++
                (st.value ++ [a]) ++ [NL],
              row := st.row, col := st.col, crc := st.crc, value := [],
              prev := some a } := by
  have hlen1 : st.value.length + 1 < FILE_BUF_READ_SIZE_BYTES := by simpa using hlen
  simp [scanStep, h1, h2, countLine, hlen1]

/-- Past the range of `int`, with the wrap-around of the machine addition.  A
line of `2^31 + 1` fields `a`: the field counter `row` is incremented `2^31`
times, and the last record is written with the field index `-2147483648`. -/
theorem Rewrite_counter_wraps :
    Rewrite (joinLine (List.replicate INT_NEG [97]) ++ FILE_DELIMITER :: [97]) 0 0 =
      ⟨.returned, renderAll (lineTriplets 0 0 (List.replicate INT_NEG [97])) ++
        bytes "-2147483648 0 a\n"⟩ := by
  have hne : List.replicate INT_NEG ([97] : List Byte) ≠ [] := by
    intro h
    have := congrArg List.length h
    rw [List.length_replicate, INT_NEG_eq] at this
    exact absurd this (by decide)
  have hplain : ∀ v ∈ List.replicate INT_NEG ([97] : List Byte), PlainField v := by
    intro v hv b hb
    rw [List.eq_of_mem_replicate hv] at hb
    have : b = 97 := by simpa using hb
    subst this
    decide
  have hlen : ∀ v ∈ List.replicate INT_NEG ([97] : List Byte),
      v.length < FILE_BUF_READ_SIZE_BYTES := by
    intro v hv
    rw [List.eq_of_mem_replicate hv]
    decide
  have htail : ∀ X : List Byte,
      [] ++ X ++ bytes "-2147483648" ++ [SP] ++ printf_int 0 ++ [SP] ++ ([] ++ [97]) ++ [NL] =
        X ++ bytes "-2147483648 0 a\n" := by
    intro X
    have e : bytes "-2147483648 0 a\n" =
        bytes "-2147483648" ++ ([SP] ++ (printf_int 0 ++ ([SP] ++ (([] ++ [97]) ++ [NL])))) := by
      decide
    rw [e]
    simp only [List.nil_append, List.append_assoc]
  rw [Rewrite_eq_scanList _ _ _ (by decide),
    scan_fields _ [97] scanInit (by simp) hne hplain hlen rfl
      (by rw [List.length_replicate]; exact le_of_eq (Nat.zero_add _)) (by decide),
    List.length_replicate, scanList_cons]
  have e : scanInit.row + INT_NEG = INT_NEG := Nat.zero_add _
  rw [e, List.isEmpty_nil, scanStep_last_int 97 _ (by decide) (by decide) (by decide)]
  dsimp only
  rw [scanList_nil]
  dsimp only
  rw [printf_int_wrapped]
  exact congrArg (RewriteResult.mk .returned) (htail _)

/-- The step at a plain last byte whose value does not fit the window. -/
theorem scanStep_last_big (a : Byte) (st : ScanState) (h1 : a ≠ FILE_DELIMITER) (h2 : a ≠ NL)
    (hlen : FILE_BUF_READ_SIZE_BYTES ≤ (st.value ++ [a]).length) :
    scanStep a true st =
      .exit .notDesigned (st.out ++ printf_int st.row ++ [SP] ++ printf_int st.col ++ [SP]) := by
  have hlen1 : FILE_BUF_READ_SIZE_BYTES ≤ st.value.length + 1 := by simpa using hlen
  simp [scanStep, h1, h2, hlen1]

/-- A last value of `n + 1` plain bytes, `FILE_BUF_READ_SIZE_BYTES ≤ n + 1`, ends
the scan with the size-limit exit. -/
theorem scanList_big (a : Byte) (n : Nat) (st : ScanState) (h1 : a ≠ FILE_DELIMITER)
    (h2 : a ≠ NL) (hval : st.value = []) (hn : FILE_BUF_READ_SIZE_BYTES ≤ n + 1) :
    scanList (List.replicate (n + 1) a) st =
      ⟨.exited .notDesigned, st.out ++ printf_int st.row ++ [SP] ++ printf_int st.col ++ [SP]⟩ := by
  rw [List.replicate_succ', scan_field _ [a] st (by simp)
    (fun b hb => by rw [List.eq_of_mem_replicate hb]; exact ⟨h1, h2⟩), scanList_cons]
  simp only [List.isEmpty_nil]
  rw [scanStep_last_big a _ h1 h2 (by simp [hval]; omega)]

theorem rectangular_exampleTable : Rectangular exampleTable 2 := by
  refine ⟨by decide, by decide, by decide, ?_, by decide, by decide⟩
  unfold PlainField
  decide

theorem endsInField_exampleTable : EndsInField exampleTable := by
  unfold EndsInField
  decide

theorem endsInField_of_good (table : List (List (List Byte)))
    (h : ∀ line ∈ table, ∀ v ∈ line, GoodValue v) : EndsInField table := by
  unfold EndsInField
  intro e
  cases hl : table.getLast? with
  | none => rw [hl] at e; simp at e
  | some l =>
    rw [hl] at e
    simp only [Option.some_bind] at e
    exact (h l (List.mem_of_getLast?_eq_some hl) [] (List.mem_of_getLast?_eq_some e)).nonempty rfl

theorem goodValue_exampleTable : ∀ line ∈ exampleTable, ∀ v ∈ line, GoodValue v := by
  intro line hl v hv
  have h : v = [97] ∨ v = [98] ∨ v = [99] ∨ v = [100] := by
    simp only [exampleTable, List.mem_cons, List.mem_singleton, List.not_mem_nil,
      or_false] at hl
    rcases hl with rfl | rfl <;>
      simp only [List.mem_cons, List.mem_singleton, List.not_mem_nil, or_false] at hv <;>
      rcases hv with rfl | rfl <;> simp
  rcases h with rfl | rfl | rfl | rfl <;>
    exact ⟨by decide, by decide, by decide, by decide, by decide⟩

theorem length_groupTriplets (r : Nat) (vs : List (List Byte)) :
    ∀ c : Nat, (groupTriplets r c vs).length = vs.length := by
  induction vs with
  | nil => intro c; rfl
  | cons v vs ih => intro c; simp [groupTriplets, ih (c + 1)]

theorem length_gridTriplets (c C : Nat) (rows : List (List (List Byte))) :
    ∀ r : Nat, (∀ g ∈ rows, g.length = C) →
      (gridTriplets c r rows).length = rows.length * C := by
  induction rows with
  | nil => intro r _; simp [gridTriplets]
  | cons g gs ih =>
    intro r h
    simp only [gridTriplets, List.length_append, length_groupTriplets, List.length_cons,
      ih (r + 1) (fun x hx => h x (by simp [hx])), h g (by simp)]
    ring

theorem transposeTable_shape (M : Nat) (table : List (List (List Byte))) :
    (transposeTable M table).length = M ∧
      ∀ g ∈ transposeTable M table, g.length = table.length := by
  constructor
  · simp [transposeTable]
  · intro g hg
    simp only [transposeTable, List.mem_map, List.mem_range] at hg
    obtain ⟨j, -, rfl⟩ := hg
    simp

theorem transposeTable_values (M : Nat) (table : List (List (List Byte)))
    (P : List Byte → Prop) (hw : ∀ line ∈ table, line.length = M)
    (h : ∀ line ∈ table, ∀ v ∈ line, P v) :
    ∀ g ∈ transposeTable M table, ∀ v ∈ g, P v := by
  intro g hg v hv
  simp only [transposeTable, List.mem_map, List.mem_range] at hg
  obtain ⟨j, hj, rfl⟩ := hg
  simp only [List.mem_map] at hv
  obtain ⟨line, hl, rfl⟩ := hv
  apply h line hl
  rw [List.getD_eq_getElem?_getD, List.getElem?_eq_getElem (by rw [hw line hl]; exact hj)]
  simp

/-! ## A value at the size limit -/

/-- The step at a newline that is the last byte of the file, when the value in
front of it has `FILE_BUF_READ_SIZE_BYTES - 1` bytes or more. -/
theorem scanStep_newline_last_big (st : ScanState) (b : Byte) (hp : st.prev = some b)
    (hb1 : b ≠ FILE_DELIMITER) (hb2 : b ≠ CR)
    (hlen : FILE_BUF_READ_SIZE_BYTES ≤ st.value.length + 1) :
    scanStep NL true st =
      .exit .notDesigned (st.out ++ printf_int st.row ++ [SP] ++ printf_int st.col ++ [SP]) := by
  have h : ¬ (NL = FILE_DELIMITER) := by decide
  simp [scanStep, h, hp, hb1, hb2, hlen]

/-- A file of one plain value of `FILE_BUF_READ_SIZE_BYTES - 1` bytes or more
and a final newline: the run ends in the size-limit exit. -/
theorem Rewrite_value_newline (v : List Byte) (start0 end0 : Int) (hne : v ≠ [])
    (hplain : PlainField v) (hlen : FILE_BUF_READ_SIZE_BYTES ≤ v.length + 1)
    (h0 : ¬ (start0 ≤ 0 ∧ 0 < end0)) :
    Rewrite (v ++ [NL]) start0 end0 = ⟨.exited .notDesigned, bytes "0 0 "⟩ := by
  obtain ⟨b, hb, hprev⟩ := foldl_prev v scanInit.prev hne
  rw [Rewrite_eq_scanList _ _ _ h0,
    scan_field v [NL] scanInit (by simp) (fun c hc => ⟨(hplain c hc).1, (hplain c hc).2.1⟩),
    scanList_cons]
  have e : ([] : List Byte).isEmpty = true := rfl
  rw [e, scanStep_newline_last_big _ b hprev (hplain b hb).1 (hplain b hb).2.2
    (by simpa [scanInit] using hlen)]
  rfl

theorem fullField_length : fullField.length = FILE_BUF_READ_SIZE_BYTES - 1 :=
  List.length_replicate _ _

theorem fullField_mem : ∀ b ∈ fullField, b = 97 := fun _ hb => List.eq_of_mem_replicate hb

theorem fullField_ne_nil : fullField ≠ [] := by
  intro h
  have := fullField_length
  rw [h] at this
  exact absurd this (by decide)

theorem fullField_plain : PlainField fullField := by
  intro b hb
  rw [fullField_mem b hb]
  decide

theorem fullField_last : fullField.getLast? = some 97 := by
  show (List.replicate (524286 + 1) (97 : Byte)).getLast? = some 97
  rw [List.replicate_succ', List.getLast?_append]
  rfl

theorem rectangular_fullField : Rectangular [[fullField]] 1 := by
  have hlast : ([[fullField]] : List (List (List Byte))).head?.bind List.getLast? ≠ some [] := by
    show (some fullField : Option (List Byte)) ≠ some []
    intro h
    exact fullField_ne_nil (Option.some.inj h)
  refine ⟨by simp, by decide, by simp, ?_, ?_, hlast⟩
  · intro line hl v hv
    simp only [List.mem_singleton] at hl
    subst hl
    simp only [List.mem_singleton] at hv
    subst hv
    exact fullField_plain
  · intro h2
    exact absurd h2 (by decide)

/-- Without a final newline the same value is copied: the file that holds
only `fullField` is rewritten to one record. -/
theorem Rewrite_fullField :
    Rewrite fullField 0 0 = ⟨.returned, renderAll [⟨0, 0, fullField⟩]⟩ := by
  have h := Rewrite_table [[fullField]] 1 0 0 rectangular_fullField
    (by
      show (some fullField : Option (List Byte)) ≠ some []
      intro h
      exact fullField_ne_nil (Option.some.inj h))
    (by
      intro line hl v hv
      simp only [List.mem_singleton] at hl
      subst hl
      simp only [List.mem_singleton] at hv
      subst hv
      rw [fullField_length]
      decide)
    (by decide) (by decide) (by decide)
  rw [serialize_single, joinLine_single] at h
  exact h

/-! ## The probes of `WriteTo` -/

/-- After the two probes of `WriteTo`, in the order of the source, the range
`[start, start + length)` lies in the window, whatever the window was. -/
theorem WriteTo_window (f : FileAsArray) (start length : Int) (sink : List Byte)
    (h0 : 0 ≤ start) (hl : 0 < length) (hc : length < (FILE_BUF_READ_SIZE_BYTES : Int))
    (hend : start + length ≤ f.Length) :
    ∃ sink2 f2, f.WriteTo start length sink = .wrote sink2 f2 ∧
      ∀ a, start ≤ a → a < start + length → InWindow f2 a := by
  have hn1 : ¬ ((FILE_BUF_READ_SIZE_BYTES : Int) ≤ length) := by omega
  have hn2 : ¬ (length < 0) := by omega
  rcases Get_cases f (start + length) (by omega) hend with ⟨h1, h2, hg⟩ | ⟨-, hg⟩
  · rcases Get_cases f start h0 (by omega) with ⟨h3, h4, hg2⟩ | ⟨-, hg2⟩
    · refine ⟨_, f, by simp only [WriteTo, if_neg hn1, if_neg hn2, hg, hg2]; rfl, ?_⟩
      intro a ha1 ha2
      exact ⟨by omega, by omega⟩
    · refine ⟨_, f.fill start, by simp only [WriteTo, if_neg hn1, if_neg hn2, hg, hg2]; rfl, ?_⟩
      intro a ha1 ha2
      refine ⟨by rw [fill_start]; exact ha1, ?_⟩
      rw [fill_end]
      have : length ≤ min (FILE_BUF_READ_SIZE_BYTES : Int) (f.Length - start) := by
        apply le_min <;> omega
      omega
  · have hL : (f.fill (start + length)).Length = f.Length := fill_Length _ _
    rcases Get_cases (f.fill (start + length)) start h0 (by rw [hL]; omega) with
      ⟨h3, -, -⟩ | ⟨-, hg2⟩
    · rw [fill_start] at h3
      omega
    · refine ⟨_, (f.fill (start + length)).fill start,
        by simp only [WriteTo, if_neg hn1, if_neg hn2, hg, hg2]; rfl, ?_⟩
      intro a ha1 ha2
      refine ⟨by rw [fill_start]; exact ha1, ?_⟩
      rw [fill_end, hL]
      have : length ≤ min (FILE_BUF_READ_SIZE_BYTES : Int) (f.Length - start) := by
        apply le_min <;> omega
      omega

/-- The first `Get(0)` of a fresh reader whose indeterminate window bounds do
not cover offset 0 fills the window at 0. -/
theorem Get_fresh (input : List Byte) (start0 end0 : Int) (h : ¬ (start0 ≤ 0 ∧ 0 < end0)) :
    (FileAsArray.new input start0 end0).Get 0 =
      some (((FileAsArray.new input 0 0).fill 0).read_buf_ 0, (FileAsArray.new input 0 0).fill 0) := by
  rcases Get_cases (FileAsArray.new input start0 end0) 0 (le_refl _)
    (by simp [FileAsArray.Length]) with ⟨h1, h2, -⟩ | ⟨-, hg⟩
  · exact absurd ⟨h1, h2⟩ h
  · rw [hg]
    rfl

/-! ## Progress of the read loop of `MakeMatrix` -/

/-- What a step of the list scan that goes on has written, and the value it
carries to the next step. -/
theorem scanStep_next (c : Byte) (last : Bool) (st st1 : ScanState)
    (h : scanStep c last st = .next st1) :
    ((c = FILE_DELIMITER ∨ c = NL ∨ last = true) →
      st1.out = st.out ++ printf_int st.row ++ [SP] ++ printf_int st.col ++ [SP] ++
        (if last then st.value ++ [c] else st.value) ++ [NL] ∧ st1.value = []) ∧
    (¬ (c = FILE_DELIMITER ∨ c = NL ∨ last = true) →
      st1.out = st.out ∧ st1.value = st.value ++ [c]) := by
  unfold scanStep at h
  simp only [Bool.or_eq_true, decide_eq_true_eq] at h
  by_cases ht : (c = FILE_DELIMITER ∨ c = NL) ∨ last = true
  · rw [if_pos ht] at h
    have ht2 : c = FILE_DELIMITER ∨ c = NL ∨ last = true := by tauto
    refine ⟨fun _ => ?_, fun hn => absurd ht2 hn⟩
    split_ifs at h
    all_goals first
      | (split at h
         · exact absurd h (by simp)
         · simp only [ScanStep.next.injEq] at h
           subst h
           refine ⟨?_, rfl⟩
           simp [*])
  · rw [if_neg ht] at h
    have ht2 : ¬ (c = FILE_DELIMITER ∨ c = NL ∨ last = true) := by tauto
    refine ⟨fun hp => absurd hp ht2, fun _ => ?_⟩
    split at h
    · exact absurd h (by simp)
    · simp only [ScanStep.next.injEq] at h
      subst h
      exact ⟨rfl, rfl⟩

/-- One iteration of the loop of `Rewrite` at offset `p = (pre0 ++ value).length`
of the file `pre0 ++ value ++ c :: rest`, with `last_start = pre0.length`:
when the byte `c` at `p` is a delimiter, a newline or the last byte of the
file, the iteration writes `row`, `col` and the value `file[last_start .. p)`,
extended by `c` when `p` is the last offset, and the next value starts at
`p + 1`; otherwise it writes nothing and `last_start` stays.  This is for a
reader whose window is valid or does not cover `p`. -/
theorem RewriteBody_value (s s1 : RewriteState) (pre0 value rest : List Byte) (c : Byte)
    (hfile : s.input_file.read_file_ = pre0 ++ value ++ c :: rest)
    (hstart : s.last_start = pre0.length) (hpos : s.cur_pos = (pre0 ++ value).length)
    (hready : Ready s.input_file s.cur_pos) (hnext : RewriteBody s = .next s1) :
    ((c = FILE_DELIMITER ∨ c = NL ∨ rest = []) →
      s1.output_file = s.output_file ++ printf_int s.row ++ [SP] ++ printf_int s.col ++ [SP] ++
        (if rest = [] then value ++ [c] else value) ++ [NL] ∧
      (rest ≠ [] → s1.last_start = s.cur_pos + 1)) ∧
    (¬ (c = FILE_DELIMITER ∨ c = NL ∨ rest = []) →
      s1.output_file = s.output_file ∧ s1.last_start = s.last_start) ∧
    (rest ≠ [] → s1.cur_pos = s.cur_pos + 1 ∧ Ready s1.input_file s1.cur_pos ∧
      s1.input_file.read_file_ = s.input_file.read_file_) := by
  have hsim : Sim s ⟨s.output_file, s.row, s.col, s.correct_row_count, value,
      (pre0 ++ value).getLast?⟩ (pre0 ++ value) (c :: rest) :=
    ⟨hfile, hpos, hready, ⟨pre0, rfl, hstart⟩, rfl, rfl, rfl, rfl, rfl⟩
  have hb := RewriteBody_spec s _ (pre0 ++ value) rest c hsim
  cases hs : scanStep c rest.isEmpty ⟨s.output_file, s.row, s.col, s.correct_row_count, value,
      (pre0 ++ value).getLast?⟩ with
  | exit e out =>
    rw [hs] at hb
    simp only [] at hb
    rw [hb] at hnext
    exact absurd hnext (by simp)
  | next st1 =>
    rw [hs] at hb
    obtain ⟨s2, h1, h2, h3, h4, -⟩ := hb
    rw [h1] at hnext
    have e : s2 = s1 := by simpa using hnext
    subst e
    obtain ⟨ha, hb2⟩ := scanStep_next c rest.isEmpty _ st1 hs
    have hemp : rest.isEmpty = true ↔ rest = [] := List.isEmpty_iff
    refine ⟨?_, ?_, ?_⟩
    · intro ht
      obtain ⟨ho, hv⟩ := ha (by rw [hemp]; exact ht)
      refine ⟨?_, ?_⟩
      · rw [← h3, ho]
        by_cases hr : rest = []
        · simp [hr]
        · have : rest.isEmpty = false := by
            cases rest with
            | nil => exact absurd rfl hr
            | cons a as => rfl
          simp [hr, this]
      · intro hr
        obtain ⟨p0, hp0, hl⟩ := (h4 hr).value
        rw [hv, List.append_nil] at hp0
        rw [hl, ← hp0, hpos]
        simp only [List.length_append, List.length_cons, List.length_nil, Nat.cast_add,
          Nat.cast_one, Nat.cast_zero]
        omega
    · intro ht
      obtain ⟨ho, hv⟩ := hb2 (by rw [hemp]; exact ht)
      have hr : rest ≠ [] := fun h => ht (Or.inr (Or.inr h))
      refine ⟨by rw [← h3, ho], ?_⟩
      obtain ⟨p0, hp0, hl⟩ := (h4 hr).value
      rw [hv] at hp0
      have : pre0 = p0 := by
        have h5 : (pre0 ++ value) ++ [c] = p0 ++ (value ++ [c]) := hp0
        rw [List.append_assoc] at h5
        exact List.append_cancel_right h5
      rw [hl, hstart, this]
    · intro hr
      have hsim1 := h4 hr
      refine ⟨?_, hsim1.ready, h2⟩
      rw [hsim1.pos, hpos]
      simp only [List.length_append, List.length_cons, List.length_nil, Nat.cast_add,
        Nat.cast_one, Nat.cast_zero]
      omega

/-! ## The claims -/

/-- The round trip for a table whose values `MakeMatrix` reads back unchanged,
serialised without a final newline. -/
theorem round_trip (table : List (List (List Byte))) (M : Nat) (start0 end0 : Int)
    (last0 cur0 : LineBuf) (hrect : Rectangular table M)
    (hgood : ∀ line ∈ table, ∀ v ∈ line, GoodValue v) (hcells : 2 ≤ table.length * M)
    (hM : M ≤ INT_NEG) (hN : table.length ≤ INT_NEG)
    (hwin : ¬ (start0 ≤ 0 ∧ 0 < end0)) :
    (Rewrite (serialize table) start0 end0).outcome = .returned ∧
    MakeMatrix (SortTriplets (Rewrite (serialize table) start0 end0).written) last0 cur0 =
      ⟨.returned, serialize (transposeTable M table) ++ [NL]⟩ := by
  have hlen : ∀ line ∈ table, ∀ v ∈ line, v.length < FILE_BUF_READ_SIZE_BYTES := by
    intro line hl v hv
    have := (hgood line hl v hv).short
    simp only [FILE_BUF_READ_SIZE_BYTES]
    omega
  have hnl : ∀ t ∈ tableTriplets 0 table, ∀ b ∈ t.value, b ≠ NL := by
    intro t ht
    obtain ⟨-, -, -, line, hl, hv⟩ := mem_tableTriplets M table 0 t hrect.width ht
    exact (hgood line hl _ hv).no_nl
  obtain ⟨hs1, hs2⟩ := transposeTable_shape M table
  have hrows : transposeTable M table ≠ [] := by
    intro h; rw [h] at hs1; simp at hs1; have := hrect.columns; omega
  rw [Rewrite_table table M start0 end0 hrect (endsInField_of_good table hgood) hlen hM hN hwin]
  refine ⟨rfl, ?_⟩
  simp only []
  rw [SortTriplets_renderAll _ _ (tableTriplets_perm M table 0 hrect.width)
    (pairwise_gridTriplets 0 _ 0) hnl,
    MakeMatrix_grid (transposeTable M table) last0 cur0
      (fun g hg h => by
        have := hs2 g hg
        rw [h] at this
        cases table with
        | nil => exact hrect.lines rfl
        | cons _ _ => simp at this)
      (transposeTable_values M table GoodValue hrect.width hgood)
      (by rw [length_gridTriplets 0 table.length _ 0 hs2, hs1, Nat.mul_comm]; exact hcells)
      (by rw [hs1]; exact hM) (fun g hg => by rw [hs2 g hg]; exact hN),
    serialize_append_NL _ hrows]

/-- The round trip for a table whose values `MakeMatrix` reads back unchanged,
serialised with a final newline: the empty line that `Rewrite` writes at the
end of its output is skipped by `MakeMatrix`, wherever the sort puts it. -/
theorem round_trip_final (table : List (List (List Byte))) (M : Nat) (start0 end0 : Int)
    (last0 cur0 : LineBuf) (hrect : Rectangular table M)
    (hgood : ∀ line ∈ table, ∀ v ∈ line, GoodValue v) (hcells : 2 ≤ table.length * M)
    (hM : M ≤ INT_NEG) (hN : table.length ≤ INT_NEG)
    (hwin : ¬ (start0 ≤ 0 ∧ 0 < end0)) :
    (Rewrite (serialize table ++ [NL]) start0 end0).outcome = .returned ∧
    MakeMatrix (SortTriplets (Rewrite (serialize table ++ [NL]) start0 end0).written)
        last0 cur0 =
      ⟨.returned, serialize (transposeTable M table) ++ [NL]⟩ := by
  have hlen : ∀ line ∈ table, ∀ v ∈ line, v.length < FILE_BUF_READ_SIZE_BYTES := by
    intro line hl v hv
    have := (hgood line hl v hv).short
    simp only [FILE_BUF_READ_SIZE_BYTES]
    omega
  have hlast : ∀ v, table.getLast?.bind List.getLast? = some v →
      v.length + 1 < FILE_BUF_READ_SIZE_BYTES := by
    intro v hv
    cases hl : table.getLast? with
    | none => rw [hl] at hv; simp at hv
    | some l =>
      rw [hl] at hv
      simp only [Option.some_bind] at hv
      have := (hgood l (List.mem_of_getLast?_eq_some hl) v (List.mem_of_getLast?_eq_some hv)).short
      simp only [FILE_BUF_READ_SIZE_BYTES]
      omega
  have hnl : ∀ t ∈ tableTriplets 0 table, ∀ b ∈ t.value, b ≠ NL := by
    intro t ht
    obtain ⟨-, -, -, line, hl, hv⟩ := mem_tableTriplets M table 0 t hrect.width ht
    exact (hgood line hl _ hv).no_nl
  obtain ⟨hs1, hs2⟩ := transposeTable_shape M table
  have hrows : transposeTable M table ≠ [] := by
    intro h; rw [h] at hs1; simp at hs1; have := hrect.columns; omega
  rw [Rewrite_table_final table M start0 end0 hrect hlen hlast hM hN hwin]
  refine ⟨rfl, ?_⟩
  simp only []
  rw [renderAll_finalNewline _
    (tableTriplets_ne_nil M hrect.columns 0 table hrect.lines hrect.width)]
  obtain ⟨L, hL1, hL2⟩ := SortTriplets_final _ _ (tableTriplets_perm M table 0 hrect.width)
    (pairwise_gridTriplets 0 _ 0) hnl
  rw [hL1, MakeMatrix_grid_lines (transposeTable M table) L last0 cur0 hL2
      (fun g hg h => by
        have := hs2 g hg
        rw [h] at this
        cases table with
        | nil => exact hrect.lines rfl
        | cons _ _ => simp at this)
      (transposeTable_values M table GoodValue hrect.width hgood)
      (by rw [length_gridTriplets 0 table.length _ 0 hs2, hs1, Nat.mul_comm]; exact hcells)
      (by rw [hs1]; exact hM) (fun g hg => by rw [hs2 g hg]; exact hN),
    serialize_append_NL _ hrows]

/-- Claim C1, amended.  For every rectangular table of plain fields (at least one
line, every line with the same `M ≥ 1` fields, at most `2^31` lines and at
most `2^31` fields in a line, so that every index is a value of a
non-negative `int`) in which every field is not empty, does not begin with a
white-space byte, holds no `'\0'` and is shorter than 1024 bytes, and which
has at least two cells: on the serialisation of the table without a final
newline, and on the serialisation with a final newline when the table has
fewer than `2^31` lines (the line counter is incremented at the final
newline), `Rewrite` returns, and `MakeMatrix` on its sorted output returns and
writes the serialisation of the transposed table followed by one newline.
This is for a reader whose never-initialised window bounds do not cover
offset 0. -/
theorem C1_round_trip (table : List (List (List Byte))) (M : Nat) (start0 end0 : Int)
    (last0 cur0 : LineBuf) (hrect : Rectangular table M)
    (hgood : ∀ line ∈ table, ∀ v ∈ line, GoodValue v) (hcells : 2 ≤ table.length * M)
    (hM : M ≤ INT_NEG) (hN : table.length ≤ INT_NEG)
    (hwin : ¬ (start0 ≤ 0 ∧ 0 < end0)) :
    ((Rewrite (serialize table) start0 end0).outcome = .returned ∧
      MakeMatrix (SortTriplets (Rewrite (serialize table) start0 end0).written) last0 cur0 =
        ⟨.returned, serialize (transposeTable M table) ++ [NL]⟩) ∧
    (table.length < INT_NEG →
      (Rewrite (serialize table ++ [NL]) start0 end0).outcome = .returned ∧
      MakeMatrix (SortTriplets (Rewrite (serialize table ++ [NL]) start0 end0).written)
          last0 cur0 =
        ⟨.returned, serialize (transposeTable M table) ++ [NL]⟩) :=
  ⟨round_trip table M start0 end0 last0 cur0 hrect hgood hcells hM hN hwin,
    fun _ => round_trip_final table M start0 end0 last0 cur0 hrect hgood hcells hM hN hwin⟩

/-- Witness of C1: the table `a b / c d` of the spec goes to `a c / b d`, from
the input `"a\tb\nc\td"` and from the input `"a\tb\nc\td\n"`. -/
theorem C1_round_trip_witness :
    Rectangular exampleTable 2 ∧ (∀ line ∈ exampleTable, ∀ v ∈ line, GoodValue v) ∧
    2 ≤ exampleTable.length * 2 ∧ 2 ≤ INT_NEG ∧ exampleTable.length ≤ INT_NEG ∧
    ¬ ((0 : Int) ≤ 0 ∧ (0 : Int) < 0) ∧ exampleTable.length < INT_NEG ∧
    serialize exampleTable = bytes "a\tb\nc\td" ∧
    serialize exampleTable ++ [NL] = bytes "a\tb\nc\td\n" ∧
    serialize (transposeTable 2 exampleTable) ++ [NL] = bytes "a\tc\nb\td\n" ∧
    MakeMatrix (SortTriplets (Rewrite (serialize exampleTable) 0 0).written) ⟨7, 7, []⟩ ⟨5, 5, []⟩ =
      ⟨.returned, serialize (transposeTable 2 exampleTable) ++ [NL]⟩ ∧
    MakeMatrix (SortTriplets (Rewrite (serialize exampleTable ++ [NL]) 0 0).written)
        ⟨7, 7, []⟩ ⟨5, 5, []⟩ =
      ⟨.returned, serialize (transposeTable 2 exampleTable) ++ [NL]⟩ :=
  ⟨rectangular_exampleTable, goodValue_exampleTable, by decide, by decide, by decide, by decide,
    by decide, by decide, by decide, by decide,
    (C1_round_trip exampleTable 2 0 0 ⟨7, 7, []⟩ ⟨5, 5, []⟩ rectangular_exampleTable
      goodValue_exampleTable (by decide) (by decide) (by decide) (by decide)).1.2,
    ((C1_round_trip exampleTable 2 0 0 ⟨7, 7, []⟩ ⟨5, 5, []⟩ rectangular_exampleTable
      goodValue_exampleTable (by decide) (by decide) (by decide) (by decide)).2 (by decide)).2⟩

/-- Counterexample to C1 as stated: a field that begins with a space, an empty
field, and a field that holds the byte 0.  In each case the output is neither
the serialised transposed table nor that followed by a newline. -/
theorem C1_counterexample :
    (roundTrip [[[32, 97], [98]]] = ⟨.returned, bytes "a\nb\n"⟩ ∧
      serialize (transposeTable 2 [[[32, 97], [98]]]) = bytes " a\nb") ∧
    (roundTrip [[[97], [], [98]]] = ⟨.returned, bytes "a\n2 0 b\n"⟩ ∧
      serialize (transposeTable 3 [[[97], [], [98]]]) = bytes "a\n\nb") ∧
    (roundTrip [[[97, 0, 98], [99]]] = ⟨.returned, bytes "a\nc\n"⟩ ∧
      serialize (transposeTable 2 [[[97, 0, 98], [99]]]) = [97, 0, 98, 10, 99]) :=
  ⟨by decide, by decide, by decide⟩

/-- Claim C2, amended.  For every rectangular table of plain fields (at least one
line, every line with the same `M ≥ 1` fields, no delimiter in front of a
newline, no empty line at the start, no empty field at the end) with at most
`2^31` lines and at most `2^31` fields in a line (so that no counter leaves
the range of a non-negative `int`), whose fields are shorter than
`FILE_BUF_READ_SIZE_BYTES`, `Rewrite` on the serialisation without a final
newline returns, and the bytes it writes are exactly the records
`"<j> <i> <value>\n"` in source order, line by line and field by field.  This
is for a reader whose never-initialised window bounds do not cover offset 0. -/
theorem C2_splitter_output (table : List (List (List Byte))) (M : Nat) (start0 end0 : Int)
    (hrect : Rectangular table M) (hlast : EndsInField table)
    (hlen : ∀ line ∈ table, ∀ v ∈ line, v.length < FILE_BUF_READ_SIZE_BYTES)
    (hM : M ≤ INT_NEG) (hN : table.length ≤ INT_NEG)
    (hwin : ¬ (start0 ≤ 0 ∧ 0 < end0)) :
    Rewrite (serialize table) start0 end0 = ⟨.returned, renderAll (tableTriplets 0 table)⟩ :=
  Rewrite_table table M start0 end0 hrect hlast hlen hM hN hwin

/-- Witness of C2: the input `"a\tb\nc\td"` yields
`"0 0 a\n1 0 b\n0 1 c\n1 1 d\n"`. -/
theorem C2_splitter_output_witness :
    Rectangular exampleTable 2 ∧ EndsInField exampleTable ∧
    (∀ line ∈ exampleTable, ∀ v ∈ line, v.length < FILE_BUF_READ_SIZE_BYTES) ∧
    2 ≤ INT_NEG ∧ exampleTable.length ≤ INT_NEG ∧
    ¬ ((0 : Int) ≤ 0 ∧ (0 : Int) < 0) ∧
    serialize exampleTable = bytes "a\tb\nc\td" ∧
    renderAll (tableTriplets 0 exampleTable) = bytes "0 0 a\n1 0 b\n0 1 c\n1 1 d\n" ∧
    Rewrite (serialize exampleTable) 0 0 = ⟨.returned, renderAll (tableTriplets 0 exampleTable)⟩ :=
  ⟨rectangular_exampleTable, endsInField_exampleTable, by decide, by decide, by decide,
    by decide, by decide, by decide,
    C2_splitter_output exampleTable 2 0 0 rectangular_exampleTable endsInField_exampleTable
      (by decide) (by decide) (by decide) (by decide)⟩

/-- A file of `FILE_BUF_READ_SIZE_BYTES` bytes `a` (one line, one field): the
run ends in the size-limit exit after `"0 0 "` has been written. -/
theorem Rewrite_one_big_field :
    Rewrite (List.replicate FILE_BUF_READ_SIZE_BYTES 97) 0 0 =
      ⟨.exited .notDesigned, bytes "0 0 "⟩ := by
  rw [Rewrite_eq_scanList _ _ _ (by decide)]
  have h := scanList_big 97 (FILE_BUF_READ_SIZE_BYTES - 1) scanInit (by decide) (by decide) rfl
    (by decide)
  have e : FILE_BUF_READ_SIZE_BYTES - 1 + 1 = FILE_BUF_READ_SIZE_BYTES := by decide
  rw [e] at h
  rw [h]
  decide

/-- Counterexample to C2 as stated: the input of the spec example, which ends
in a newline, yields one byte more than the claimed output; and a field of
`FILE_BUF_READ_SIZE_BYTES` bytes ends the run in the size-limit exit. -/
theorem C2_counterexample :
    (Rewrite (bytes "a\tb\nc\td\n") 0 0 =
        ⟨.returned, bytes "0 0 a\n1 0 b\n0 1 c\n1 1 d\n\n"⟩ ∧
      (Rewrite (bytes "a\tb\nc\td\n") 0 0).written ≠ bytes "0 0 a\n1 0 b\n0 1 c\n1 1 d\n") ∧
    Rewrite (List.replicate FILE_BUF_READ_SIZE_BYTES 97) 0 0 =
      ⟨.exited .notDesigned, bytes "0 0 "⟩ :=
  ⟨by decide, Rewrite_one_big_field⟩

/-- Claim C3, amended.  For every `R ≤ 2^31` and `1 ≤ C ≤ 2^31` (so that every
index is a value of a non-negative `int`) with at least two cells and every
family of `R` groups of `C` values (each value not empty, free of `'\n'` and
of the byte 0, not beginning with a white-space byte, shorter than 1024
bytes), `MakeMatrix` on the stream of the lines `"<r> <c> <value>\n"` in
ascending `(r, c)` order returns and writes exactly `R` lines, line `r` being
the values of group `r` joined by the delimiter and ended by `'\n'`. -/
theorem C3_reassembler (R C : Nat) (rows : List (List (List Byte))) (last0 cur0 : LineBuf)
    (hR : rows.length = R) (hC : ∀ g ∈ rows, g.length = C) (hC1 : 1 ≤ C)
    (hgood : ∀ g ∈ rows, ∀ v ∈ g, GoodValue v) (hcells : 2 ≤ R * C)
    (hRb : R ≤ INT_NEG) (hCb : C ≤ INT_NEG) :
    MakeMatrix (renderAll (gridTriplets 0 0 rows)) last0 cur0 =
      ⟨.returned, delimitedLines rows⟩ := by
  apply MakeMatrix_grid rows last0 cur0 _ hgood
  · rw [length_gridTriplets 0 C rows 0 hC, hR]; exact hcells
  · rw [hR]; exact hRb
  · intro g hg; rw [hC g hg]; exact hCb
  · intro g hg h
    have := hC g hg
    rw [h] at this
    simp at this
    omega

theorem goodValue_exampleTransposed : ∀ g ∈ exampleTransposed, ∀ v ∈ g, GoodValue v := by
  intro g hg v hv
  have h : v = [97] ∨ v = [98] ∨ v = [99] ∨ v = [100] := by
    simp only [exampleTransposed, List.mem_cons, List.mem_singleton, List.not_mem_nil,
      or_false] at hg
    rcases hg with rfl | rfl <;>
      simp only [List.mem_cons, List.mem_singleton, List.not_mem_nil, or_false] at hv <;>
      rcases hv with rfl | rfl <;> simp
  rcases h with rfl | rfl | rfl | rfl <;>
    exact ⟨by decide, by decide, by decide, by decide, by decide⟩

/-- Witness of C3: `"0 0 a\n0 1 c\n1 0 b\n1 1 d\n"` yields `"a\tc\nb\td\n"`. -/
theorem C3_reassembler_witness :
    exampleTransposed.length = 2 ∧ (∀ g ∈ exampleTransposed, g.length = 2) ∧ 1 ≤ 2 ∧
    (∀ g ∈ exampleTransposed, ∀ v ∈ g, GoodValue v) ∧ 2 ≤ 2 * 2 ∧
    2 ≤ INT_NEG ∧ 2 ≤ INT_NEG ∧
    renderAll (gridTriplets 0 0 exampleTransposed) = bytes "0 0 a\n0 1 c\n1 0 b\n1 1 d\n" ∧
    delimitedLines exampleTransposed = bytes "a\tc\nb\td\n" ∧
    MakeMatrix (renderAll (gridTriplets 0 0 exampleTransposed)) ⟨7, 7, []⟩ ⟨5, 5, []⟩ =
      ⟨.returned, delimitedLines exampleTransposed⟩ :=
  ⟨by decide, by decide, by decide, goodValue_exampleTransposed, by decide, by decide, by decide,
    by decide, by decide,
    C3_reassembler 2 2 exampleTransposed ⟨7, 7, []⟩ ⟨5, 5, []⟩ (by decide) (by decide)
      (by decide) goodValue_exampleTransposed (by decide) (by decide) (by decide)⟩

/-- Counterexample to C3 as stated: the value `a\0b` is written as `a`; and
for `R = C = 1` the output has a second newline when the never-initialised
`cur_line.row` is 5.  The last part shows what the `int` of `LineBuf::col`
does to an index past its range: the record with `c = 4294967296` is read
with `col = 0` and the delimiter in front of its value is not written. -/
theorem C3_counterexample :
    (renderAll (gridTriplets 0 0 [[[97, 0, 98], [99]]]) =
        [48, 32, 48, 32, 97, 0, 98, 10, 48, 32, 49, 32, 99, 10] ∧
      MakeMatrix (renderAll (gridTriplets 0 0 [[[97, 0, 98], [99]]])) ⟨0, 0, []⟩ ⟨0, 0, []⟩ =
        ⟨.returned, bytes "a\tc\n"⟩ ∧
      delimitedLines [[[97, 0, 98], [99]]] = [97, 0, 98, 9, 99, 10]) ∧
    (renderAll (gridTriplets 0 0 [[[97]]]) = bytes "0 0 a\n" ∧
      MakeMatrix (renderAll (gridTriplets 0 0 [[[97]]])) ⟨0, 0, []⟩ ⟨5, 0, []⟩ =
        ⟨.returned, bytes "a\n\n"⟩ ∧
      delimitedLines [[[97]]] = bytes "a\n") ∧
    MakeMatrix (bytes "0 0 a\n0 4294967296 b\n") ⟨0, 0, []⟩ ⟨0, 0, []⟩ =
      ⟨.returned, bytes "ab\n"⟩ := by
  decide

/-- Claim C4, the failing run.  The file is the single byte `a`; the reader is
freshly constructed and its never-assigned members hold `read_buf_start_ = 0`
and `read_buf_end_ = 1`.  The first call `Get(0)` takes the hit branch and
returns the byte 0 of the zero-initialised buffer, not the file byte 97; the
window `[0, 1)` does not hold the bytes of the file. -/
theorem C4_uninitialised_window :
    GetAll (FileAsArray.new [97] 0 1) [0] = some [0] ∧
    (FileAsArray.new [97] 0 1).read_file_.getD 0 0 = 97 ∧
    ¬ Valid (FileAsArray.new [97] 0 1) := by
  refine ⟨by decide, by decide, fun h => ?_⟩
  have h1 := h.2.2.2.2 0 (by decide)
  revert h1
  decide

/-- Claim C5, the failing run.  The file is `ab`; the reader is freshly
constructed and its never-assigned members hold `read_buf_start_ = 0` and
`read_buf_end_ = 2`.  `WriteTo(0, 1, sink)` on the empty sink appends the byte
0 and not the file byte `a`, both on the fresh reader and after the in-range
call `Get(1)`. -/
theorem C5_uninitialised_copy :
    ((FileAsArray.new [97, 98] 0 2).WriteTo 0 1 []).sink = some [0] ∧
    (((FileAsArray.new [97, 98] 0 2).Get 1).bind
      (fun r => (r.2.WriteTo 0 1 []).sink)) = some [0] ∧
    ((FileAsArray.new [97, 98] 0 2).read_file_.drop 0).take 1 = [97] := by
  decide

/-- Claim C6, the failing input.  In `"a\nb\tc\n"` every line ends in `'\n'`,
no newline follows a delimiter or `'\r'`, line 0 has one field and line 1 has
two; `Rewrite` returns instead of failing, and its output holds FieldIndex 1
with LineIndex 1 only. -/
theorem C6_ragged_accepted :
    Rewrite (bytes "a\nb\tc\n") 0 0 = ⟨.returned, bytes "0 0 a\n0 1 b\n1 1 c\n\n"⟩ := by
  decide

/-- Claim C7, the failing run.  The file `"\t\n"` has a newline at offset 1
right after the delimiter.  With never-assigned members `read_buf_start_ = 0`
and `read_buf_end_ = 2` every `Get` of the scan is a hit on the zero-initialised
buffer, no newline is seen, and `Rewrite` returns after writing a triplet for
the whole file. -/
theorem C7_newline_unseen :
    Rewrite (bytes "\t\n") 0 2 = ⟨.returned, bytes "0 0 \t\n\n"⟩ := by
  decide

/-- Claim C8, the failing input.  On `"a\tb\nc\n"` the run ends in the
wrong-column-count exit after 19 bytes have been written to the output
stream.  After the file has been reopened and the old stream closed, the file
holds all 19 bytes when none of them had been flushed before, and it holds 19
bytes for every number of bytes flushed before. -/
theorem C8_output_kept :
    (Rewrite (bytes "a\tb\nc\n") 0 0).outcome = .exited .wrongColCount ∧
    fileAfterReopen 0 (Rewrite (bytes "a\tb\nc\n") 0 0).written =
      bytes "0 0 a\n1 0 b\n0 1 c\n\n" ∧
    ∀ flushed < 19,
      (fileAfterReopen flushed (Rewrite (bytes "a\tb\nc\n") 0 0).written).length = 19 := by
  decide

/-- Claim C9, amended.  For every rectangular table of `N ≤ 2^31` lines of
`M ≤ 2^31` plain fields (no delimiter in front of a newline, no empty line at
the start; the bounds keep the counters in the range of a non-negative `int`)
whose fields are shorter than `FILE_BUF_READ_SIZE_BYTES`: on the serialisation
without a final newline (when it does not end in an empty field), and on the
serialisation with a final newline (when `N < 2^31`, the line counter being
incremented at the final newline, and the last field is shorter than
`FILE_BUF_READ_SIZE_BYTES - 1`), `Rewrite` returns having written the records
of exactly `N * M` triplets, each with `FieldIndex < M` and `LineIndex < N`.
This is for a reader whose never-initialised window bounds do not cover
offset 0. -/
theorem C9_triplet_count (table : List (List (List Byte))) (N M : Nat) (start0 end0 : Int)
    (hN : table.length = N) (hrect : Rectangular table M)
    (hlen : ∀ line ∈ table, ∀ v ∈ line, v.length < FILE_BUF_READ_SIZE_BYTES)
    (hMb : M ≤ INT_NEG) (hNb : N ≤ INT_NEG)
    (hwin : ¬ (start0 ≤ 0 ∧ 0 < end0)) :
    (EndsInField table →
      Rewrite (serialize table) start0 end0 = ⟨.returned, renderAll (tableTriplets 0 table)⟩ ∧
      (tableTriplets 0 table).length = N * M ∧
      ∀ t ∈ tableTriplets 0 table, t.FieldIndex < M ∧ t.LineIndex < N) ∧
    (N < INT_NEG →
      (∀ v, table.getLast?.bind List.getLast? = some v →
        v.length + 1 < FILE_BUF_READ_SIZE_BYTES) →
      Rewrite (serialize table ++ [NL]) start0 end0 =
        ⟨.returned, renderAll (finalNewline (tableTriplets 0 table))⟩ ∧
      (finalNewline (tableTriplets 0 table)).length = N * M ∧
      ∀ t ∈ finalNewline (tableTriplets 0 table), t.FieldIndex < M ∧ t.LineIndex < N) := by
  have hcount : (tableTriplets 0 table).length = N * M := by
    rw [length_tableTriplets M table 0 hrect.width, hN]
  have hbound : ∀ t ∈ tableTriplets 0 table, t.FieldIndex < M ∧ t.LineIndex < N := by
    intro t ht
    obtain ⟨h1, -, h3, -⟩ := mem_tableTriplets M table 0 t hrect.width ht
    exact ⟨h1, by omega⟩
  have hNt : table.length ≤ INT_NEG := by rw [hN]; exact hNb
  have hMt : M ≤ INT_NEG := hMb
  refine ⟨fun hlast =>
      ⟨Rewrite_table table M start0 end0 hrect hlast hlen hMt hNt hwin, hcount, hbound⟩,
    fun _ hlast => ⟨Rewrite_table_final table M start0 end0 hrect hlen hlast hMt hNt hwin, ?_, ?_⟩⟩
  · rw [length_finalNewline, hcount]
  · intro t ht
    obtain ⟨u, hu, h1, h2⟩ := mem_finalNewline _ t ht
    rw [h1, h2]
    exact hbound u hu

/-- Witness of C9: the table `a b / c d` gives four triplets, without and with
a final newline. -/
theorem C9_triplet_count_witness :
    exampleTable.length = 2 ∧ Rectangular exampleTable 2 ∧
    (∀ line ∈ exampleTable, ∀ v ∈ line, v.length < FILE_BUF_READ_SIZE_BYTES) ∧
    2 ≤ INT_NEG ∧ 2 ≤ INT_NEG ∧
    ¬ ((0 : Int) ≤ 0 ∧ (0 : Int) < 0) ∧ EndsInField exampleTable ∧ 2 < INT_NEG ∧
    (∀ v, exampleTable.getLast?.bind List.getLast? = some v →
      v.length + 1 < FILE_BUF_READ_SIZE_BYTES) ∧
    (Rewrite (serialize exampleTable) 0 0 =
        ⟨.returned, renderAll (tableTriplets 0 exampleTable)⟩ ∧
      (tableTriplets 0 exampleTable).length = 2 * 2 ∧
      ∀ t ∈ tableTriplets 0 exampleTable, t.FieldIndex < 2 ∧ t.LineIndex < 2) ∧
    (Rewrite (serialize exampleTable ++ [NL]) 0 0 =
        ⟨.returned, renderAll (finalNewline (tableTriplets 0 exampleTable))⟩ ∧
      (finalNewline (tableTriplets 0 exampleTable)).length = 2 * 2 ∧
      ∀ t ∈ finalNewline (tableTriplets 0 exampleTable), t.FieldIndex < 2 ∧ t.LineIndex < 2) :=
  have hlast : ∀ v, exampleTable.getLast?.bind List.getLast? = some v →
      v.length + 1 < FILE_BUF_READ_SIZE_BYTES := by
    intro v hv
    have : v = [100] := by
      have e : exampleTable.getLast?.bind List.getLast? = some [100] := by decide
      rw [e] at hv
      exact (Option.some.inj hv).symm
    subst this
    decide
  ⟨by decide, rectangular_exampleTable, by decide, by decide, by decide, by decide,
    endsInField_exampleTable, by decide, hlast,
    (C9_triplet_count exampleTable 2 2 0 0 (by decide) rectangular_exampleTable (by decide)
      (by decide) (by decide) (by decide)).1 endsInField_exampleTable,
    (C9_triplet_count exampleTable 2 2 0 0 (by decide) rectangular_exampleTable (by decide)
      (by decide) (by decide) (by decide)).2 (by decide) hlast⟩

/-- Counterexample to C9 as stated: a table of one line of two fields, the
second of `FILE_BUF_READ_SIZE_BYTES` bytes.  The run ends in the size-limit
exit with one record written, not two. -/
theorem C9_counterexample :
    Rewrite ([97, 9] ++ List.replicate FILE_BUF_READ_SIZE_BYTES 98) 0 0 =
      ⟨.exited .notDesigned, bytes "0 0 a\n1 0 "⟩ := by
  rw [Rewrite_eq_scanList _ _ _ (by decide)]
  have h := scanList_big 98 (FILE_BUF_READ_SIZE_BYTES - 1)
    { out := bytes "0 0 a\n", row := 1, col := 0, crc := 0, value := [],
      prev := some FILE_DELIMITER } (by decide) (by decide) rfl (by decide)
  have e : FILE_BUF_READ_SIZE_BYTES - 1 + 1 = FILE_BUF_READ_SIZE_BYTES := by decide
  rw [e] at h
  show scanList (97 :: 9 :: List.replicate FILE_BUF_READ_SIZE_BYTES 98) scanInit = _
  have hne : (List.replicate FILE_BUF_READ_SIZE_BYTES (98 : Byte)).isEmpty = false := by
    show (List.replicate (524287 + 1) (98 : Byte)).isEmpty = false
    rfl
  have h1 : (9 :: List.replicate FILE_BUF_READ_SIZE_BYTES (98 : Byte)).isEmpty = false := rfl
  have s1 : scanStep 97 false scanInit =
      .next { out := [], row := 0, col := 0, crc := 0, value := [97], prev := some 97 } := by
    rfl
  have s2 : scanStep 9 false
      { out := [], row := 0, col := 0, crc := 0, value := [97], prev := some 97 } =
      .next { out := bytes "0 0 a\n", row := 1, col := 0, crc := 0, value := [],
              prev := some FILE_DELIMITER } := by
    rfl
  rw [scanList_cons, h1, s1]
  simp only []
  rw [scanList_cons, hne, s2]
  simp only []
  rw [h]
  decide

/-- Claim C10.  `WriteTo(start, length, sink)` ends in the size-limit exit
exactly when `length ≥ FILE_BUF_READ_SIZE_BYTES`; for
`length = FILE_BUF_READ_SIZE_BYTES` it does so, before anything is written to
the sink; for `length = FILE_BUF_READ_SIZE_BYTES - 1` with
`[start, start + length)` inside the file it returns, having appended
`length` bytes to the sink. -/
theorem C10_copy_boundary (f : FileAsArray) (start length : Int) (sink : List Byte) :
    (f.WriteTo start length sink = .notDesigned ↔ (FILE_BUF_READ_SIZE_BYTES : Int) ≤ length) ∧
    f.WriteTo start FILE_BUF_READ_SIZE_BYTES sink = .notDesigned ∧
    (0 ≤ start → start + ((FILE_BUF_READ_SIZE_BYTES : Int) - 1) ≤ f.Length →
      ∃ sink2 f2, f.WriteTo start ((FILE_BUF_READ_SIZE_BYTES : Int) - 1) sink = .wrote sink2 f2 ∧
        sink2.length = sink.length + (FILE_BUF_READ_SIZE_BYTES - 1)) := by
  have hc := cap_pos
  refine ⟨⟨fun h => ?_, fun h => by simp [WriteTo, h]⟩, by simp [WriteTo], fun h0 h1 => ?_⟩
  · by_contra hlt
    unfold WriteTo at h
    rw [if_neg hlt] at h
    split_ifs at h
    split at h
    · cases h
    · split at h <;> cases h
  · obtain ⟨sink2, f2, h2, h3⟩ := WriteTo_returns f start ((FILE_BUF_READ_SIZE_BYTES : Int) - 1)
      sink h0 (by omega) (by omega) h1
    exact ⟨sink2, f2, h2, by rw [h3]; congr 1⟩

/-- Witness of C10: a file of `FILE_BUF_READ_SIZE_BYTES - 1` zero bytes, copied
whole from offset 0. -/
theorem C10_copy_boundary_witness :
    (0 : Int) ≤ 0 ∧
    (0 : Int) + ((FILE_BUF_READ_SIZE_BYTES : Int) - 1) ≤
      (FileAsArray.new (List.replicate (FILE_BUF_READ_SIZE_BYTES - 1) 0) 0 0).Length ∧
    ∃ sink2 f2,
      (FileAsArray.new (List.replicate (FILE_BUF_READ_SIZE_BYTES - 1) 0) 0 0).WriteTo 0
          ((FILE_BUF_READ_SIZE_BYTES : Int) - 1) [] = .wrote sink2 f2 ∧
        sink2.length = ([] : List Byte).length + (FILE_BUF_READ_SIZE_BYTES - 1) :=
  have h : (0 : Int) + ((FILE_BUF_READ_SIZE_BYTES : Int) - 1) ≤
      (FileAsArray.new (List.replicate (FILE_BUF_READ_SIZE_BYTES - 1) 0) 0 0).Length := by
    show (0 : Int) + ((FILE_BUF_READ_SIZE_BYTES : Int) - 1) ≤
      ((List.replicate (FILE_BUF_READ_SIZE_BYTES - 1) (0 : Byte)).length : Int)
    rw [List.length_replicate]
    decide
  ⟨le_refl _, h,
    (C10_copy_boundary (FileAsArray.new (List.replicate (FILE_BUF_READ_SIZE_BYTES - 1) 0) 0 0)
      0 ((FILE_BUF_READ_SIZE_BYTES : Int) - 1) []).2.2 (le_refl _) h⟩

/-- Claim C11, amended.  For every record line `"<f> <l> <v>\n"` with `f` and
`l` below `2^31` (values of a non-negative `int`) whose value `v` is not
empty, holds no `'\n'` and no `'\0'`, does not begin with a white-space byte
and is shorter than 1024 bytes, the record reader of `MakeMatrix` (the
`fscanf` call, `ReadToEndl`, `NukeNl`) yields `FieldIndex = f`, `LineIndex = l`
and the value `v`, and leaves in the stream exactly the bytes that follow the
line. -/
theorem C11_record_reader (f l : Nat) (v rest : List Byte) (row col : Int) (h : GoodValue v)
    (hf : f < INT_NEG) (hl : l < INT_NEG) :
    readRecord ⟨printf_d f ++ [SP] ++ printf_d l ++ [SP] ++ v ++ [NL] ++ rest, false⟩ row col =
      (⟨f, l, v⟩, ⟨rest, false⟩) :=
  readRecord_render ⟨f, l, v⟩ rest row col h ⟨hf, hl⟩

/-- Witness of C11: the line `"1 0 b\n"` in front of `"1 1 d\n"`. -/
theorem C11_record_reader_witness :
    GoodValue [98] ∧ 1 < INT_NEG ∧ 0 < INT_NEG ∧
    readRecord ⟨printf_d 1 ++ [SP] ++ printf_d 0 ++ [SP] ++ [98] ++ [NL] ++ bytes "1 1 d\n",
      false⟩ 7 7 = (⟨1, 0, [98]⟩, ⟨bytes "1 1 d\n", false⟩) :=
  have h : GoodValue [98] := ⟨by decide, by decide, by decide, by decide, by decide⟩
  ⟨h, by decide, by decide,
    C11_record_reader 1 0 [98] (bytes "1 1 d\n") 7 7 h (by decide) (by decide)⟩

/-- Counterexample to C11 as stated.  An empty value: the reader takes the next
line for the value and consumes two lines.  A value beginning with a blank or
a tab: the white space is lost.  A value holding `'\0'`: it is cut there.
Indices past the range of `int`: `2147483648` is stored as `-2147483648` and
`4294967296` as `0`. -/
theorem C11_counterexample :
    readRecord ⟨bytes "0 0 \n1 0 b\n", false⟩ 7 7 =
      (⟨0, 0, bytes "1 0 b"⟩, ⟨[], false⟩) ∧
    readRecord ⟨bytes "0 0  a\n1 0 b\n", false⟩ 7 7 =
      (⟨0, 0, bytes "a"⟩, ⟨bytes "1 0 b\n", false⟩) ∧
    readRecord ⟨bytes "0 0 \ta\n", false⟩ 7 7 = (⟨0, 0, bytes "a"⟩, ⟨[], false⟩) ∧
    readRecord ⟨[48, 32, 48, 32, 97, 0, 98, 10], false⟩ 7 7 = (⟨0, 0, [97]⟩, ⟨[], false⟩) ∧
    readRecord ⟨bytes "2147483648 4294967296 x\n", false⟩ 7 7 =
      (⟨-2147483648, 0, bytes "x"⟩, ⟨[], false⟩) := by
  decide

/-- Claim C12 at a stream of one record.  `MakeMatrix` on `"0 0 a\n"` enters
its loop once; the `fscanf` of that iteration fails at the end of the file and
leaves `cur_line.row` as it was, never assigned, and line 244 compares it with
`last_line.row = 0`.  The output is `"a\n"` when that value is 0 and `"a\n\n"`
otherwise, where the per-record rule gives `"a\n"`. -/
theorem C12_single_record :
    (∀ last0 cur0 : LineBuf, MakeMatrix (bytes "0 0 a\n") last0 cur0 =
      ⟨.returned, if cur0.row ≠ 0 then bytes "a\n\n" else bytes "a\n"⟩) ∧
    MakeMatrix (bytes "0 0 a\n") ⟨0, 0, []⟩ ⟨5, 0, []⟩ = ⟨.returned, bytes "a\n\n"⟩ ∧
    emitRecord ⟨0, 0, bytes "a"⟩ 0 ++ [NL] = bytes "a\n" := by
  refine ⟨?_, by decide, by decide⟩
  intro last0 cur0
  have h1 : readRecord { rest := bytes "0 0 a\n", eof := false } last0.row last0.col =
      (⟨0, 0, [97]⟩, ⟨[], false⟩) := by
    have := readRecord_render ⟨0, 0, [97]⟩ [] last0.row last0.col
      ⟨by decide, by decide, by decide, by decide, by decide⟩ ⟨by decide, by decide⟩
    exact this
  have h2 : readRecord ⟨[], false⟩ cur0.row cur0.col = (⟨cur0.row, cur0.col, []⟩, ⟨[], true⟩) :=
    readRecord_empty _ _
  unfold MakeMatrix
  rw [h1]
  show MakeMatrixLoop (6 + 1) ⟨[], false⟩ ⟨0, 0, [97]⟩ cur0 [] = _
  rw [MakeMatrixLoop]
  simp only [Bool.false_eq_true, if_false]
  rw [h2]
  by_cases h : cur0.row = 0 <;> simp [MakeMatrixLoop, h, cstr, NL, bytes]

/-- Claim C13 at a reader whose never-assigned window bounds hold 0 and 100.
On the file `"ab"` every `Get` of the scan and both probes of `WriteTo` hit
that window, so the value written for the trigger at the last byte is two
bytes of the zero-filled buffer, not `file[0 .. 2) = "ab"`. -/
theorem C13_value_from_buffer :
    Rewrite (bytes "ab") 0 100 = ⟨.returned, bytes "0 0 " ++ [0, 0] ++ [NL]⟩ ∧
    Rewrite (bytes "ab") 0 0 = ⟨.returned, bytes "0 0 " ++ bytes "ab" ++ [NL]⟩ := by
  decide

/-- Claim C14 at the input `"a\tb\nc"`: line 0 has two fields and the final
line, which has no newline, has one.  The column count is compared only at a
newline (lines 173-191), so `Rewrite` returns with the three records written. -/
theorem C14_unterminated_line :
    Rewrite (bytes "a\tb\nc") 0 0 = ⟨.returned, bytes "0 0 a\n1 0 b\n0 1 c\n"⟩ ∧
    Rewrite (bytes "a\tb\nc\td\te") 0 0 =
      ⟨.returned, bytes "0 0 a\n1 0 b\n0 1 c\n1 1 d\n2 1 e\n"⟩ ∧
    Rewrite (bytes "a\tb\nc\n") 0 0 = ⟨.exited .wrongColCount, bytes "0 0 a\n1 0 b\n0 1 c\n\n"⟩ := by
  decide

/-- Claim C15 at an input whose first byte is `'\n'`: the look-behind of line
152 is `Get(cur_pos - 1)` with `cur_pos = 0`, the offset `-1`. -/
theorem C15_look_behind :
    (FileAsArray.new (bytes "\na") 0 0).Get (0 - 1) = none ∧
    checkLineEnd (FileAsArray.new (bytes "\na") 0 0) 0 true = .error (.outside (-1)) ∧
    Rewrite (bytes "\na") 0 0 = ⟨.exited (.outside (-1)), []⟩ ∧
    Rewrite (bytes "\n") 0 0 = ⟨.exited (.outside (-1)), []⟩ := by
  refine ⟨rfl, rfl, by decide, by decide⟩

/-- Claim C16 at the file of one line that holds one value of
`FILE_BUF_READ_SIZE_BYTES - 1` bytes `a` and a final newline.  The newline is
the last byte of the file, so line 162 moves `cur_pos` past it before line 164
computes the length `cur_pos - last_start = FILE_BUF_READ_SIZE_BYTES`, and
`WriteTo` ends the run with "Not designed to write more than ...".  The same
value without the final newline is copied. -/
theorem C16_full_value_rejected :
    fullField.length = FILE_BUF_READ_SIZE_BYTES - 1 ∧ PlainField fullField ∧
    Rewrite (fullField ++ [NL]) 0 0 = ⟨.exited .notDesigned, bytes "0 0 "⟩ ∧
    Rewrite fullField 0 0 = ⟨.returned, renderAll [⟨0, 0, fullField⟩]⟩ :=
  ⟨fullField_length, fullField_plain,
    Rewrite_value_newline fullField 0 0 fullField_ne_nil fullField_plain
      (by rw [fullField_length]; decide) (by decide),
    Rewrite_fullField⟩

/-- Claim C17.  First part: on the file `"ab"`, in the state a fresh reader is
in after `Get(0)` (window `[0, 2)`; the indeterminate initial bounds not
covering offset 0), with `start = 1` and `length = 1`: offset `start` is in the
window, and after `Get(start)` followed by `Get(start + length)` it no longer
is.  Second part: in every state of the reader, for `0 ≤ start`,
`0 < length < FILE_BUF_READ_SIZE_BYTES` and `start + length` inside the file,
`WriteTo` returns and after its probes, `Get(start + length)` first and
`Get(start)` second, every offset of `[start, start + length)` is in the
window. -/
theorem C17_probe_order :
    (∃ (input : List Byte) (start length : Int),
      0 ≤ start ∧ 0 < length ∧ length < (FILE_BUF_READ_SIZE_BYTES : Int) ∧
      start + length ≤ (input.length : Int) ∧
      ∀ start0 end0 : Int, ¬ (start0 ≤ 0 ∧ 0 < end0) →
        ∃ b f g, (FileAsArray.new input start0 end0).Get 0 = some (b, f) ∧
          InWindow f start ∧ probeStartFirst f start length = some g ∧ ¬ InWindow g start) ∧
    (∀ (f : FileAsArray) (start length : Int) (sink : List Byte),
      0 ≤ start → 0 < length → length < (FILE_BUF_READ_SIZE_BYTES : Int) →
      start + length ≤ f.Length →
      ∃ sink2 f2, f.WriteTo start length sink = .wrote sink2 f2 ∧
        ∀ a, start ≤ a → a < start + length → InWindow f2 a) := by
  refine ⟨⟨bytes "ab", 1, 1, by decide, by decide, by decide, by decide, ?_⟩, ?_⟩
  · intro start0 end0 h
    refine ⟨_, _, ((FileAsArray.new (bytes "ab") 0 0).fill 0).fill 2,
      Get_fresh (bytes "ab") start0 end0 h, ?_, rfl, ?_⟩
    · unfold InWindow; decide
    · unfold InWindow; decide
  · intro f start length sink h0 hl hc hend
    exact WriteTo_window f start length sink h0 hl hc hend

/-- Witness of C17: `WriteTo(1, 2, sink)` on a fresh reader of the file
`"abc"`. -/
theorem C17_probe_order_witness :
    (0 : Int) ≤ 1 ∧ (0 : Int) < 2 ∧ (2 : Int) < (FILE_BUF_READ_SIZE_BYTES : Int) ∧
    (1 : Int) + 2 ≤ (FileAsArray.new (bytes "abc") 0 0).Length ∧
    ∃ sink2 f2, (FileAsArray.new (bytes "abc") 0 0).WriteTo 1 2 [] = .wrote sink2 f2 ∧
      ∀ a, (1 : Int) ≤ a → a < 1 + 2 → InWindow f2 a :=
  ⟨by decide, by decide, by decide, by decide,
    C17_probe_order.2 (FileAsArray.new (bytes "abc") 0 0) 1 2 [] (by decide) (by decide)
      (by decide) (by decide)⟩

end TransposeLargeFile
